import Mathlib

/-!
Verification of the extraction-gym e-graph extraction library.

Shallow embedding notes:
* `ClassId` and `NodeId` are modelled as natural numbers (the source uses
  interned opaque strings; only equality is ever used).
* Costs are `NotNan<f64>` in the source; the data model of the spec restricts
  them to finite, totally ordered, summable numbers.  We model them as
  integers `ℤ` (a linearly ordered additive group with exact sums — none of
  the verified claims depends on fractional costs, and exact arithmetic is
  what the claims about sums and minima mean).  The distinguished value
  `INFINITY` only arises inside the algorithms (as the default for a class
  that has no recorded cost yet, and as the `junk` total of a rejected cost
  set); those computations happen in `WithTop ℤ`, whose `⊤` is absorbing for
  `+` and maximal for `<`, exactly like the float infinity on finite
  operands.
* `IndexMap` is modelled as an association list with insert-in-place-or-append
  (`ains`); `Vec` used as a stack (push / pop at the end) is modelled as a list
  with push / pop at the head, reversing pushed blocks so the pop order is
  identical to the source.
* Loops whose termination is not structural carry an explicit fuel parameter;
  the fuel bounds actually used are proved sufficient, so `none` results
  correspond exactly to the panics / divergences of the source.
-/

set_option maxHeartbeats 1600000

abbrev ClassId := Nat
abbrev NodeId := Nat

/-- Finite costs (the data model of the spec: totally ordered, summable). -/
abbrev Cost := ℤ

/-- Costs extended with the absorbing `INFINITY` used by the extractors. -/
abbrev CostI := WithTop ℤ

/-- The `INFINITY` constant of `src/main.rs`. -/
def INFINITY : CostI := ⊤

/-- An e-node of the serialized e-graph: operator, cost, children (node ids!),
owning class. -/
structure ENode where
  op : String
  cost : Cost
  children : List NodeId
  eclass : ClassId
deriving DecidableEq, Repr

/-- The serialized e-graph: insertion-ordered node map plus root classes. -/
structure EGraph where
  nodes : List (NodeId × ENode)
  rootEclasses : List ClassId
deriving DecidableEq, Repr

/-- Association list lookup (model of `IndexMap::get` / `HashMap::get`). -/
def alookup {β : Type} : List (Nat × β) → Nat → Option β
  | [], _ => none
  | (k, v) :: rest, a => if k = a then some v else alookup rest a

/-- Association list insert (model of `IndexMap::insert`): replaces the value
in place when the key is present, appends at the end otherwise. -/
def ains {β : Type} : List (Nat × β) → Nat → β → List (Nat × β)
  | [], a, b => [(a, b)]
  | (k, v) :: rest, a, b => if k = a then (a, b) :: rest else (k, v) :: ains rest a b

/-- Keys of an association list. -/
def akeys {β : Type} (l : List (Nat × β)) : List Nat := l.map (fun p => p.1)

/-- Worker for `dedupF`: keep elements not already seen. -/
def dedupGo (seen : List Nat) : List Nat → List Nat
  | [] => []
  | a :: l => if a ∈ seen then dedupGo seen l else a :: dedupGo (a :: seen) l

/-- First-occurrence deduplication (model of collecting into an `IndexSet` /
the first-seen order kept by `IndexMap`). -/
def dedupF (l : List Nat) : List Nat := dedupGo [] l

/-- Node lookup, `egraph[node_id]` (panics in the source when absent). -/
def EGraph.node? (g : EGraph) (n : NodeId) : Option ENode := alookup g.nodes n

/-- `egraph.nid_to_cid(node_id)` (panics in the source when absent). -/
def EGraph.nidToCid (g : EGraph) (n : NodeId) : Option ClassId :=
  (g.node? n).map (fun nd => nd.eclass)

/-- Total version of `nid_to_cid`, only ever used where the lookup succeeds. -/
def cidOf (g : EGraph) (n : NodeId) : ClassId := ((g.nidToCid n).getD 0)

/-- The class ids of the e-graph, one per distinct `eclass` value, in first
appearance order (the order `egraph.classes()` was built in). -/
def EGraph.classIds (g : EGraph) : List ClassId :=
  dedupF (g.nodes.map (fun p => p.2.eclass))

/-- The member nodes of one class, in node insertion order (the order
`class.nodes` was built in). -/
def EGraph.classNodes (g : EGraph) (c : ClassId) : List NodeId :=
  (g.nodes.filter (fun p => p.2.eclass = c)).map (fun p => p.1)

/-- The `choices` IndexMap of an `ExtractionResult`. -/
abbrev Choices := List (ClassId × NodeId)

/-- `nid_to_cid` applied to every child of a node, failing (panicking) when a
child id is dangling. -/
def childCids (g : EGraph) : List NodeId → Option (List ClassId)
  | [] => some []
  | ch :: rest =>
    match g.nidToCid ch, childCids g rest with
    | some c, some cs => some (c :: cs)
    | _, _ => none

/-- Cost of the chosen node of a class (total helper used to state sums). -/
def chosenCost (g : EGraph) (res : Choices) (c : ClassId) : Cost :=
  match alookup res c with
  | none => 0
  | some nid =>
    match alookup g.nodes nid with
    | none => 0
    | some nd => nd.cost

/-- Number of children of the node chosen for `c` (0 when lookups fail). -/
def chosenChildCount (g : EGraph) (res : Choices) (c : ClassId) : Nat :=
  match alookup res c with
  | none => 0
  | some nid =>
    match alookup g.nodes nid with
    | none => 0
    | some nd => nd.children.length

/-- The worklist loop of `ExtractionResult::dag_cost`.  The `todo` stack is
popped at the head; a block of children is pushed reversed so the pop order
matches the source's `Vec` push / pop at the end.  `none` models a panic
(missing choice or dangling node id); fuel exhaustion cannot occur at the
fuel used by `dagCost` (proved below). -/
def dagCostLoop (g : EGraph) (res : Choices) :
    Nat → List ClassId → List (ClassId × Cost) → Option (List (ClassId × Cost))
  | 0, _, _ => none
  | _ + 1, [], costs => some costs
  | fuel + 1, cid :: todo, costs =>
    match alookup res cid with
    | none => none
    | some nid =>
      match alookup g.nodes nid with
      | none => none
      | some node =>
        let costs2 := ains costs cid node.cost
        if (alookup costs cid).isSome then
          dagCostLoop g res fuel todo costs2
        else
          match childCids g node.children with
          | none => none
          | some ccs => dagCostLoop g res fuel (ccs.reverse ++ todo) costs2

/-- Fuel sufficient for `dagCostLoop` (proved below): one step per root plus
two steps per chosen class and per child edge of a chosen node. -/
def dagFuel (g : EGraph) (res : Choices) (roots : List ClassId) : Nat :=
  roots.length + 2 * ∑ c ∈ (akeys res).toFinset, (1 + chosenChildCount g res c) + 1

/-- `ExtractionResult::dag_cost`. -/
def dagCost (g : EGraph) (res : Choices) (roots : List ClassId) : Option Cost :=
  (dagCostLoop g res (dagFuel g res roots) roots.reverse []).map
    (fun costs => (costs.map (fun p => p.2)).sum)

/-- `ExtractionResult::tree_cost_rec` with explicit fuel and memo table.
Returns the accumulated cost together with the final memo table. -/
def treeCostRec (g : EGraph) (res : Choices) :
    Nat → List NodeId → List (NodeId × Cost) → Option (Cost × List (NodeId × Cost))
  | 0, _, _ => none
  | _ + 1, [], memo => some (0, memo)
  | fuel + 1, root :: roots, memo =>
    match alookup memo root with
    | some c =>
      match treeCostRec g res fuel roots memo with
      | none => none
      | some (s, m) => some (c + s, m)
    | none =>
      match g.nidToCid root with
      | none => none
      | some cls =>
        match alookup res cls with
        | none => none
        | some nid2 =>
          match alookup g.nodes nid2 with
          | none => none
          | some node =>
            match treeCostRec g res fuel node.children memo with
            | none => none
            | some (inner0, m1) =>
              let inner := node.cost + inner0
              match treeCostRec g res fuel roots (ains m1 root inner) with
              | none => none
              | some (s, m) => some (inner + s, m)

/-- `ExtractionResult::tree_cost` (fuel-indexed; the source recurses without
a bound and overflows the stack on deep or cyclic choice graphs). -/
def treeCost (fuel : Nat) (g : EGraph) (res : Choices) (roots : List ClassId) :
    Option Cost :=
  match roots.mapM (fun cid => alookup res cid) with
  | none => none
  | some nodeRoots =>
    match treeCostRec g res fuel nodeRoots [] with
    | none => none
    | some (c, _) => some c

/-- The choice graph: there is an edge from class `c` to class `d` when the
node chosen for `c` has a child belonging to class `d`. -/
def ChoiceEdge (g : EGraph) (res : Choices) (c d : ClassId) : Prop :=
  ∃ nid node ch chn, alookup res c = some nid ∧ alookup g.nodes nid = some node ∧
    ch ∈ node.children ∧ alookup g.nodes ch = some chn ∧ chn.eclass = d

/-- The classes reachable from `starts` by repeatedly following the children
of chosen nodes (the "reachable closure" of the spec). -/
inductive Reach (g : EGraph) (res : Choices) (starts : List ClassId) : ClassId → Prop
  | root {c : ClassId} : c ∈ starts → Reach g res starts c
  | child {c d : ClassId} : Reach g res starts c → ChoiceEdge g res c d →
      Reach g res starts d

/-- Decidable certificate that `S` is a list of classes containing the roots,
each of which has a chosen node present in the e-graph whose children resolve
and whose child classes stay in `S`.  This is the "choice for each class
reachable from the roots" precondition in checkable form. -/
def coveredBy (g : EGraph) (res : Choices) (roots : List ClassId)
    (S : List ClassId) : Bool :=
  roots.all (fun r => r ∈ S) &&
  S.all (fun c =>
    match alookup res c with
    | none => false
    | some nid =>
      match alookup g.nodes nid with
      | none => false
      | some node =>
        node.children.all (fun ch =>
          match alookup g.nodes ch with
          | none => false
          | some chn => chn.eclass ∈ S))

/-- The shared-subterm example of the spec: root class `R = 0` with node
`r = 0` (cost 1, children `[A, A]`), class `A = 1` with node `a = 1`
(cost 7, no children). -/
def exShared : EGraph :=
  { nodes := [(0, { op := "r", cost := 1, children := [1, 1], eclass := 0 }),
              (1, { op := "a", cost := 7, children := [], eclass := 1 })],
    rootEclasses := [0] }

/-- The choices `R -> r`, `A -> a` for `exShared`. -/
def exSharedRes : Choices := [(0, 0), (1, 1)]

example : dagCost exShared exSharedRes [0] = some 8 := by decide
example : treeCost 10 exShared exSharedRes [0] = some 15 := by decide
example : coveredBy exShared exSharedRes [0] [0, 1] = true := by decide

/-! ### Association list lemmas -/

theorem alookup_ains_self {β : Type} (l : List (Nat × β)) (k : Nat) (v : β) :
    alookup (ains l k v) k = some v := by
  induction l with
  | nil => simp [ains, alookup]
  | cons p t ih =>
    obtain ⟨a, b⟩ := p
    by_cases h : a = k
    · subst h; simp [ains, alookup]
    · simp [ains, alookup, h, ih]

theorem alookup_ains_ne {β : Type} (l : List (Nat × β)) (k : Nat) (v : β)
    (a : Nat) (h : k ≠ a) : alookup (ains l k v) a = alookup l a := by
  induction l with
  | nil => simp [ains, alookup, h]
  | cons p t ih =>
    obtain ⟨x, y⟩ := p
    by_cases hx : x = k
    · subst hx; simp [ains, alookup, h]
    · simp [ains, alookup, hx, ih]

theorem alookup_isSome_iff {β : Type} (l : List (Nat × β)) (a : Nat) :
    (alookup l a).isSome = true ↔ a ∈ akeys l := by
  induction l with
  | nil => simp [alookup, akeys]
  | cons p t ih =>
    obtain ⟨x, y⟩ := p
    by_cases hx : x = a
    · subst hx; simp [alookup, akeys]
    · simp [alookup, akeys, hx, ih, Ne.symm hx]

theorem alookup_eq_none_iff {β : Type} (l : List (Nat × β)) (a : Nat) :
    alookup l a = none ↔ a ∉ akeys l := by
  rw [← alookup_isSome_iff]
  cases h : alookup l a <;> simp [h]

theorem mem_of_alookup_eq_some {β : Type} {l : List (Nat × β)} {a : Nat} {b : β}
    (h : alookup l a = some b) : (a, b) ∈ l := by
  induction l with
  | nil => simp [alookup] at h
  | cons p t ih =>
    obtain ⟨x, y⟩ := p
    by_cases hx : x = a
    · subst hx; simp [alookup] at h; simp [h]
    · simp [alookup, hx] at h
      exact List.mem_cons_of_mem _ (ih h)

theorem mem_akeys_of_alookup_eq_some {β : Type} {l : List (Nat × β)} {a : Nat}
    {b : β} (h : alookup l a = some b) : a ∈ akeys l := by
  rw [← alookup_isSome_iff, h]; rfl

theorem mem_akeys_iff {β : Type} (l : List (Nat × β)) (a : Nat) :
    a ∈ akeys l ↔ ∃ b, (a, b) ∈ l := by
  simp [akeys]

theorem akeys_ains_of_mem {β : Type} {l : List (Nat × β)} {k : Nat} (v : β)
    (h : k ∈ akeys l) : akeys (ains l k v) = akeys l := by
  induction l with
  | nil => simp [akeys] at h
  | cons p t ih =>
    obtain ⟨x, y⟩ := p
    by_cases hx : x = k
    · subst hx; simp [ains, akeys]
    · have ht : k ∈ akeys t := by
        rcases (mem_akeys_iff ((x, y) :: t) k).mp h with ⟨b, hb⟩
        rcases List.mem_cons.mp hb with hb | hb
        · exact absurd (congrArg Prod.fst hb).symm hx
        · exact (mem_akeys_iff t k).mpr ⟨b, hb⟩
      simpa [ains, akeys, hx] using ih ht

theorem akeys_ains_of_not_mem {β : Type} {l : List (Nat × β)} {k : Nat} (v : β)
    (h : k ∉ akeys l) : akeys (ains l k v) = akeys l ++ [k] := by
  induction l with
  | nil => simp [ains, akeys]
  | cons p t ih =>
    obtain ⟨x, y⟩ := p
    have hx : x ≠ k := by
      intro hxk; subst hxk; exact h (by simp [akeys])
    have ht : k ∉ akeys t := by
      intro hk; exact h (by simp [akeys] at hk ⊢; tauto)
    simpa [ains, akeys, hx] using ih ht

theorem mem_ains_elim {β : Type} {l : List (Nat × β)} {k : Nat} {v : β}
    {p : Nat × β} (h : p ∈ ains l k v) : p = (k, v) ∨ p ∈ l := by
  induction l with
  | nil => simp [ains] at h; simp [h]
  | cons q t ih =>
    obtain ⟨x, y⟩ := q
    by_cases hx : x = k
    · subst hx
      simp [ains] at h
      rcases h with h | h
      · simp [h]
      · exact Or.inr (List.mem_cons_of_mem _ h)
    · simp [ains, hx] at h
      rcases h with h | h
      · exact Or.inr (by simp [h])
      · rcases ih h with h2 | h2
        · simp [h2]
        · exact Or.inr (List.mem_cons_of_mem _ h2)

theorem sum_map_eq_finset_sum (l : List (Nat × Cost)) (f : Nat → Cost)
    (hn : (akeys l).Nodup) (hv : ∀ p ∈ l, p.2 = f p.1) :
    (l.map (fun p => p.2)).sum = ∑ c ∈ (akeys l).toFinset, f c := by
  induction l with
  | nil => simp [akeys]
  | cons p t ih =>
    obtain ⟨a, b⟩ := p
    have hak : akeys ((a, b) :: t) = a :: akeys t := rfl
    rw [hak] at hn
    have hna : a ∉ akeys t := (List.nodup_cons.mp hn).1
    have hnt : (akeys t).Nodup := (List.nodup_cons.mp hn).2
    have hb : b = f a := hv (a, b) (List.mem_cons_self _ _)
    have hrest : ∀ p ∈ t, p.2 = f p.1 := fun q hq => hv q (List.mem_cons_of_mem _ hq)
    have : ((a :: akeys t).toFinset : Finset Nat) = insert a (akeys t).toFinset := by
      simp
    rw [hak, this]
    rw [Finset.sum_insert (by simpa using hna)]
    simp only [List.map_cons, List.sum_cons]
    rw [ih hnt hrest, hb]

theorem childCids_cons_elim {g : EGraph} {ch : NodeId} {rest : List NodeId}
    {ccs : List ClassId} (h : childCids g (ch :: rest) = some ccs) :
    ∃ c cs, g.nidToCid ch = some c ∧ childCids g rest = some cs ∧ ccs = c :: cs := by
  simp only [childCids] at h
  cases hc : g.nidToCid ch with
  | none => rw [hc] at h; simp at h
  | some c =>
    rw [hc] at h
    cases hr : childCids g rest with
    | none => rw [hr] at h; simp at h
    | some cs =>
      rw [hr] at h
      simp at h
      exact ⟨c, cs, rfl, rfl, h.symm⟩

theorem childCids_forall2 {g : EGraph} {l : List NodeId} {ccs : List ClassId}
    (h : childCids g l = some ccs) :
    List.Forall₂ (fun ch d => g.nidToCid ch = some d) l ccs := by
  induction l generalizing ccs with
  | nil =>
    have : ccs = [] := by simpa [childCids] using h.symm
    subst this
    exact List.Forall₂.nil
  | cons ch rest ih =>
    rcases childCids_cons_elim h with ⟨c, cs, hc, hr, hccs⟩
    subst hccs
    exact List.Forall₂.cons hc (ih hr)

theorem childCids_of_forall {g : EGraph} {l : List NodeId}
    (h : ∀ ch ∈ l, (g.nidToCid ch).isSome = true) :
    ∃ ccs, childCids g l = some ccs := by
  induction l with
  | nil => exact ⟨[], rfl⟩
  | cons ch rest ih =>
    have h1 := h ch (List.mem_cons_self _ _)
    cases hc : g.nidToCid ch with
    | none => rw [hc] at h1; simp at h1
    | some c =>
      rcases ih (fun x hx => h x (List.mem_cons_of_mem _ hx)) with ⟨cs, hcs⟩
      exact ⟨c :: cs, by simp [childCids, hc, hcs]⟩

theorem childCids_length {g : EGraph} {l : List NodeId} {ccs : List ClassId}
    (h : childCids g l = some ccs) : ccs.length = l.length :=
  (List.Forall₂.length_eq (childCids_forall2 h)).symm

theorem mem_of_childCids {g : EGraph} {l : List NodeId} {ccs : List ClassId}
    (h : childCids g l = some ccs) {d : ClassId} (hd : d ∈ ccs) :
    ∃ ch ∈ l, g.nidToCid ch = some d := by
  induction l generalizing ccs with
  | nil =>
    have : ccs = [] := by simpa [childCids] using h.symm
    subst this
    simp at hd
  | cons ch rest ih =>
    rcases childCids_cons_elim h with ⟨c, cs, hc, hr, hccs⟩
    subst hccs
    rcases List.mem_cons.mp hd with hd | hd
    · exact ⟨ch, List.mem_cons_self _ _, by rw [hc, hd]⟩
    · rcases ih hr hd with ⟨x, hx1, hx2⟩
      exact ⟨x, List.mem_cons_of_mem _ hx1, hx2⟩

/-- Unpacking of the `coveredBy` certificate. -/
theorem coveredBy_spec {g : EGraph} {res : Choices} {roots S : List ClassId}
    (h : coveredBy g res roots S = true) :
    (∀ r ∈ roots, r ∈ S) ∧
    ∀ c ∈ S, ∃ nid node, alookup res c = some nid ∧
      alookup g.nodes nid = some node ∧
      ∀ ch ∈ node.children, ∃ chn, alookup g.nodes ch = some chn ∧ chn.eclass ∈ S := by
  unfold coveredBy at h
  rw [Bool.and_eq_true] at h
  constructor
  · intro r hr
    have := (List.all_eq_true.mp h.1) r hr
    simpa using this
  · intro c hc
    have hcc := (List.all_eq_true.mp h.2) c hc
    cases h1 : alookup res c with
    | none => rw [h1] at hcc; simp at hcc
    | some nid =>
      rw [h1] at hcc
      simp only [] at hcc
      cases h2 : alookup g.nodes nid with
      | none => rw [h2] at hcc; simp at hcc
      | some node =>
        rw [h2] at hcc
        simp only [] at hcc
        refine ⟨nid, node, rfl, h2, ?_⟩
        intro ch hch
        have h3 := (List.all_eq_true.mp hcc) ch hch
        cases h4 : alookup g.nodes ch with
        | none => rw [h4] at h3; simp at h3
        | some chn =>
          rw [h4] at h3
          simp only [] at h3
          exact ⟨chn, rfl, by simpa using h3⟩

/-- Any list of classes containing the start classes and closed under choice
edges contains the whole reachable closure. -/
theorem reach_subset_of_closed {g : EGraph} {res : Choices} {roots : List ClassId}
    {K : ClassId → Prop} (hroots : ∀ r ∈ roots, K r)
    (hstep : ∀ c, K c → ∀ d, ChoiceEdge g res c d → K d) :
    ∀ c, Reach g res roots c → K c := by
  intro c h
  induction h with
  | root hc => exact hroots _ hc
  | child _ hedge ih => exact hstep _ ih _ hedge

theorem forall2_mem_left {α β : Type} {R : α → β → Prop} {l1 : List α}
    {l2 : List β} (h : List.Forall₂ R l1 l2) {a : α} (ha : a ∈ l1) :
    ∃ b ∈ l2, R a b := by
  induction h with
  | nil => simp at ha
  | cons hr _ ih =>
    rcases List.mem_cons.mp ha with ha | ha
    · subst ha; exact ⟨_, List.mem_cons_self _ _, hr⟩
    · rcases ih ha with ⟨b, hb1, hb2⟩
      exact ⟨b, List.mem_cons_of_mem _ hb1, hb2⟩

/-- Remaining work bound for the `dag_cost` worklist. -/
def dagSlack (g : EGraph) (res : Choices) (S : List ClassId)
    (costs : List (ClassId × Cost)) : Nat :=
  ∑ c ∈ S.toFinset \ (akeys costs).toFinset, (1 + chosenChildCount g res c)

/-- Invariants of the `dag_cost` worklist: pending classes are reachable and
covered, recorded entries carry the chosen node's cost, recorded classes have
all their choice children scheduled, and every root is scheduled. -/
def DagInv (g : EGraph) (res : Choices) (roots S : List ClassId)
    (todo : List ClassId) (costs : List (ClassId × Cost)) : Prop :=
  (∀ c ∈ todo, Reach g res roots c ∧ c ∈ S) ∧
  (∀ p ∈ costs, Reach g res roots p.1 ∧ p.1 ∈ S ∧ p.2 = chosenCost g res p.1) ∧
  (akeys costs).Nodup ∧
  (∀ c ∈ akeys costs, ∀ d, ChoiceEdge g res c d → d ∈ akeys costs ∨ d ∈ todo) ∧
  (∀ r ∈ roots, r ∈ akeys costs ∨ r ∈ todo)

theorem dagCostLoop_spec {g : EGraph} {res : Choices} {roots S : List ClassId}
    (hS : coveredBy g res roots S = true) :
    ∀ fuel todo costs, DagInv g res roots S todo costs →
    todo.length + 2 * dagSlack g res S costs < fuel →
    ∃ final, dagCostLoop g res fuel todo costs = some final ∧
      (akeys final).Nodup ∧ (∀ p ∈ final, p.2 = chosenCost g res p.1) ∧
      (∀ c, c ∈ akeys final ↔ Reach g res roots c) := by
  intro fuel
  induction fuel with
  | zero => intro todo costs _ h; exact absurd h (by omega)
  | succ fuel ih =>
    intro todo costs hinv hm
    obtain ⟨inv1, inv2, inv3, inv4, inv5⟩ := hinv
    match todo with
    | [] =>
      refine ⟨costs, rfl, inv3, fun p hp => (inv2 p hp).2.2, ?_⟩
      intro c
      constructor
      · intro hc
        rcases (mem_akeys_iff costs c).mp hc with ⟨v, hv⟩
        exact (inv2 _ hv).1
      · refine reach_subset_of_closed ?_ ?_ c
        · intro r hr
          rcases inv5 r hr with h | h
          · exact h
          · simp at h
        · intro x hx d hd
          rcases inv4 x hx d hd with h | h
          · exact h
          · simp at h
    | cid :: rest =>
      have hcidS : cid ∈ S := (inv1 cid (List.mem_cons_self _ _)).2
      have hcidR : Reach g res roots cid := (inv1 cid (List.mem_cons_self _ _)).1
      rcases (coveredBy_spec hS).2 cid hcidS with ⟨nid, node, hnid, hnode, hch⟩
      have hchres : ∀ ch ∈ node.children, (g.nidToCid ch).isSome = true := by
        intro ch hchm
        rcases hch ch hchm with ⟨chn, hchn, _⟩
        simp [EGraph.nidToCid, EGraph.node?, hchn]
      have hcost : chosenCost g res cid = node.cost := by
        simp [chosenCost, hnid, hnode]
      have hcc : chosenChildCount g res cid = node.children.length := by
        simp [chosenChildCount, hnid, hnode]
      by_cases hmem : cid ∈ akeys costs
      · -- already recorded: replace the (identical) entry, keep going
        have hsome : (alookup costs cid).isSome = true :=
          (alookup_isSome_iff costs cid).mpr hmem
        have hred : dagCostLoop g res (fuel + 1) (cid :: rest) costs =
            dagCostLoop g res fuel rest (ains costs cid node.cost) := by
          simp only [dagCostLoop, hnid, hnode, hsome, if_true]
        rw [hred]
        have hkeq : akeys (ains costs cid node.cost) = akeys costs :=
          akeys_ains_of_mem _ hmem
        have hslack : dagSlack g res S (ains costs cid node.cost) =
            dagSlack g res S costs := by
          unfold dagSlack
          rw [hkeq]
        refine ih rest (ains costs cid node.cost) ⟨?_, ?_, ?_, ?_, ?_⟩ ?_
        · intro c hc; exact inv1 c (List.mem_cons_of_mem _ hc)
        · intro p hp
          rcases mem_ains_elim hp with h | h
          · subst h
            exact ⟨hcidR, hcidS, hcost.symm⟩
          · exact inv2 p h
        · rw [hkeq]; exact inv3
        · intro c hc d hd
          rw [hkeq] at hc ⊢
          rcases inv4 c hc d hd with h | h
          · exact Or.inl h
          · rcases List.mem_cons.mp h with h | h
            · exact Or.inl (h ▸ hmem)
            · exact Or.inr h
        · intro r hr
          rw [hkeq]
          rcases inv5 r hr with h | h
          · exact Or.inl h
          · rcases List.mem_cons.mp h with h | h
            · exact Or.inl (h ▸ hmem)
            · exact Or.inr h
        · rw [hslack]
          simp only [List.length_cons] at hm
          omega
      · -- fresh class: record it and push its choice children
        have hsome : (alookup costs cid).isSome = false := by
          cases h : alookup costs cid with
          | none => rfl
          | some v => exact absurd (mem_akeys_of_alookup_eq_some h) hmem
        rcases childCids_of_forall hchres with ⟨ccs, hccs⟩
        have hred : dagCostLoop g res (fuel + 1) (cid :: rest) costs =
            dagCostLoop g res fuel (ccs.reverse ++ rest) (ains costs cid node.cost) := by
          simp only [dagCostLoop, hnid, hnode, hsome, Bool.false_eq_true, if_false, hccs]
        rw [hred]
        have hkeq : akeys (ains costs cid node.cost) = akeys costs ++ [cid] :=
          akeys_ains_of_not_mem _ hmem
        have hlen : ccs.length = node.children.length := childCids_length hccs
        -- the new frontier classes are exactly the choice children of cid
        have hccsmem : ∀ d ∈ ccs, ChoiceEdge g res cid d ∧ d ∈ S := by
          intro d hd
          rcases mem_of_childCids hccs hd with ⟨ch, hchm, hchd⟩
          rcases hch ch hchm with ⟨chn, hchn, hchnS⟩
          have : chn.eclass = d := by
            simp [EGraph.nidToCid, EGraph.node?, hchn] at hchd
            exact hchd
          exact ⟨⟨nid, node, ch, chn, hnid, hnode, hchm, hchn, this⟩, this ▸ hchnS⟩
        have hslack : dagSlack g res S costs =
            dagSlack g res S (ains costs cid node.cost) + (1 + node.children.length) := by
          unfold dagSlack
          rw [hkeq]
          have hset : (S.toFinset \ ((akeys costs ++ [cid]).toFinset) : Finset ClassId) =
              (S.toFinset \ (akeys costs).toFinset).erase cid := by
            ext x
            simp [Finset.mem_sdiff, Finset.mem_erase]
            tauto
          rw [hset]
          have hcidmem : cid ∈ S.toFinset \ (akeys costs).toFinset := by
            simp [Finset.mem_sdiff]
            exact ⟨hcidS, hmem⟩
          rw [← Finset.sum_erase_add _ _ hcidmem, hcc]
        refine ih (ccs.reverse ++ rest) (ains costs cid node.cost) ⟨?_, ?_, ?_, ?_, ?_⟩ ?_
        · intro c hc
          rcases List.mem_append.mp hc with h | h
          · rcases hccsmem c (List.mem_reverse.mp h) with ⟨hedge, hcS⟩
            exact ⟨Reach.child hcidR hedge, hcS⟩
          · exact inv1 c (List.mem_cons_of_mem _ h)
        · intro p hp
          rcases mem_ains_elim hp with h | h
          · subst h
            exact ⟨hcidR, hcidS, hcost.symm⟩
          · exact inv2 p h
        · rw [hkeq]
          refine List.Nodup.append inv3 (by simp) ?_
          intro a ha hb
          simp at hb
          exact hmem (hb ▸ ha)
        · intro c hc d hd
          rw [hkeq] at hc ⊢
          rcases List.mem_append.mp hc with h | h
          · rcases inv4 c h d hd with h2 | h2
            · exact Or.inl (List.mem_append.mpr (Or.inl h2))
            · rcases List.mem_cons.mp h2 with h2 | h2
              · exact Or.inl (List.mem_append.mpr (Or.inr (by simp [h2])))
              · exact Or.inr (List.mem_append.mpr (Or.inr h2))
          · -- c = cid: its edges go exactly to the pushed classes
            simp at h
            subst h
            rcases hd with ⟨nid2, node2, ch, chn, hnid2, hnode2, hchm, hchn, hecls⟩
            have : nid2 = nid := by rw [hnid] at hnid2; exact (Option.some.inj hnid2).symm
            subst this
            have : node2 = node := by rw [hnode] at hnode2; exact (Option.some.inj hnode2).symm
            subst this
            have : g.nidToCid ch = some d := by
              simp [EGraph.nidToCid, EGraph.node?, hchn, hecls]
            rcases forall2_mem_left (childCids_forall2 hccs) hchm with ⟨b, hb1, hb2⟩
            have : b = d := by rw [this] at hb2; exact (Option.some.inj hb2).symm
            subst this
            exact Or.inr (List.mem_append.mpr (Or.inl (List.mem_reverse.mpr hb1)))
        · intro r hr
          rw [hkeq]
          rcases inv5 r hr with h | h
          · exact Or.inl (List.mem_append.mpr (Or.inl h))
          · rcases List.mem_cons.mp h with h | h
            · exact Or.inl (List.mem_append.mpr (Or.inr (by simp [h])))
            · exact Or.inr (List.mem_append.mpr (Or.inr h))
        · rw [hslack] at hm
          simp only [List.length_append, List.length_reverse, List.length_cons] at hm ⊢
          omega

/-- The dag_cost worklist, started on the roots with sufficient fuel, succeeds
and its recorded table enumerates exactly the reachable closure with the
chosen nodes' costs. -/
theorem dagCost_run {g : EGraph} {res : Choices} {roots S : List ClassId}
    (hS : coveredBy g res roots S = true) :
    ∃ final, dagCostLoop g res (dagFuel g res roots) roots.reverse [] = some final ∧
      (akeys final).Nodup ∧ (∀ p ∈ final, p.2 = chosenCost g res p.1) ∧
      (∀ c, c ∈ akeys final ↔ Reach g res roots c) := by
  have hspec := coveredBy_spec hS
  refine dagCostLoop_spec hS (dagFuel g res roots) roots.reverse [] ⟨?_, ?_, ?_, ?_, ?_⟩ ?_
  · intro c hc
    have hcr : c ∈ roots := List.mem_reverse.mp hc
    exact ⟨Reach.root hcr, hspec.1 c hcr⟩
  · intro p hp; simp at hp
  · simp [akeys]
  · intro c hc; simp [akeys] at hc
  · intro r hr
    exact Or.inr (List.mem_reverse.mpr hr)
  · have hsub : S.toFinset ⊆ (akeys res).toFinset := by
      intro c hc
      rcases hspec.2 c (List.mem_toFinset.mp hc) with ⟨nid, _, hnid, _, _⟩
      exact List.mem_toFinset.mpr (mem_akeys_of_alookup_eq_some hnid)
    have hle : dagSlack g res S [] ≤
        ∑ c ∈ (akeys res).toFinset, (1 + chosenChildCount g res c) := by
      unfold dagSlack
      have : (S.toFinset \ ((akeys ([] : List (ClassId × Cost))).toFinset) : Finset ClassId)
          = S.toFinset := by simp [akeys]
      rw [this]
      exact Finset.sum_le_sum_of_subset hsub
    unfold dagFuel
    simp only [List.length_reverse]
    omega

/-- Claim C1.  For every e-graph, root list and extraction result covering the
reachable closure of the roots (certified by any list `S` as in `coveredBy`),
`dag_cost` returns exactly the sum, over the set of classes in the reachable
closure, of the cost of the node chosen for that class — each reachable class
contributing exactly once no matter how often it is reached.  In particular,
on the shared-subterm example (`R -> r` of cost 1 with children `[A, A]`,
`A -> a` of cost 7), `dag_cost` is 8 while `tree_cost` is 15. -/
theorem dagCost_eq_sum_over_reachable_closure (g : EGraph) (res : Choices)
    (roots S : List ClassId) (hS : coveredBy g res roots S = true) :
    (∃ T : Finset ClassId, (∀ c, c ∈ T ↔ Reach g res roots c) ∧
      dagCost g res roots = some (∑ c ∈ T, chosenCost g res c)) ∧
    dagCost exShared exSharedRes [0] = some 8 ∧
    treeCost 10 exShared exSharedRes [0] = some 15 := by
  refine ⟨?_, by decide, by decide⟩
  rcases dagCost_run hS with ⟨final, hrun, hnodup, hval, hiff⟩
  refine ⟨(akeys final).toFinset, ?_, ?_⟩
  · intro c
    rw [List.mem_toFinset]
    exact hiff c
  · unfold dagCost
    rw [hrun]
    exact congrArg some (sum_map_eq_finset_sum final (chosenCost g res) hnodup hval)

/-- A one-class, one-node e-graph whose node lists its own class as a child:
the induced choice graph is a cycle. -/
def exLoop : EGraph :=
  { nodes := [(0, { op := "f", cost := 5, children := [0], eclass := 0 })],
    rootEclasses := [0] }

/-- The only possible choice for `exLoop`. -/
def exLoopRes : Choices := [(0, 0)]

/-- Claim C5.  `dag_cost` terminates (the fuel proved sufficient above is
enough even then) whenever every reachable class has a choice — including
when the induced choice graph is cyclic, because a class is recorded in the
cost map before its children are pushed.  The second conjunct runs it on a
concretely cyclic one-class e-graph. -/
theorem dagCost_terminates_even_on_cyclic_choice (g : EGraph) (res : Choices)
    (roots S : List ClassId) (hS : coveredBy g res roots S = true) :
    (∃ v, dagCost g res roots = some v) ∧
    dagCost exLoop exLoopRes [0] = some 5 := by
  refine ⟨?_, by decide⟩
  rcases dagCost_run hS with ⟨final, hrun, _, _, _⟩
  exact ⟨(final.map (fun p => p.2)).sum, by unfold dagCost; rw [hrun]; rfl⟩

theorem dagCost_eq_sum_over_reachable_closure_witness :
    coveredBy exShared exSharedRes [0] [0, 1] = true ∧
    ((∃ T : Finset ClassId, (∀ c, c ∈ T ↔ Reach exShared exSharedRes [0] c) ∧
        dagCost exShared exSharedRes [0] =
          some (∑ c ∈ T, chosenCost exShared exSharedRes c)) ∧
      dagCost exShared exSharedRes [0] = some 8 ∧
      treeCost 10 exShared exSharedRes [0] = some 15) :=
  ⟨by decide, dagCost_eq_sum_over_reachable_closure exShared exSharedRes [0] [0, 1] (by decide)⟩

theorem dagCost_terminates_even_on_cyclic_choice_witness :
    coveredBy exLoop exLoopRes [0] [0] = true ∧
    ((∃ v, dagCost exLoop exLoopRes [0] = some v) ∧
      dagCost exLoop exLoopRes [0] = some 5) :=
  ⟨by decide, dagCost_terminates_even_on_cyclic_choice exLoop exLoopRes [0] [0] (by decide)⟩

/-! ### `ExtractionResult::check`, `find_cycles` and the coverage walk -/

/-- The two live colors of the source's `Status` enum (`Todo` is commented out
in the source; absence from the map plays its role). -/
inductive DfsStatus where
  | doing
  | done
deriving DecidableEq, Repr

/-- Explicit continuation stack for the recursive `cycle_dfs`: `visit c` is a
pending recursive call, `finish c` marks `c` `Done` once its children are
fully explored. -/
inductive DfsTask where
  | visit (c : ClassId)
  | finish (c : ClassId)
deriving DecidableEq, Repr

/-- `ExtractionResult::cycle_dfs`, defunctionalized: the recursion of the
source is encoded by an explicit task stack (children are visited in order;
after all children of a fresh class, its `finish` task marks it `Done`).
`none` models a panic (missing choice or dangling node id) or fuel
exhaustion; the fuel used by `findCycles` is proved sufficient. -/
def dfsLoop (g : EGraph) (res : Choices) :
    Nat → List DfsTask → List (ClassId × DfsStatus) → List ClassId →
    Option (List (ClassId × DfsStatus) × List ClassId)
  | 0, _, _, _ => none
  | _ + 1, [], st, cy => some (st, cy)
  | fuel + 1, DfsTask.finish c :: rest, st, cy =>
    dfsLoop g res fuel rest (ains st c DfsStatus.done) cy
  | fuel + 1, DfsTask.visit c :: rest, st, cy =>
    match alookup st c with
    | some DfsStatus.done => dfsLoop g res fuel rest st cy
    | some DfsStatus.doing => dfsLoop g res fuel rest st (cy ++ [c])
    | none =>
      match alookup res c with
      | none => none
      | some nid =>
        match alookup g.nodes nid with
        | none => none
        | some node =>
          match childCids g node.children with
          | none => none
          | some ccs =>
            dfsLoop g res fuel
              (ccs.map DfsTask.visit ++ DfsTask.finish c :: rest)
              (ains st c DfsStatus.doing) cy

/-- Fuel sufficient for `dfsLoop` (proved below). -/
def dfsFuel (g : EGraph) (res : Choices) (roots : List ClassId) : Nat :=
  roots.length + ∑ c ∈ (akeys res).toFinset, (2 + chosenChildCount g res c) + 1

/-- `ExtractionResult::find_cycles`: run the DFS from each root in turn on a
shared status map, collecting the classes hit while `Doing`. -/
def findCycles (g : EGraph) (res : Choices) (roots : List ClassId) :
    Option (List ClassId) :=
  (dfsLoop g res (dfsFuel g res roots) (roots.map DfsTask.visit) [] []).map
    (fun p => p.2)

/-- The final worklist of `check` ("all the nodes the roots depend upon should
be selected").  Returns the verdict together with the final visited set (the
source's local `visited`, returned here as ghost information); `some false`
models the panic of a failed assert or lookup, `none` only fuel exhaustion. -/
def coverLoop (g : EGraph) (res : Choices) :
    Nat → List ClassId → List ClassId → Option (Bool × List ClassId)
  | 0, _, _ => none
  | _ + 1, [], visited => some (true, visited)
  | fuel + 1, c :: todo, visited =>
    if c ∈ visited then coverLoop g res fuel todo visited
    else
      match alookup res c with
      | none => some (false, visited)
      | some nid =>
        match alookup g.nodes nid with
        | none => some (false, visited)
        | some node =>
          match childCids g node.children with
          | none => some (false, visited)
          | some ccs => coverLoop g res fuel (ccs.reverse ++ todo) (c :: visited)

/-- `ExtractionResult::check` as a boolean: `true` means it returns normally,
`false` that some assert fails or some indexing panics.  The asserts run in
source order: non-empty roots, all roots chosen, no cycles, chosen nodes
match their class, and all classes the roots depend on are chosen. -/
def checkRes (g : EGraph) (res : Choices) : Bool :=
  if g.rootEclasses.isEmpty then false
  else if !(g.rootEclasses.all (fun c => (alookup res c).isSome)) then false
  else
    match findCycles g res g.rootEclasses with
    | none => false
    | some cycles =>
      if !cycles.isEmpty then false
      else if !(res.all (fun p =>
          match alookup g.nodes p.2 with
          | none => false
          | some nd => nd.eclass = p.1)) then false
      else
        match coverLoop g res (dagFuel g res g.rootEclasses)
            g.rootEclasses.reverse [] with
        | none => false
        | some ok => ok.1

/-- Validity invariant 1: every root class has a choice. -/
def RootsChosen (g : EGraph) (res : Choices) : Prop :=
  ∀ c ∈ g.rootEclasses, (alookup res c).isSome = true

/-- Validity invariant 2: every choice's node exists and belongs to the class
it is chosen for. -/
def ChoicesMatch (g : EGraph) (res : Choices) : Prop :=
  ∀ p ∈ res, ∃ nd, alookup g.nodes p.2 = some nd ∧ nd.eclass = p.1

/-- Validity invariant 3: every class reachable from the roots via chosen
nodes' children has a choice. -/
def ReachChosen (g : EGraph) (res : Choices) : Prop :=
  ∀ c, Reach g res g.rootEclasses c → (alookup res c).isSome = true

/-- Validity invariant 4: the choice graph reachable from the roots is
acyclic. -/
def ChoiceAcyclic (g : EGraph) (res : Choices) : Prop :=
  ∀ c, Reach g res g.rootEclasses c →
    ¬ Relation.TransGen (ChoiceEdge g res) c c

/-- Every node id mentioned as a child anywhere in the e-graph resolves (the
serialized e-graph format guarantees this). -/
def WFChildren (g : EGraph) : Prop :=
  ∀ p ∈ g.nodes, ∀ ch ∈ p.2.children, (alookup g.nodes ch).isSome = true

/-- An e-graph with a valid single node, but an empty root list. -/
def exNoRoots : EGraph :=
  { nodes := [(0, { op := "a", cost := 1, children := [], eclass := 0 })],
    rootEclasses := [] }

/-- Claim C10: `check` starts with `assert!(!egraph.root_eclasses.is_empty())`,
so it panics on every e-graph whose root list is empty, whatever the result
contains. -/
theorem check_panics_on_empty_roots (g : EGraph) (res : Choices)
    (h : g.rootEclasses = []) : checkRes g res = false := by
  unfold checkRes
  rw [h]
  rfl

theorem check_panics_on_empty_roots_witness :
    exNoRoots.rootEclasses = [] ∧ checkRes exNoRoots [] = false :=
  ⟨rfl, check_panics_on_empty_roots exNoRoots [] rfl⟩

/-- Success of the coverage walk: when every reachable class is chosen, its
node exists, and children resolve, the walk completes with verdict `true`. -/
theorem coverLoop_success {g : EGraph} {res : Choices}
    (h2 : ChoicesMatch g res) (h3 : ReachChosen g res) (hwf : WFChildren g) :
    ∀ fuel todo visited,
    (∀ c ∈ todo, Reach g res g.rootEclasses c) →
    todo.length + 2 * (∑ c ∈ (akeys res).toFinset \ visited.toFinset,
        (1 + chosenChildCount g res c)) < fuel →
    ∃ V, coverLoop g res fuel todo visited = some (true, V) := by
  intro fuel
  induction fuel with
  | zero => intro todo visited _ h; exact absurd h (by omega)
  | succ fuel ih =>
    intro todo visited htodo hm
    match todo with
    | [] => exact ⟨visited, rfl⟩
    | c :: rest =>
      have hcR : Reach g res g.rootEclasses c := htodo c (List.mem_cons_self _ _)
      by_cases hvis : c ∈ visited
      · have hred : coverLoop g res (fuel + 1) (c :: rest) visited =
            coverLoop g res fuel rest visited := by
          simp only [coverLoop, if_pos hvis]
        rw [hred]
        refine ih rest visited (fun x hx => htodo x (List.mem_cons_of_mem _ hx)) ?_
        simp only [List.length_cons] at hm
        omega
      · have hsome := h3 c hcR
        cases hnid : alookup res c with
        | none => rw [hnid] at hsome; simp at hsome
        | some nid =>
          rcases h2 (c, nid) (mem_of_alookup_eq_some hnid) with ⟨node, hnode, hecls⟩
          have hmemn : (nid, node) ∈ g.nodes := mem_of_alookup_eq_some hnode
          have hchres : ∀ ch ∈ node.children, (g.nidToCid ch).isSome = true := by
            intro ch hch
            have := hwf (nid, node) hmemn ch hch
            cases hl : alookup g.nodes ch with
            | none => rw [hl] at this; simp at this
            | some x => simp [EGraph.nidToCid, EGraph.node?, hl]
          rcases childCids_of_forall hchres with ⟨ccs, hccs⟩
          have hred : coverLoop g res (fuel + 1) (c :: rest) visited =
              coverLoop g res fuel (ccs.reverse ++ rest) (c :: visited) := by
            simp only [coverLoop, if_neg hvis, hnid, hnode, hccs]
          rw [hred]
          have hcckey : c ∈ (akeys res).toFinset :=
            List.mem_toFinset.mpr (mem_akeys_of_alookup_eq_some hnid)
          have hcc : chosenChildCount g res c = ccs.length := by
            simp [chosenChildCount, hnid, hnode, childCids_length hccs]
          have hccsR : ∀ d ∈ ccs, Reach g res g.rootEclasses d := by
            intro d hd
            rcases mem_of_childCids hccs hd with ⟨ch, hchm, hchd⟩
            cases hl : alookup g.nodes ch with
            | none => simp [EGraph.nidToCid, EGraph.node?, hl] at hchd
            | some chn =>
              have hde : chn.eclass = d := by
                simp [EGraph.nidToCid, EGraph.node?, hl] at hchd
                exact hchd
              exact Reach.child hcR ⟨nid, node, ch, chn, hnid, hnode, hchm, hl, hde⟩
          refine ih (ccs.reverse ++ rest) (c :: visited) ?_ ?_
          · intro x hx
            rcases List.mem_append.mp hx with hx | hx
            · exact hccsR x (List.mem_reverse.mp hx)
            · exact htodo x (List.mem_cons_of_mem _ hx)
          · have hset : ((akeys res).toFinset \ ((c :: visited).toFinset) : Finset ClassId) =
                ((akeys res).toFinset \ visited.toFinset).erase c := by
              ext x
              simp [Finset.mem_sdiff, Finset.mem_erase]
              tauto
            have hcmem : c ∈ (akeys res).toFinset \ visited.toFinset := by
              simp [Finset.mem_sdiff]
              exact ⟨List.mem_toFinset.mp hcckey, hvis⟩
            have hsum : ∑ x ∈ (akeys res).toFinset \ visited.toFinset,
                (1 + chosenChildCount g res x) =
                (∑ x ∈ ((akeys res).toFinset \ visited.toFinset).erase c,
                  (1 + chosenChildCount g res x)) + (1 + ccs.length) := by
              rw [← hcc, Finset.sum_erase_add _ _ hcmem]
            rw [hset]
            simp only [List.length_append, List.length_reverse, List.length_cons] at hm ⊢
            omega

/-- Closure property of a successful coverage walk: every class in the final
visited set has a resolvable choice all of whose child classes are again in
the set, and everything scheduled ends up in the set. -/
theorem coverLoop_closure {g : EGraph} {res : Choices} :
    ∀ fuel todo visited V,
    coverLoop g res fuel todo visited = some (true, V) →
    (∀ c ∈ visited, ∃ nid node ccs, alookup res c = some nid ∧
      alookup g.nodes nid = some node ∧ childCids g node.children = some ccs ∧
      ∀ d ∈ ccs, d ∈ visited ∨ d ∈ todo) →
    (visited ⊆ V ∧ todo ⊆ V ∧
      ∀ c ∈ V, ∃ nid node ccs, alookup res c = some nid ∧
        alookup g.nodes nid = some node ∧ childCids g node.children = some ccs ∧
        ∀ d ∈ ccs, d ∈ V) := by
  intro fuel
  induction fuel with
  | zero => intro todo visited V h; simp [coverLoop] at h
  | succ fuel ih =>
    intro todo visited V h hinv
    match todo with
    | [] =>
      have hV : V = visited := by
        simp [coverLoop] at h
        exact h.symm
      subst hV
      refine ⟨fun x hx => hx, fun x hx => absurd hx (by simp), ?_⟩
      intro c hc
      rcases hinv c hc with ⟨nid, node, ccs, h1, h2, h3, h4⟩
      refine ⟨nid, node, ccs, h1, h2, h3, ?_⟩
      intro d hd
      rcases h4 d hd with h | h
      · exact h
      · simp at h
    | c :: rest =>
      by_cases hvis : c ∈ visited
      · rw [show coverLoop g res (fuel + 1) (c :: rest) visited =
            coverLoop g res fuel rest visited by simp only [coverLoop, if_pos hvis]] at h
        have hinv2 : ∀ x ∈ visited, ∃ nid node ccs, alookup res x = some nid ∧
            alookup g.nodes nid = some node ∧ childCids g node.children = some ccs ∧
            ∀ d ∈ ccs, d ∈ visited ∨ d ∈ rest := by
          intro x hx
          rcases hinv x hx with ⟨nid, node, ccs, h1, h2, h3, h4⟩
          refine ⟨nid, node, ccs, h1, h2, h3, ?_⟩
          intro d hd
          rcases h4 d hd with hh | hh
          · exact Or.inl hh
          · rcases List.mem_cons.mp hh with hh | hh
            · exact Or.inl (hh ▸ hvis)
            · exact Or.inr hh
        rcases ih rest visited V h hinv2 with ⟨hv, ht, hcl⟩
        exact ⟨hv, fun x hx => by
          rcases List.mem_cons.mp hx with hx | hx
          · exact hv (hx ▸ hvis)
          · exact ht hx, hcl⟩
      · -- fresh class: the loop must have succeeded through the lookups
        cases hnid : alookup res c with
        | none =>
          rw [show coverLoop g res (fuel + 1) (c :: rest) visited =
              some (false, visited) by simp only [coverLoop, if_neg hvis, hnid]] at h
          simp at h
        | some nid =>
          cases hnode : alookup g.nodes nid with
          | none =>
            rw [show coverLoop g res (fuel + 1) (c :: rest) visited =
                some (false, visited) by simp only [coverLoop, if_neg hvis, hnid, hnode]] at h
            simp at h
          | some node =>
            cases hccs : childCids g node.children with
            | none =>
              rw [show coverLoop g res (fuel + 1) (c :: rest) visited =
                  some (false, visited) by
                simp only [coverLoop, if_neg hvis, hnid, hnode, hccs]] at h
              simp at h
            | some ccs =>
              rw [show coverLoop g res (fuel + 1) (c :: rest) visited =
                  coverLoop g res fuel (ccs.reverse ++ rest) (c :: visited) by
                simp only [coverLoop, if_neg hvis, hnid, hnode, hccs]] at h
              have hinv2 : ∀ x ∈ (c :: visited), ∃ nid2 node2 ccs2,
                  alookup res x = some nid2 ∧ alookup g.nodes nid2 = some node2 ∧
                  childCids g node2.children = some ccs2 ∧
                  ∀ d ∈ ccs2, d ∈ (c :: visited) ∨ d ∈ (ccs.reverse ++ rest) := by
                intro x hx
                rcases List.mem_cons.mp hx with hx | hx
                · subst hx
                  refine ⟨nid, node, ccs, hnid, hnode, hccs, ?_⟩
                  intro d hd
                  exact Or.inr (List.mem_append.mpr (Or.inl (List.mem_reverse.mpr hd)))
                · rcases hinv x hx with ⟨nid2, node2, ccs2, h1, h2, h3, h4⟩
                  refine ⟨nid2, node2, ccs2, h1, h2, h3, ?_⟩
                  intro d hd
                  rcases h4 d hd with hh | hh
                  · exact Or.inl (List.mem_cons_of_mem _ hh)
                  · rcases List.mem_cons.mp hh with hh | hh
                    · exact Or.inl (by simp [hh])
                    · exact Or.inr (List.mem_append.mpr (Or.inr hh))
              rcases ih _ _ V h hinv2 with ⟨hv, ht, hcl⟩
              refine ⟨fun x hx => hv (List.mem_cons_of_mem _ hx), ?_, hcl⟩
              intro x hx
              rcases List.mem_cons.mp hx with hx | hx
              · exact hv (by simp [hx])
              · exact ht (List.mem_append.mpr (Or.inr hx))

/-- Well-formedness of the DFS task stack: the `finish` tasks, read left to
right, are exactly the currently open (`Doing`) classes from innermost to
outermost, and every pending `visit` is a choice child of the innermost open
class enclosing it (or an original root when none encloses it). -/
inductive TaskStack (g : EGraph) (res : Choices) : List DfsTask → List ClassId → Prop
  | nil : TaskStack g res [] []
  | vis {c : ClassId} {rest : List DfsTask} {stack : List ClassId} :
      (stack = [] ∨ ∃ d tl, stack = d :: tl ∧ ChoiceEdge g res d c) →
      TaskStack g res rest stack → TaskStack g res (DfsTask.visit c :: rest) stack
  | fin {c : ClassId} {rest : List DfsTask} {stack : List ClassId} :
      TaskStack g res rest stack → TaskStack g res (DfsTask.finish c :: rest) (c :: stack)

theorem taskStack_prepend {g : EGraph} {res : Choices} {L : List ClassId}
    {stack : List ClassId} {ts : List DfsTask}
    (hc : ∀ d ∈ L, stack = [] ∨ ∃ e tl, stack = e :: tl ∧ ChoiceEdge g res e d)
    (ht : TaskStack g res ts stack) :
    TaskStack g res (L.map DfsTask.visit ++ ts) stack := by
  induction L with
  | nil => simpa using ht
  | cons d L ih =>
    exact TaskStack.vis (hc d (List.mem_cons_self _ _))
      (ih (fun x hx => hc x (List.mem_cons_of_mem _ hx)))

/-- Walking down a chained stack: from any member to the innermost element. -/
theorem stack_path {g : EGraph} {res : Choices} :
    ∀ {stack : List ClassId},
    List.Chain' (fun a b => ChoiceEdge g res b a) stack →
    ∀ {c : ClassId}, c ∈ stack → ∀ {d : ClassId} {tl : List ClassId},
    stack = d :: tl → Relation.ReflTransGen (ChoiceEdge g res) c d := by
  intro stack
  induction stack with
  | nil => intro _ c hc; simp at hc
  | cons e tl ih =>
    intro hchain c hc d tl2 heq
    obtain ⟨he, htl⟩ : e = d ∧ tl = tl2 := by
      have h1 := congrArg (fun l => List.head? l) heq
      have h2 := congrArg (fun l => List.tail l) heq
      simp at h1 h2
      exact ⟨h1, h2⟩
    subst he; subst htl
    rcases List.mem_cons.mp hc with hc | hc
    · exact hc ▸ Relation.ReflTransGen.refl
    · match tl, hc with
      | f :: tl3, hc =>
        have hchain2 : List.Chain' (fun a b => ChoiceEdge g res b a) (f :: tl3) :=
          (List.chain'_cons.mp hchain).2
        have hef : ChoiceEdge g res f e := (List.chain'_cons.mp hchain).1
        have := ih hchain2 hc rfl
        exact Relation.ReflTransGen.tail this hef

/-- The DFS loop, run while the reachable choice graph is acyclic, completes
without touching the cycle list. -/
theorem dfsLoop_no_cycle {g : EGraph} {res : Choices}
    (h2 : ChoicesMatch g res) (h3 : ReachChosen g res) (hwf : WFChildren g)
    (h4 : ChoiceAcyclic g res) :
    ∀ fuel tasks st cy stack,
    TaskStack g res tasks stack →
    List.Chain' (fun a b => ChoiceEdge g res b a) stack →
    stack.Nodup →
    (∀ c, alookup st c = some DfsStatus.doing ↔ c ∈ stack) →
    (∀ c ∈ stack, Reach g res g.rootEclasses c) →
    (∀ c, DfsTask.visit c ∈ tasks → Reach g res g.rootEclasses c) →
    tasks.length + ∑ c ∈ (akeys res).toFinset \ (akeys st).toFinset,
      (2 + chosenChildCount g res c) < fuel →
    ∃ stF, dfsLoop g res fuel tasks st cy = some (stF, cy) := by
  intro fuel
  induction fuel with
  | zero => intro tasks st cy stack _ _ _ _ _ _ h; exact absurd h (by omega)
  | succ fuel ih =>
    intro tasks st cy stack hts hchain hnodup hdoing hstackR hvisR hm
    match tasks with
    | [] => exact ⟨st, rfl⟩
    | DfsTask.finish c :: rest =>
      cases hts with
      | fin hts2 =>
        rename_i stack2
        have hcdo : alookup st c = some DfsStatus.doing :=
          (hdoing c).mpr (List.mem_cons_self _ _)
        have hckey : c ∈ akeys st := mem_akeys_of_alookup_eq_some hcdo
        have hkeq : akeys (ains st c DfsStatus.done) = akeys st :=
          akeys_ains_of_mem _ hckey
        have hcn : c ∉ stack2 := (List.nodup_cons.mp hnodup).1
        refine ih rest (ains st c DfsStatus.done) cy stack2 hts2
          (List.Chain'.tail hchain) (List.nodup_cons.mp hnodup).2 ?_
          (fun x hx => hstackR x (List.mem_cons_of_mem _ hx))
          (fun x hx => hvisR x (List.mem_cons_of_mem _ hx)) ?_
        · intro x
          by_cases hxc : x = c
          · subst hxc
            rw [alookup_ains_self]
            simp [hcn]
          · rw [alookup_ains_ne _ _ _ _ (fun h => hxc h.symm)]
            rw [hdoing x]
            constructor
            · intro h
              rcases List.mem_cons.mp h with h | h
              · exact absurd h hxc
              · exact h
            · exact fun h => List.mem_cons_of_mem _ h
        · rw [hkeq]
          simp only [List.length_cons] at hm
          omega
    | DfsTask.visit c :: rest =>
      cases hts with
      | vis hcond hts2 =>
        cases hst : alookup st c with
        | some s =>
          cases s with
          | done =>
            have hred : dfsLoop g res (fuel + 1) (DfsTask.visit c :: rest) st cy =
                dfsLoop g res fuel rest st cy := by
              simp only [dfsLoop, hst]
            rw [hred]
            refine ih rest st cy stack hts2 hchain hnodup hdoing hstackR
              (fun x hx => hvisR x (List.mem_cons_of_mem _ hx)) ?_
            simp only [List.length_cons] at hm
            omega
          | doing =>
            -- a `Doing` hit would report a cycle; acyclicity rules it out
            exfalso
            have hcs : c ∈ stack := (hdoing c).mp hst
            have hne : stack ≠ [] := by
              intro h; rw [h] at hcs; simp at hcs
            rcases hcond with h | ⟨d, tl, heq, hedge⟩
            · exact hne h
            · have hpath : Relation.ReflTransGen (ChoiceEdge g res) c d :=
                stack_path hchain hcs heq
              have hcyc : Relation.TransGen (ChoiceEdge g res) c c :=
                Relation.TransGen.tail' hpath hedge
              exact h4 c (hvisR c (List.mem_cons_self _ _)) hcyc
        | none =>
          have hcR : Reach g res g.rootEclasses c := hvisR c (List.mem_cons_self _ _)
          have hsome := h3 c hcR
          cases hnid : alookup res c with
          | none => rw [hnid] at hsome; simp at hsome
          | some nid =>
            rcases h2 (c, nid) (mem_of_alookup_eq_some hnid) with ⟨node, hnode, _⟩
            have hmemn : (nid, node) ∈ g.nodes := mem_of_alookup_eq_some hnode
            have hchres : ∀ ch ∈ node.children, (g.nidToCid ch).isSome = true := by
              intro ch hch
              have := hwf (nid, node) hmemn ch hch
              cases hl : alookup g.nodes ch with
              | none => rw [hl] at this; simp at this
              | some x => simp [EGraph.nidToCid, EGraph.node?, hl]
            rcases childCids_of_forall hchres with ⟨ccs, hccs⟩
            have hred : dfsLoop g res (fuel + 1) (DfsTask.visit c :: rest) st cy =
                dfsLoop g res fuel
                  (ccs.map DfsTask.visit ++ DfsTask.finish c :: rest)
                  (ains st c DfsStatus.doing) cy := by
              simp only [dfsLoop, hst, hnid, hnode, hccs]
            rw [hred]
            have hedge : ∀ d ∈ ccs, ChoiceEdge g res c d := by
              intro d hd
              rcases mem_of_childCids hccs hd with ⟨ch, hchm, hchd⟩
              cases hl : alookup g.nodes ch with
              | none => simp [EGraph.nidToCid, EGraph.node?, hl] at hchd
              | some chn =>
                have hde : chn.eclass = d := by
                  simp [EGraph.nidToCid, EGraph.node?, hl] at hchd
                  exact hchd
                exact ⟨nid, node, ch, chn, hnid, hnode, hchm, hl, hde⟩
            have hcstack : c ∉ stack := by
              intro h
              have := (hdoing c).mpr h
              rw [hst] at this
              simp at this
            refine ih _ _ cy (c :: stack) ?_ ?_ ?_ ?_ ?_ ?_ ?_
            · refine taskStack_prepend ?_ (TaskStack.fin hts2)
              intro d hd
              exact Or.inr ⟨c, stack, rfl, hedge d hd⟩
            · cases stack with
              | nil => simp
              | cons e tl =>
                rw [List.chain'_cons]
                refine ⟨?_, hchain⟩
                rcases hcond with h | ⟨d, tl2, heq, hedge2⟩
                · simp at h
                · obtain ⟨he, _⟩ : d = e ∧ tl2 = tl := by
                    have h1 := congrArg (fun l => List.head? l) heq
                    have h2 := congrArg (fun l => List.tail l) heq
                    simp at h1 h2
                    exact ⟨h1.symm, h2.symm⟩
                  exact he ▸ hedge2
            · exact List.nodup_cons.mpr ⟨hcstack, hnodup⟩
            · intro x
              by_cases hxc : x = c
              · subst hxc
                rw [alookup_ains_self]
                simp
              · rw [alookup_ains_ne _ _ _ _ (fun h => hxc h.symm), hdoing x]
                simp [hxc]
            · intro x hx
              rcases List.mem_cons.mp hx with hx | hx
              · exact hx ▸ hcR
              · exact hstackR x hx
            · intro x hx
              rcases List.mem_append.mp hx with hx | hx
              · rcases List.mem_map.mp hx with ⟨d, hd, hdx⟩
                have : d = x := by
                  injection hdx
                subst this
                exact Reach.child hcR (hedge d hd)
              · rcases List.mem_cons.mp hx with hx | hx
                · exact absurd hx (by simp)
                · exact hvisR x (List.mem_cons_of_mem _ hx)
            · have hckey : c ∉ akeys st := by
                rw [← alookup_eq_none_iff] at *
                exact hst
              have hkeq : akeys (ains st c DfsStatus.doing) = akeys st ++ [c] :=
                akeys_ains_of_not_mem _ hckey
              have hcres : c ∈ (akeys res).toFinset :=
                List.mem_toFinset.mpr (mem_akeys_of_alookup_eq_some hnid)
              have hcc : chosenChildCount g res c = ccs.length := by
                simp [chosenChildCount, hnid, hnode, childCids_length hccs]
              have hset : ((akeys res).toFinset \ ((akeys st ++ [c]).toFinset) : Finset ClassId) =
                  ((akeys res).toFinset \ (akeys st).toFinset).erase c := by
                ext x
                simp [Finset.mem_sdiff, Finset.mem_erase]
                tauto
              have hcmem : c ∈ (akeys res).toFinset \ (akeys st).toFinset := by
                simp [Finset.mem_sdiff]
                exact ⟨List.mem_toFinset.mp hcres, hckey⟩
              have hsum : ∑ x ∈ (akeys res).toFinset \ (akeys st).toFinset,
                  (2 + chosenChildCount g res x) =
                  (∑ x ∈ ((akeys res).toFinset \ (akeys st).toFinset).erase c,
                    (2 + chosenChildCount g res x)) + (2 + ccs.length) := by
                rw [← hcc, Finset.sum_erase_add _ _ hcmem]
              rw [hkeq, hset]
              simp only [List.length_append, List.length_map, List.length_cons] at hm ⊢
              omega

/-- Pending-children bookkeeping of the DFS: for every `finish e` task, every
choice child of `e` is still scheduled before it (as a visit or as an open
sub-exploration) or is already `Done`. -/
def GoodTasks (g : EGraph) (res : Choices) (st : List (ClassId × DfsStatus))
    (tasks : List DfsTask) : Prop :=
  ∀ pre e post, tasks = pre ++ DfsTask.finish e :: post →
    ∀ d, ChoiceEdge g res e d →
      DfsTask.visit d ∈ pre ∨ DfsTask.finish d ∈ pre ∨
        alookup st d = some DfsStatus.done

/-- The `Done` classes are closed under choice edges. -/
def DoneClosed (g : EGraph) (res : Choices) (st : List (ClassId × DfsStatus)) : Prop :=
  ∀ c, alookup st c = some DfsStatus.done →
    ∀ d, ChoiceEdge g res c d → alookup st d = some DfsStatus.done

/-- No `Done` class lies on a choice cycle. -/
def DoneSafe (g : EGraph) (res : Choices) (st : List (ClassId × DfsStatus)) : Prop :=
  ∀ c, alookup st c = some DfsStatus.done →
    ¬ Relation.TransGen (ChoiceEdge g res) c c

/-- Every scheduled `finish` belongs to a currently `Doing` class. -/
def FinDoing (st : List (ClassId × DfsStatus)) (tasks : List DfsTask) : Prop :=
  ∀ c, DfsTask.finish c ∈ tasks → alookup st c = some DfsStatus.doing

/-- Every `Doing` class has its `finish` still scheduled. -/
def DoingFin (st : List (ClassId × DfsStatus)) (tasks : List DfsTask) : Prop :=
  ∀ c, alookup st c = some DfsStatus.doing → DfsTask.finish c ∈ tasks

/-- No class has two scheduled `finish` tasks. -/
def FinUnique (tasks : List DfsTask) : Prop :=
  ∀ c, tasks.count (DfsTask.finish c) ≤ 1

/-- Every root is scheduled or already colored. -/
def RootsCover (g : EGraph) (st : List (ClassId × DfsStatus))
    (tasks : List DfsTask) : Prop :=
  ∀ r ∈ g.rootEclasses, DfsTask.visit r ∈ tasks ∨
    alookup st r = some DfsStatus.done ∨ alookup st r = some DfsStatus.doing

theorem dfsLoop_cy_extends {g : EGraph} {res : Choices} :
    ∀ fuel tasks st cy stF cyF,
    dfsLoop g res fuel tasks st cy = some (stF, cyF) → ∃ suf, cyF = cy ++ suf := by
  intro fuel
  induction fuel with
  | zero => intro tasks st cy stF cyF h; simp [dfsLoop] at h
  | succ fuel ih =>
    intro tasks st cy stF cyF h
    match tasks with
    | [] =>
      simp [dfsLoop] at h
      exact ⟨[], by simp [h.2.symm]⟩
    | DfsTask.finish c :: rest => exact ih _ _ _ _ _ h
    | DfsTask.visit c :: rest =>
      cases hst : alookup st c with
      | some s =>
        cases s with
        | done =>
          rw [show dfsLoop g res (fuel + 1) (DfsTask.visit c :: rest) st cy =
              dfsLoop g res fuel rest st cy by simp only [dfsLoop, hst]] at h
          exact ih _ _ _ _ _ h
        | doing =>
          rw [show dfsLoop g res (fuel + 1) (DfsTask.visit c :: rest) st cy =
              dfsLoop g res fuel rest st (cy ++ [c]) by simp only [dfsLoop, hst]] at h
          rcases ih _ _ _ _ _ h with ⟨suf, hsuf⟩
          exact ⟨c :: suf, by simp [hsuf]⟩
      | none =>
        cases h1 : alookup res c with
        | none =>
          rw [show dfsLoop g res (fuel + 1) (DfsTask.visit c :: rest) st cy =
              none by simp only [dfsLoop, hst, h1]] at h
          simp at h
        | some nid =>
          cases h2 : alookup g.nodes nid with
          | none =>
            rw [show dfsLoop g res (fuel + 1) (DfsTask.visit c :: rest) st cy =
                none by simp only [dfsLoop, hst, h1, h2]] at h
            simp at h
          | some node =>
            cases h3 : childCids g node.children with
            | none =>
              rw [show dfsLoop g res (fuel + 1) (DfsTask.visit c :: rest) st cy =
                  none by simp only [dfsLoop, hst, h1, h2, h3]] at h
              simp at h
            | some ccs =>
              rw [show dfsLoop g res (fuel + 1) (DfsTask.visit c :: rest) st cy =
                  dfsLoop g res fuel
                    (ccs.map DfsTask.visit ++ DfsTask.finish c :: rest)
                    (ains st c DfsStatus.doing) cy by
                simp only [dfsLoop, hst, h1, h2, h3]] at h
              exact ih _ _ _ _ _ h

theorem done_closed_rtrans {g : EGraph} {res : Choices}
    {st : List (ClassId × DfsStatus)} (hc : DoneClosed g res st) {a b : ClassId}
    (ha : alookup st a = some DfsStatus.done)
    (h : Relation.ReflTransGen (ChoiceEdge g res) a b) :
    alookup st b = some DfsStatus.done := by
  induction h with
  | refl => exact ha
  | tail _ e ihx => exact hc _ ihx _ e

theorem count_tail_le {α : Type} [DecidableEq α] (a b : α) (l : List α) :
    l.count a ≤ (b :: l).count a := by
  rw [List.count_cons]
  omega

theorem visits_append_split {L : List ClassId} {r pre post : List DfsTask}
    {e : ClassId}
    (h : L.map DfsTask.visit ++ r = pre ++ DfsTask.finish e :: post) :
    ∃ pre2, pre = L.map DfsTask.visit ++ pre2 ∧ r = pre2 ++ DfsTask.finish e :: post := by
  induction L generalizing pre with
  | nil => exact ⟨pre, by simp, by simpa using h⟩
  | cons a L ih =>
    match pre with
    | [] => simp at h
    | q :: pre3 =>
      simp at h
      rcases ih h.2 with ⟨pre2, hp, hr⟩
      exact ⟨pre2, by simp [h.1.symm, hp], hr⟩

/-- A DFS run that adds nothing to the cycle list leaves a status map whose
`Done` classes are edge-closed and cycle-free, with no `Doing` leftovers and
all roots `Done`. -/
theorem dfsLoop_done_spec {g : EGraph} {res : Choices} :
    ∀ fuel tasks st cy stF,
    dfsLoop g res fuel tasks st cy = some (stF, cy) →
    GoodTasks g res st tasks → DoneClosed g res st → DoneSafe g res st →
    FinDoing st tasks → DoingFin st tasks → FinUnique tasks →
    RootsCover g st tasks →
    DoneClosed g res stF ∧ DoneSafe g res stF ∧ DoingFin stF [] ∧
      RootsCover g stF [] := by
  intro fuel
  induction fuel with
  | zero => intro tasks st cy stF h; simp [dfsLoop] at h
  | succ fuel ih =>
    intro tasks st cy stF h hGood hDC hDS hFD hDF hFU hRC
    match tasks with
    | [] =>
      have hst : stF = st := by
        simp only [dfsLoop, Option.some.injEq, Prod.mk.injEq] at h
        exact h.1.symm
      subst hst
      exact ⟨hDC, hDS, hDF, hRC⟩
    | DfsTask.finish c :: rest =>
      rw [show dfsLoop g res (fuel + 1) (DfsTask.finish c :: rest) st cy =
          dfsLoop g res fuel rest (ains st c DfsStatus.done) cy by
        simp only [dfsLoop]] at h
      have hcdoing : alookup st c = some DfsStatus.doing :=
        hFD c (List.mem_cons_self _ _)
      have hchildren : ∀ d, ChoiceEdge g res c d →
          alookup st d = some DfsStatus.done := by
        intro d hd
        rcases hGood [] c rest rfl d hd with hx | hx | hx
        · simp at hx
        · simp at hx
        · exact hx
      have hnotin : DfsTask.finish c ∉ rest := by
        have := hFU c
        simp [List.count_cons] at this
        exact List.count_eq_zero.mp (by omega)
      have hdone2 : ∀ x, alookup (ains st c DfsStatus.done) x = some DfsStatus.done ↔
          (x = c ∨ alookup st x = some DfsStatus.done) := by
        intro x
        by_cases hxc : x = c
        · subst hxc; rw [alookup_ains_self]; simp
        · rw [alookup_ains_ne _ _ _ _ (fun hp => hxc hp.symm)]
          simp [hxc]
      have hdoing2 : ∀ x, alookup (ains st c DfsStatus.done) x = some DfsStatus.doing ↔
          (x ≠ c ∧ alookup st x = some DfsStatus.doing) := by
        intro x
        by_cases hxc : x = c
        · subst hxc; rw [alookup_ains_self]; simp
        · rw [alookup_ains_ne _ _ _ _ (fun hp => hxc hp.symm)]
          simp [hxc]
      refine ih rest _ cy stF h ?_ ?_ ?_ ?_ ?_ ?_ ?_
      · intro pre e post hdec d hd
        rcases hGood (DfsTask.finish c :: pre) e post (by rw [hdec]; rfl) d hd
          with hx | hx | hx
        · rcases List.mem_cons.mp hx with hx | hx
          · simp at hx
          · exact Or.inl hx
        · rcases List.mem_cons.mp hx with hx | hx
          · have : d = c := by injection hx
            exact Or.inr (Or.inr ((hdone2 d).mpr (Or.inl this)))
          · exact Or.inr (Or.inl hx)
        · exact Or.inr (Or.inr ((hdone2 d).mpr (Or.inr hx)))
      · intro x hx d hd
        rcases (hdone2 x).mp hx with hx2 | hx2
        · subst hx2
          exact (hdone2 d).mpr (Or.inr (hchildren d hd))
        · exact (hdone2 d).mpr (Or.inr (hDC x hx2 d hd))
      · intro x hx hcyc
        rcases (hdone2 x).mp hx with hx2 | hx2
        · subst hx2
          rcases (Relation.TransGen.head'_iff).mp hcyc with ⟨d, hxd, hdx⟩
          have hdD := hchildren d hxd
          have := done_closed_rtrans hDC hdD hdx
          rw [this] at hcdoing
          simp at hcdoing
        · exact hDS x hx2 hcyc
      · intro e he
        have hec : e ≠ c := by
          intro hec; subst hec; exact hnotin he
        rw [(hdoing2 e)]
        exact ⟨hec, hFD e (List.mem_cons_of_mem _ he)⟩
      · intro x hx
        rcases (hdoing2 x).mp hx with ⟨hxc, hx2⟩
        rcases List.mem_cons.mp (hDF x hx2) with hx3 | hx3
        · exact absurd (by injection hx3) hxc
        · exact hx3
      · intro ee
        exact le_trans (count_tail_le _ _ _) (hFU ee)
      · intro r hr
        rcases hRC r hr with hx | hx | hx
        · rcases List.mem_cons.mp hx with hx | hx
          · simp at hx
          · exact Or.inl hx
        · exact Or.inr (Or.inl ((hdone2 r).mpr (Or.inr hx)))
        · by_cases hrc : r = c
          · exact Or.inr (Or.inl ((hdone2 r).mpr (Or.inl hrc)))
          · exact Or.inr (Or.inr ((hdoing2 r).mpr ⟨hrc, hx⟩))
    | DfsTask.visit c :: rest =>
      cases hst : alookup st c with
      | some s =>
        cases s with
        | done =>
          rw [show dfsLoop g res (fuel + 1) (DfsTask.visit c :: rest) st cy =
              dfsLoop g res fuel rest st cy by simp only [dfsLoop, hst]] at h
          refine ih rest st cy stF h ?_ hDC hDS ?_ ?_ ?_ ?_
          · intro pre e post hdec d hd
            rcases hGood (DfsTask.visit c :: pre) e post (by rw [hdec]; rfl) d hd
              with hx | hx | hx
            · rcases List.mem_cons.mp hx with hx | hx
              · have : d = c := by injection hx
                exact Or.inr (Or.inr (this ▸ hst))
              · exact Or.inl hx
            · rcases List.mem_cons.mp hx with hx | hx
              · simp at hx
              · exact Or.inr (Or.inl hx)
            · exact Or.inr (Or.inr hx)
          · exact fun e he => hFD e (List.mem_cons_of_mem _ he)
          · intro x hx
            rcases List.mem_cons.mp (hDF x hx) with hx2 | hx2
            · simp at hx2
            · exact hx2
          · intro ee
            exact le_trans (count_tail_le _ _ _) (hFU ee)
          · intro r hr
            rcases hRC r hr with hx | hx | hx
            · rcases List.mem_cons.mp hx with hx | hx
              · have : r = c := by injection hx
                exact Or.inr (Or.inl (this ▸ hst))
              · exact Or.inl hx
            · exact Or.inr (Or.inl hx)
            · exact Or.inr (Or.inr hx)
        | doing =>
          exfalso
          rw [show dfsLoop g res (fuel + 1) (DfsTask.visit c :: rest) st cy =
              dfsLoop g res fuel rest st (cy ++ [c]) by simp only [dfsLoop, hst]] at h
          rcases dfsLoop_cy_extends _ _ _ _ _ _ h with ⟨suf, hsuf⟩
          have hlen := congrArg List.length hsuf
          simp only [List.length_append, List.length_cons, List.length_nil] at hlen
          omega
      | none =>
        cases h1 : alookup res c with
        | none =>
          rw [show dfsLoop g res (fuel + 1) (DfsTask.visit c :: rest) st cy =
              none by simp only [dfsLoop, hst, h1]] at h
          simp at h
        | some nid =>
          cases h2 : alookup g.nodes nid with
          | none =>
            rw [show dfsLoop g res (fuel + 1) (DfsTask.visit c :: rest) st cy =
                none by simp only [dfsLoop, hst, h1, h2]] at h
            simp at h
          | some node =>
            cases h3 : childCids g node.children with
            | none =>
              rw [show dfsLoop g res (fuel + 1) (DfsTask.visit c :: rest) st cy =
                  none by simp only [dfsLoop, hst, h1, h2, h3]] at h
              simp at h
            | some ccs =>
              rw [show dfsLoop g res (fuel + 1) (DfsTask.visit c :: rest) st cy =
                  dfsLoop g res fuel
                    (ccs.map DfsTask.visit ++ DfsTask.finish c :: rest)
                    (ains st c DfsStatus.doing) cy by
                simp only [dfsLoop, hst, h1, h2, h3]] at h
              have hedgeccs : ∀ d, ChoiceEdge g res c d → d ∈ ccs := by
                intro d hd
                rcases hd with ⟨nid2, node2, ch, chn, hnid2, hnode2, hchm, hchn, hecls⟩
                have hn : nid2 = nid := by
                  rw [h1] at hnid2; exact (Option.some.inj hnid2).symm
                subst hn
                have hn : node2 = node := by
                  rw [h2] at hnode2; exact (Option.some.inj hnode2).symm
                subst hn
                have hcid : g.nidToCid ch = some d := by
                  simp [EGraph.nidToCid, EGraph.node?, hchn, hecls]
                rcases forall2_mem_left (childCids_forall2 h3) hchm with ⟨b, hb1, hb2⟩
                have : b = d := by rw [hcid] at hb2; exact (Option.some.inj hb2).symm
                exact this ▸ hb1
              have hnotin : DfsTask.finish c ∉ rest := by
                intro hmem
                have := hFD c (List.mem_cons_of_mem _ hmem)
                rw [hst] at this
                simp at this
              have hdone2 : ∀ x, alookup (ains st c DfsStatus.doing) x =
                  some DfsStatus.done ↔ alookup st x = some DfsStatus.done := by
                intro x
                by_cases hxc : x = c
                · subst hxc; rw [alookup_ains_self, hst]; simp
                · rw [alookup_ains_ne _ _ _ _ (fun hp => hxc hp.symm)]
              have hdoing2 : ∀ x, alookup (ains st c DfsStatus.doing) x =
                  some DfsStatus.doing ↔ (x = c ∨ alookup st x = some DfsStatus.doing) := by
                intro x
                by_cases hxc : x = c
                · subst hxc; rw [alookup_ains_self]; simp
                · rw [alookup_ains_ne _ _ _ _ (fun hp => hxc hp.symm)]
                  simp [hxc]
              have hnofinvis : ∀ e, DfsTask.finish e ∉ ccs.map DfsTask.visit := by
                intro e hmem
                rcases List.mem_map.mp hmem with ⟨x, _, hx⟩
                simp at hx
              refine ih _ _ cy stF h ?_ ?_ ?_ ?_ ?_ ?_ ?_
              · intro pre e post hdec d hd
                rcases visits_append_split hdec with ⟨pre2, hp, hr⟩
                match pre2, hr with
                | [], hr =>
                  have hec : e = c := by
                    have h9 := congrArg List.head? hr
                    simp at h9
                    exact h9.symm
                  subst hec
                  exact Or.inl (hp ▸ List.mem_append.mpr
                    (Or.inl (List.mem_map.mpr ⟨d, hedgeccs d hd, rfl⟩)))
                | q :: pre3, hr =>
                  have hq : q = DfsTask.finish c ∧ rest = pre3 ++ DfsTask.finish e :: post := by
                    have h4 := congrArg List.head? hr
                    have h5 := congrArg List.tail hr
                    simp at h4 h5
                    exact ⟨h4.symm, h5⟩
                  rcases hGood (DfsTask.visit c :: pre3) e post (by rw [hq.2]; rfl) d hd
                    with hx | hx | hx
                  · rcases List.mem_cons.mp hx with hx | hx
                    · have hdc2 : d = c := by injection hx
                      refine Or.inr (Or.inl ?_)
                      rw [hp, hq.1, hdc2]
                      exact List.mem_append.mpr (Or.inr (List.mem_cons_self _ _))
                    · refine Or.inl ?_
                      rw [hp]
                      exact List.mem_append.mpr (Or.inr (List.mem_cons_of_mem _ hx))
                  · rcases List.mem_cons.mp hx with hx | hx
                    · simp at hx
                    · refine Or.inr (Or.inl ?_)
                      rw [hp]
                      exact List.mem_append.mpr (Or.inr (List.mem_cons_of_mem _ hx))
                  · exact Or.inr (Or.inr ((hdone2 d).mpr hx))
              · intro x hx d hd
                exact (hdone2 d).mpr (hDC x ((hdone2 x).mp hx) d hd)
              · intro x hx
                exact hDS x ((hdone2 x).mp hx)
              · intro e he
                rcases List.mem_append.mp he with he | he
                · exact absurd he (hnofinvis e)
                · rcases List.mem_cons.mp he with he | he
                  · have : e = c := by injection he
                    subst this
                    rw [alookup_ains_self]
                  · have hed : alookup st e = some DfsStatus.doing :=
                      hFD e (List.mem_cons_of_mem _ he)
                    rw [(hdoing2 e)]
                    exact Or.inr hed
              · intro x hx
                rcases (hdoing2 x).mp hx with hx2 | hx2
                · subst hx2
                  exact List.mem_append.mpr (Or.inr (List.mem_cons_self _ _))
                · rcases List.mem_cons.mp (hDF x hx2) with hx3 | hx3
                  · simp at hx3
                  · exact List.mem_append.mpr (Or.inr (List.mem_cons_of_mem _ hx3))
              · intro ee
                have hva : (ccs.map DfsTask.visit).count (DfsTask.finish ee) = 0 :=
                  List.count_eq_zero.mpr (hnofinvis ee)
                have hfu := hFU ee
                rw [List.count_append, hva]
                by_cases hec : ee = c
                · subst hec
                  have hz : rest.count (DfsTask.finish ee) = 0 :=
                    List.count_eq_zero.mpr hnotin
                  rw [List.count_cons_self, hz]
                · have hne2 : (DfsTask.finish ee) ≠ (DfsTask.finish c) := by
                    simp [hec]
                  have hb : (DfsTask.finish ee) ≠ (DfsTask.visit c) := by simp
                  rw [List.count_cons_of_ne hne2]
                  rw [List.count_cons_of_ne hb] at hfu
                  omega
              · intro r hr
                rcases hRC r hr with hx | hx | hx
                · rcases List.mem_cons.mp hx with hx | hx
                  · have : r = c := by injection hx
                    subst this
                    exact Or.inr (Or.inr ((hdoing2 r).mpr (Or.inl rfl)))
                  · exact Or.inl (List.mem_append.mpr
                      (Or.inr (List.mem_cons_of_mem _ hx)))
                · exact Or.inr (Or.inl ((hdone2 r).mpr hx))
                · exact Or.inr (Or.inr ((hdoing2 r).mpr (Or.inr hx)))

/-- A successful `find_cycles` run on the roots that reports no cycle implies
the reachable choice graph is acyclic. -/
theorem findCycles_acyclic {g : EGraph} {res : Choices}
    (h : findCycles g res g.rootEclasses = some []) : ChoiceAcyclic g res := by
  unfold findCycles at h
  cases hrun : dfsLoop g res (dfsFuel g res g.rootEclasses)
      (g.rootEclasses.map DfsTask.visit) [] [] with
  | none => rw [hrun] at h; simp at h
  | some p =>
    rw [hrun] at h
    simp at h
    obtain ⟨stF, cyF⟩ := p
    have hcy : cyF = [] := h
    subst hcy
    have hspec := dfsLoop_done_spec _ _ _ _ _ hrun
      (by intro pre e post hdec d hd
          exfalso
          have : DfsTask.finish e ∈ g.rootEclasses.map DfsTask.visit := by
            rw [hdec]
            exact List.mem_append.mpr (Or.inr (List.mem_cons_self _ _))
          rcases List.mem_map.mp this with ⟨x, _, hx⟩
          simp at hx)
      (by intro c hc; simp [alookup] at hc)
      (by intro c hc; simp [alookup] at hc)
      (by intro c hc
          rcases List.mem_map.mp hc with ⟨x, _, hx⟩
          simp at hx)
      (by intro c hc; simp [alookup] at hc)
      (by intro c
          rw [List.count_eq_zero.mpr]
          · omega
          · intro hmem
            rcases List.mem_map.mp hmem with ⟨x, _, hx⟩
            simp at hx)
      (by intro r hr
          exact Or.inl (List.mem_map.mpr ⟨r, hr, rfl⟩))
    obtain ⟨hDC, hDS, hDF, hRC⟩ := hspec
    have hrootsDone : ∀ r ∈ g.rootEclasses, alookup stF r = some DfsStatus.done := by
      intro r hr
      rcases hRC r hr with hx | hx | hx
      · simp at hx
      · exact hx
      · exact absurd (hDF r hx) (by simp)
    intro c hreach
    have hcdone : alookup stF c = some DfsStatus.done :=
      reach_subset_of_closed (K := fun x => alookup stF x = some DfsStatus.done)
        hrootsDone (fun x hx d hd => hDC x hx d hd) c hreach
    exact hDS c hcdone

/-- A run of `find_cycles` on the roots succeeds and reports no cycle when
the validity invariants hold. -/
theorem findCycles_empty {g : EGraph} {res : Choices}
    (h2 : ChoicesMatch g res) (h3 : ReachChosen g res) (hwf : WFChildren g)
    (h4 : ChoiceAcyclic g res) :
    findCycles g res g.rootEclasses = some [] := by
  have hmeas : (g.rootEclasses.map DfsTask.visit).length +
      ∑ c ∈ (akeys res).toFinset \ ((akeys
        ([] : List (ClassId × DfsStatus))).toFinset),
        (2 + chosenChildCount g res c) < dfsFuel g res g.rootEclasses := by
    unfold dfsFuel
    have hsub : ((akeys res).toFinset \ ((akeys
        ([] : List (ClassId × DfsStatus))).toFinset) : Finset ClassId) =
        (akeys res).toFinset := by
      simp [akeys]
    rw [hsub]
    simp only [List.length_map]
    omega
  rcases dfsLoop_no_cycle h2 h3 hwf h4 (dfsFuel g res g.rootEclasses)
      (g.rootEclasses.map DfsTask.visit) [] [] []
      (by
        have h0 : TaskStack g res (List.map DfsTask.visit g.rootEclasses ++ []) [] :=
          taskStack_prepend (fun d hd => Or.inl rfl) TaskStack.nil
        simpa using h0)
      (by simp) (by simp)
      (by intro c; simp [alookup])
      (by intro c hc; simp at hc)
      (by intro c hc
          rcases List.mem_map.mp hc with ⟨x, hx1, hx2⟩
          have : x = c := by injection hx2
          exact Reach.root (this ▸ hx1))
      hmeas with ⟨stF, hrun⟩
  unfold findCycles
  rw [hrun]
  rfl

/-- A successful coverage walk from the roots certifies invariant 3. -/
theorem coverLoop_reachChosen {g : EGraph} {res : Choices} {V : List ClassId}
    (h : coverLoop g res (dagFuel g res g.rootEclasses)
      g.rootEclasses.reverse [] = some (true, V)) :
    ReachChosen g res := by
  rcases coverLoop_closure _ _ _ V h (by intro c hc; simp at hc) with ⟨hv, ht, hcl⟩
  have hVmem : ∀ c, Reach g res g.rootEclasses c → c ∈ V := by
    intro c hreach
    refine reach_subset_of_closed (K := fun x => x ∈ V) ?_ ?_ c hreach
    · intro r hr
      exact ht (List.mem_reverse.mpr hr)
    · intro x hx d hd
      rcases hcl x hx with ⟨nid, node, ccs, k1, k2, k3, k4⟩
      rcases hd with ⟨nid2, node2, ch, chn, e1, e2, e3, e4, e5⟩
      have hn : nid2 = nid := by rw [k1] at e1; exact (Option.some.inj e1).symm
      subst hn
      have hn : node2 = node := by rw [k2] at e2; exact (Option.some.inj e2).symm
      subst hn
      have hcid : g.nidToCid ch = some d := by
        simp [EGraph.nidToCid, EGraph.node?, e4, e5]
      rcases forall2_mem_left (childCids_forall2 k3) e3 with ⟨b, hb1, hb2⟩
      have hbd : b = d := by rw [hcid] at hb2; exact (Option.some.inj hb2).symm
      exact hbd ▸ k4 b hb1
  intro c hreach
  rcases hcl c (hVmem c hreach) with ⟨nid, node, ccs, k1, _, _, _⟩
  rw [k1]
  rfl

/-- Claim C6.  For an e-graph with a non-empty root list (and resolvable child
references), `check` returns normally exactly when the four validity
invariants hold: all roots chosen, every choice's node belongs to its class,
every class reachable through chosen children is chosen, and the reachable
choice graph is acyclic.  `checkRes g res = false` models a panic of any of
the asserts or index lookups. -/
theorem check_true_iff_invariants (g : EGraph) (res : Choices)
    (hroots : g.rootEclasses ≠ []) (hwf : WFChildren g) :
    checkRes g res = true ↔
      (RootsChosen g res ∧ ChoicesMatch g res ∧ ReachChosen g res ∧
        ChoiceAcyclic g res) := by
  have hA : g.rootEclasses.isEmpty = false := by
    cases hgr : g.rootEclasses with
    | nil => exact absurd hgr hroots
    | cons a l => rfl
  constructor
  · intro h
    unfold checkRes at h
    rw [hA] at h
    simp only [Bool.false_eq_true, if_false] at h
    cases hB : g.rootEclasses.all (fun c => (alookup res c).isSome) with
    | false => rw [hB] at h; simp at h
    | true =>
      rw [hB] at h
      simp only [Bool.not_true, Bool.false_eq_true, if_false] at h
      have hRoots : RootsChosen g res := by
        intro c hc
        exact List.all_eq_true.mp hB c hc
      cases hF : findCycles g res g.rootEclasses with
      | none => rw [hF] at h; simp at h
      | some cycles =>
        rw [hF] at h
        simp only [] at h
        cases hcys : cycles.isEmpty with
        | false => rw [hcys] at h; simp at h
        | true =>
          rw [hcys] at h
          simp only [Bool.not_true, Bool.false_eq_true, if_false] at h
          have hcynil : cycles = [] := by
            cases cycles with
            | nil => rfl
            | cons a l => simp at hcys
          subst hcynil
          have hAcy : ChoiceAcyclic g res := findCycles_acyclic hF
          cases hD : res.all (fun p =>
              match alookup g.nodes p.2 with
              | none => false
              | some nd => nd.eclass = p.1) with
          | false => rw [hD] at h; simp at h
          | true =>
            rw [hD] at h
            simp only [Bool.not_true, Bool.false_eq_true, if_false] at h
            have hMatch : ChoicesMatch g res := by
              intro p hp
              have := List.all_eq_true.mp hD p hp
              cases hl : alookup g.nodes p.2 with
              | none => rw [hl] at this; simp at this
              | some nd =>
                rw [hl] at this
                simp at this
                exact ⟨nd, rfl, this⟩
            cases hE : coverLoop g res (dagFuel g res g.rootEclasses)
                g.rootEclasses.reverse [] with
            | none => rw [hE] at h; simp at h
            | some ok =>
              rw [hE] at h
              simp only [] at h
              obtain ⟨b, V⟩ := ok
              have hb : b = true := h
              subst hb
              exact ⟨hRoots, hMatch, coverLoop_reachChosen hE, hAcy⟩
  · rintro ⟨hRoots, hMatch, hReach, hAcy⟩
    have hB : g.rootEclasses.all (fun c => (alookup res c).isSome) = true :=
      List.all_eq_true.mpr (fun c hc => hRoots c hc)
    have hF : findCycles g res g.rootEclasses = some [] :=
      findCycles_empty hMatch hReach hwf hAcy
    have hD : res.all (fun p =>
        match alookup g.nodes p.2 with
        | none => false
        | some nd => nd.eclass = p.1) = true := by
      refine List.all_eq_true.mpr ?_
      intro p hp
      rcases hMatch p hp with ⟨nd, hnd, hecls⟩
      rw [hnd]
      simp [hecls]
    have hmeas : (g.rootEclasses.reverse).length + 2 *
        (∑ c ∈ (akeys res).toFinset \ (([] : List ClassId).toFinset),
          (1 + chosenChildCount g res c)) < dagFuel g res g.rootEclasses := by
      unfold dagFuel
      have hsub : ((akeys res).toFinset \ (([] : List ClassId).toFinset) :
          Finset ClassId) = (akeys res).toFinset := by
        simp
      rw [hsub]
      simp only [List.length_reverse]
      omega
    rcases coverLoop_success hMatch hReach hwf (dagFuel g res g.rootEclasses)
        g.rootEclasses.reverse []
        (fun c hc => Reach.root (List.mem_reverse.mp hc)) hmeas with ⟨V, hE⟩
    unfold checkRes
    rw [hA, hB, hF, hD, hE]
    rfl

theorem check_true_iff_invariants_witness :
    exShared.rootEclasses ≠ [] ∧ WFChildren exShared ∧
    (checkRes exShared exSharedRes = true ↔
      (RootsChosen exShared exSharedRes ∧ ChoicesMatch exShared exSharedRes ∧
        ReachChosen exShared exSharedRes ∧ ChoiceAcyclic exShared exSharedRes)) :=
  ⟨by decide, by unfold WFChildren; decide,
    check_true_iff_invariants exShared exSharedRes (by decide)
      (by unfold WFChildren; decide)⟩

/-! ### Bottom-up extractors (`bottom_up.rs`, `bottom_up_analysis.rs`) -/

/-- `costs.get(&class).unwrap_or(&INFINITY)`. -/
def costsGet (costs : List (ClassId × CostI)) (c : ClassId) : CostI :=
  (alookup costs c).getD ⊤

/-- `ExtractionResult::node_sum_cost`: the node's own cost plus the recorded
costs of its child classes, `INFINITY` for an unrecorded class. -/
def nodeSumCost (g : EGraph) (nd : ENode) (costs : List (ClassId × CostI)) : CostI :=
  (nd.cost : CostI) +
    (nd.children.map (fun ch => costsGet costs (cidOf g ch))).sum

/-- Joint state of `result` (choices) and `costs` in both bottom-up
extractors. -/
structure BUState where
  choices : Choices
  costs : List (ClassId × CostI)
deriving DecidableEq, Repr

/-- Body of the double loop of `BottomUpExtractor::extract` for one node:
compute the node's sum cost and record it when strictly better. -/
def sweepNode (g : EGraph) (st : BUState) (c : ClassId) (nid : NodeId) :
    BUState × Bool :=
  match alookup g.nodes nid with
  | none => (st, false)
  | some nd =>
    let cost := nodeSumCost g nd st.costs
    if cost < costsGet st.costs c then
      ({ choices := ains st.choices c nid, costs := ains st.costs c cost }, true)
    else (st, false)

/-- Inner loop of one sweep: all member nodes of one class, accumulating the
`did_something` flag. -/
def sweepNodesFold (g : EGraph) (c : ClassId) (l : List NodeId)
    (acc : BUState × Bool) : BUState × Bool :=
  l.foldl (fun acc2 nid =>
    ((sweepNode g acc2.1 c nid).1, acc2.2 || (sweepNode g acc2.1 c nid).2)) acc

/-- One full sweep over all classes of the e-graph. -/
def sweep (g : EGraph) (st : BUState) : BUState × Bool :=
  g.classIds.foldl (fun acc c => sweepNodesFold g c (g.classNodes c) acc)
    (st, false)

/-- The outer loop of `BottomUpExtractor::extract`: repeat sweeps until one
changes nothing (fuel-indexed; a sweep loop that never stabilizes within the
given fuel yields `none`). -/
def buLoop (g : EGraph) : Nat → BUState → Option BUState
  | 0, _ => none
  | fuel + 1, st =>
    if (sweep g st).2 then buLoop g fuel (sweep g st).1 else some (sweep g st).1

/-- `BottomUpExtractor::extract`. -/
def bottomUpExtract (g : EGraph) (fuel : Nat) : Option BUState :=
  buLoop g fuel { choices := [], costs := [] }

/-- Finite trees of node choices: a root node id and one sub-tree per child
(the "trees that pick one member node per class and recursively one tree per
child class" of the spec). -/
inductive VTree where
  | mk (n : NodeId) (subs : List VTree)

/-- Root node of a choice tree. -/
def rootOf : VTree → NodeId
  | VTree.mk n _ => n

/-- Cost of a node by id (0 when the id is dangling; only used where it
resolves). -/
def nodeCostOf (g : EGraph) (n : NodeId) : Cost :=
  ((alookup g.nodes n).map (fun nd => nd.cost)).getD 0

mutual
/-- Cost of a choice tree: the sum of its nodes' costs, each occurrence
counted. -/
def vcost (g : EGraph) : VTree → Cost
  | VTree.mk n subs => nodeCostOf g n + vcostL g subs

/-- Sum of the costs of a list of choice trees. -/
def vcostL (g : EGraph) : List VTree → Cost
  | [] => 0
  | t :: ts => vcost g t + vcostL g ts
end

/-- Validity of a choice tree rooted at class `c`: the root node exists,
belongs to `c`, its children resolve, and the sub-trees are valid trees of
the corresponding child classes (paired positionally). -/
inductive ValidT (g : EGraph) : ClassId → VTree → Prop
  | mk {c : ClassId} {n : NodeId} {nd : ENode} {subs : List VTree} :
      alookup g.nodes n = some nd → nd.eclass = c →
      subs.length = nd.children.length →
      (∀ ch ∈ nd.children, (alookup g.nodes ch).isSome = true) →
      (∀ pr ∈ nd.children.zip subs, ValidT g (cidOf g pr.1) pr.2) →
      ValidT g c (VTree.mk n subs)

/-- `UniqueQueue::insert`: enqueue at the back unless already present. -/
def uqInsert (q : List NodeId) (n : NodeId) : List NodeId :=
  if n ∈ q then q else q ++ [n]

/-- `UniqueQueue::extend`. -/
def uqExtend (q : List NodeId) (l : List NodeId) : List NodeId :=
  l.foldl uqInsert q

/-- Append a parent node to a class's entry of the parents map. -/
def pAdd (acc : List (ClassId × List NodeId)) (c : ClassId) (nid : NodeId) :
    List (ClassId × List NodeId) :=
  ains acc c ((alookup acc c).getD [] ++ [nid])

/-- Step 1 of `BottomUpAnalysisExtractor::extract`: the class → parent-nodes
map, built by iterating classes, their nodes, and each node's children. -/
def buildParents (g : EGraph) : List (ClassId × List NodeId) :=
  g.classIds.foldl (fun acc c =>
    (g.classNodes c).foldl (fun acc2 nid =>
      match alookup g.nodes nid with
      | none => acc2
      | some nd => nd.children.foldl (fun acc3 ch => pAdd acc3 (cidOf g ch) nid) acc2)
      acc)
    (g.classIds.map (fun c => (c, ([] : List NodeId))))

/-- Step 2 of `BottomUpAnalysisExtractor::extract`: seed the queue with all
leaf nodes. -/
def seedLeaves (g : EGraph) : List NodeId :=
  g.classIds.foldl (fun q c =>
    (g.classNodes c).foldl (fun q2 nid =>
      match alookup g.nodes nid with
      | none => q2
      | some nd => if nd.children.isEmpty then uqInsert q2 nid else q2) q) []

/-- Step 3 of `BottomUpAnalysisExtractor::extract`: pop a node; if all its
child classes are chosen, try to improve its class (enqueueing the parents of
the class on success); otherwise re-insert the node.  The queue is a
deduplicating FIFO (pop at the head, insert at the back). -/
def wlLoop (g : EGraph) (par : List (ClassId × List NodeId)) :
    Nat → List NodeId → BUState → Option BUState
  | 0, _, _ => none
  | _ + 1, [], st => some st
  | fuel + 1, nid :: q, st =>
    match alookup g.nodes nid with
    | none => none
    | some nd =>
      if nd.children.all (fun ch => (alookup st.choices (cidOf g ch)).isSome) then
        if nodeSumCost g nd st.costs < costsGet st.costs nd.eclass then
          wlLoop g par fuel (uqExtend q ((alookup par nd.eclass).getD []))
            { choices := ains st.choices nd.eclass nid,
              costs := ains st.costs nd.eclass (nodeSumCost g nd st.costs) }
        else wlLoop g par fuel q st
      else wlLoop g par fuel (uqInsert q nid) st

/-- `BottomUpAnalysisExtractor::extract`. -/
def bottomUpAnalysisExtract (g : EGraph) (fuel : Nat) : Option BUState :=
  wlLoop g (buildParents g) fuel (seedLeaves g) { choices := [], costs := [] }

theorem mem_dedupGo (seen l : List Nat) (x : Nat) :
    x ∈ dedupGo seen l ↔ x ∈ l ∧ x ∉ seen := by
  induction l generalizing seen with
  | nil => simp [dedupGo]
  | cons a l ih =>
    by_cases ha : a ∈ seen
    · rw [show dedupGo seen (a :: l) = dedupGo seen l by simp [dedupGo, ha]]
      rw [ih]
      constructor
      · rintro ⟨h1, h2⟩
        exact ⟨List.mem_cons_of_mem _ h1, h2⟩
      · rintro ⟨h1, h2⟩
        rcases List.mem_cons.mp h1 with h1 | h1
        · exact absurd (h1 ▸ ha) h2
        · exact ⟨h1, h2⟩
    · rw [show dedupGo seen (a :: l) = a :: dedupGo (a :: seen) l by
        simp [dedupGo, ha]]
      constructor
      · intro h
        rcases List.mem_cons.mp h with h | h
        · exact ⟨h ▸ List.mem_cons_self _ _, h ▸ ha⟩
        · rw [ih] at h
          refine ⟨List.mem_cons_of_mem _ h.1, ?_⟩
          intro hx
          exact h.2 (List.mem_cons_of_mem _ hx)
      · rintro ⟨h1, h2⟩
        by_cases hxa : x = a
        · exact hxa ▸ List.mem_cons_self _ _
        · refine List.mem_cons_of_mem _ ?_
          rw [ih]
          rcases List.mem_cons.mp h1 with h1 | h1
          · exact absurd h1 hxa
          · exact ⟨h1, by simp [hxa, h2]⟩

theorem mem_dedupF (l : List Nat) (x : Nat) : x ∈ dedupF l ↔ x ∈ l := by
  unfold dedupF
  rw [mem_dedupGo]
  simp

theorem mem_classIds {g : EGraph} {c : ClassId} :
    c ∈ g.classIds ↔ ∃ p ∈ g.nodes, p.2.eclass = c := by
  unfold EGraph.classIds
  rw [mem_dedupF]
  simp [eq_comm]

theorem mem_classNodes {g : EGraph} {c : ClassId} {nid : NodeId} :
    nid ∈ g.classNodes c ↔ ∃ nd, (nid, nd) ∈ g.nodes ∧ nd.eclass = c := by
  unfold EGraph.classNodes
  constructor
  · intro h
    rcases List.mem_map.mp h with ⟨p, hp, hp2⟩
    obtain ⟨a, b⟩ := p
    have hf := List.mem_filter.mp hp
    simp at hp2 hf
    subst hp2
    exact ⟨b, hf.1, hf.2⟩
  · rintro ⟨nd, h1, h2⟩
    exact List.mem_map.mpr ⟨(nid, nd), List.mem_filter.mpr ⟨h1, by simp [h2]⟩, rfl⟩

theorem sweepNode_eq_none {g : EGraph} {st : BUState} {c : ClassId}
    {nid : NodeId} (hl : alookup g.nodes nid = none) :
    sweepNode g st c nid = (st, false) := by
  unfold sweepNode
  rw [hl]

theorem sweepNode_eq_some {g : EGraph} {st : BUState} {c : ClassId}
    {nid : NodeId} {nd : ENode} (hl : alookup g.nodes nid = some nd) :
    sweepNode g st c nid =
      (if nodeSumCost g nd st.costs < costsGet st.costs c then
        ({ choices := ains st.choices c nid,
           costs := ains st.costs c (nodeSumCost g nd st.costs) }, true)
      else (st, false)) := by
  unfold sweepNode
  rw [hl]

theorem sweepNode_flag_false {g : EGraph} {st : BUState} {c : ClassId}
    {nid : NodeId} (h : (sweepNode g st c nid).2 = false) :
    (sweepNode g st c nid).1 = st := by
  cases hl : alookup g.nodes nid with
  | none => rw [sweepNode_eq_none hl]
  | some nd =>
    rw [sweepNode_eq_some hl] at h ⊢
    by_cases hlt : nodeSumCost g nd st.costs < costsGet st.costs c
    · rw [if_pos hlt] at h; simp at h
    · rw [if_neg hlt]

theorem sweepNode_stable {g : EGraph} {st : BUState} {c : ClassId}
    {nid : NodeId} (h : (sweepNode g st c nid).2 = false) {nd : ENode}
    (hl : alookup g.nodes nid = some nd) :
    ¬ (nodeSumCost g nd st.costs < costsGet st.costs c) := by
  rw [sweepNode_eq_some hl] at h
  by_cases hlt : nodeSumCost g nd st.costs < costsGet st.costs c
  · rw [if_pos hlt] at h; simp at h
  · exact hlt

theorem sweepNodesFold_false {g : EGraph} {c : ClassId} :
    ∀ {l : List NodeId} {acc : BUState × Bool},
    (sweepNodesFold g c l acc).2 = false →
    (sweepNodesFold g c l acc).1 = acc.1 ∧ acc.2 = false ∧
      ∀ nid ∈ l, (sweepNode g acc.1 c nid).2 = false := by
  intro l
  induction l with
  | nil =>
    intro acc h
    exact ⟨rfl, h, by simp⟩
  | cons nid l ih =>
    intro acc h
    have hstep : sweepNodesFold g c (nid :: l) acc =
        sweepNodesFold g c l
          ((sweepNode g acc.1 c nid).1, acc.2 || (sweepNode g acc.1 c nid).2) := rfl
    rw [hstep] at h
    rcases ih h with ⟨h1, h2, h3⟩
    have hflag : (sweepNode g acc.1 c nid).2 = false := by
      cases hor : (sweepNode g acc.1 c nid).2 with
      | false => rfl
      | true => rw [hor] at h2; simp at h2
    have hacc2 : acc.2 = false := by
      cases hor : acc.2 with
      | false => rfl
      | true => rw [hor] at h2; simp at h2
    have hst : (sweepNode g acc.1 c nid).1 = acc.1 := sweepNode_flag_false hflag
    rw [hstep, h1, hst]
    refine ⟨rfl, hacc2, ?_⟩
    intro x hx
    rcases List.mem_cons.mp hx with hx | hx
    · exact hx ▸ hflag
    · have := h3 x hx
      rw [hst] at this
      exact this

theorem sweep_false {g : EGraph} {st st2 : BUState}
    (h : sweep g st = (st2, false)) :
    st2 = st ∧ ∀ c ∈ g.classIds, ∀ nid ∈ g.classNodes c,
      (sweepNode g st c nid).2 = false := by
  unfold sweep at h
  suffices hgen : ∀ (cl : List ClassId) (acc : BUState × Bool),
      (cl.foldl (fun acc c => sweepNodesFold g c (g.classNodes c) acc) acc).2 = false →
      (cl.foldl (fun acc c => sweepNodesFold g c (g.classNodes c) acc) acc).1 = acc.1 ∧
      acc.2 = false ∧
      ∀ c ∈ cl, ∀ nid ∈ g.classNodes c, (sweepNode g acc.1 c nid).2 = false by
    have hflag : (g.classIds.foldl (fun acc c =>
        sweepNodesFold g c (g.classNodes c) acc) (st, false)).2 = false := by
      rw [h]
    rcases hgen g.classIds (st, false) hflag with ⟨h1, _, h3⟩
    have hst : st2 = st := by
      have := congrArg Prod.fst h
      simp at this
      rw [← this, h1]
    exact ⟨hst, h3⟩
  intro cl
  induction cl with
  | nil =>
    intro acc h
    exact ⟨rfl, h, by simp⟩
  | cons c cl ih =>
    intro acc h
    have hstep : (c :: cl).foldl (fun acc c => sweepNodesFold g c (g.classNodes c) acc) acc =
        cl.foldl (fun acc c => sweepNodesFold g c (g.classNodes c) acc)
          (sweepNodesFold g c (g.classNodes c) acc) := rfl
    rw [hstep] at h
    rcases ih _ h with ⟨h1, h2, h3⟩
    rcases sweepNodesFold_false h2 with ⟨h4, h5, h6⟩
    rw [hstep, h1, h4]
    refine ⟨rfl, h5, ?_⟩
    intro x hx nid hnid
    rcases List.mem_cons.mp hx with hx | hx
    · subst hx; exact h6 nid hnid
    · have := h3 x hx nid hnid
      rw [h4] at this
      exact this

/-- At a fixed point of the sweep, no member node of any class can strictly
improve its class's recorded cost. -/
def NoImprove (g : EGraph) (st : BUState) : Prop :=
  ∀ c ∈ g.classIds, ∀ nid ∈ g.classNodes c, ∀ nd,
    alookup g.nodes nid = some nd →
    ¬ (nodeSumCost g nd st.costs < costsGet st.costs c)

theorem buLoop_fixpoint {g : EGraph} :
    ∀ {fuel : Nat} {st0 st : BUState}, buLoop g fuel st0 = some st →
    sweep g st = (st, false) := by
  intro fuel
  induction fuel with
  | zero => intro st0 st h; simp [buLoop] at h
  | succ fuel ih =>
    intro st0 st h
    unfold buLoop at h
    cases hfl : (sweep g st0).2 with
    | true =>
      rw [hfl] at h
      simp only [if_true] at h
      exact ih h
    | false =>
      rw [hfl] at h
      simp only [Bool.false_eq_true, if_false] at h
      have hst : st = (sweep g st0).1 := (Option.some.inj h).symm
      have hsw : sweep g st0 = ((sweep g st0).1, false) := by
        rw [← hfl]
      rcases sweep_false hsw with ⟨h1, _⟩
      rw [hst, h1]
      rw [h1] at hsw
      exact hsw

theorem fixpoint_no_improve {g : EGraph} {st : BUState}
    (h : sweep g st = (st, false)) : NoImprove g st := by
  rcases sweep_false h with ⟨_, h2⟩
  intro c hc nid hnid nd hnd
  exact sweepNode_stable (h2 c hc nid hnid) hnd

theorem sum_ne_top {l : List CostI} (h : ∀ x ∈ l, x ≠ ⊤) : l.sum ≠ ⊤ := by
  induction l with
  | nil => simp
  | cons a l ih =>
    rw [List.sum_cons]
    exact WithTop.add_ne_top.mpr
      ⟨h a (List.mem_cons_self _ _), ih (fun x hx => h x (List.mem_cons_of_mem _ hx))⟩

theorem sum_elem_ne_top {l : List CostI} (h : l.sum ≠ ⊤) : ∀ x ∈ l, x ≠ ⊤ := by
  induction l with
  | nil => simp
  | cons a l ih =>
    rw [List.sum_cons] at h
    intro x hx
    rcases List.mem_cons.mp hx with hx | hx
    · exact hx ▸ (WithTop.add_ne_top.mp h).1
    · exact ih (WithTop.add_ne_top.mp h).2 x hx

theorem mem_zip_of_mem_left {α β : Type} {l1 : List α} {l2 : List β}
    (hlen : l1.length = l2.length) {a : α} (ha : a ∈ l1) :
    ∃ b, (a, b) ∈ l1.zip l2 := by
  induction l1 generalizing l2 with
  | nil => simp at ha
  | cons x l1 ih =>
    match l2 with
    | [] => simp at hlen
    | y :: l2 =>
      rcases List.mem_cons.mp ha with ha | ha
      · exact ⟨y, by simp [ha]⟩
      · rcases ih (by simpa using hlen) ha with ⟨b, hb⟩
        exact ⟨b, List.mem_cons_of_mem _ hb⟩

theorem exists_zip_trees {l : List NodeId} {P : NodeId → VTree → Prop}
    (h : ∀ ch ∈ l, ∃ t, P ch t) :
    ∃ ts : List VTree, ts.length = l.length ∧ ∀ pr ∈ l.zip ts, P pr.1 pr.2 := by
  induction l with
  | nil => exact ⟨[], rfl, by simp⟩
  | cons ch l ih =>
    rcases h ch (List.mem_cons_self _ _) with ⟨t, ht⟩
    rcases ih (fun x hx => h x (List.mem_cons_of_mem _ hx)) with ⟨ts, hlen, hts⟩
    refine ⟨t :: ts, by simp [hlen], ?_⟩
    intro pr hpr
    rcases List.mem_cons.mp hpr with hpr | hpr
    · rw [hpr]; exact ht
    · exact hts pr hpr

theorem childSum_le {g : EGraph} {costs : List (ClassId × CostI)} :
    ∀ {children : List NodeId} {subs : List VTree},
    subs.length = children.length →
    (∀ pr ∈ children.zip subs, costsGet costs (cidOf g pr.1) ≤ ↑(vcost g pr.2)) →
    (children.map (fun ch => costsGet costs (cidOf g ch))).sum ≤ ↑(vcostL g subs) := by
  intro children
  induction children with
  | nil =>
    intro subs hlen _
    match subs with
    | [] => simp [vcostL]
  | cons ch children ih =>
    intro subs hlen hle
    match subs with
    | t :: ts =>
      have h1 : costsGet costs (cidOf g ch) ≤ ↑(vcost g t) :=
        hle (ch, t) (by simp)
      have h2 := ih (by simpa using hlen)
        (fun pr hpr => hle pr (List.mem_cons_of_mem _ hpr))
      rw [List.map_cons, List.sum_cons]
      have : ((vcost g t + vcostL g ts : Cost) : CostI) =
          (↑(vcost g t) + ↑(vcostL g ts) : CostI) := by push_cast; ring
      rw [show vcostL g (t :: ts) = vcost g t + vcostL g ts from by simp [vcostL],
        this]
      exact add_le_add h1 h2

theorem childSum_eq {g : EGraph} {costs : List (ClassId × CostI)} :
    ∀ {children : List NodeId} {subs : List VTree},
    subs.length = children.length →
    (∀ pr ∈ children.zip subs, costsGet costs (cidOf g pr.1) = ↑(vcost g pr.2)) →
    (children.map (fun ch => costsGet costs (cidOf g ch))).sum = ↑(vcostL g subs) := by
  intro children
  induction children with
  | nil =>
    intro subs hlen _
    match subs with
    | [] => simp [vcostL]
  | cons ch children ih =>
    intro subs hlen heq
    match subs with
    | t :: ts =>
      have h1 : costsGet costs (cidOf g ch) = ↑(vcost g t) :=
        heq (ch, t) (by simp)
      have h2 := ih (by simpa using hlen)
        (fun pr hpr => heq pr (List.mem_cons_of_mem _ hpr))
      rw [List.map_cons, List.sum_cons, h1, h2]
      rw [show vcostL g (t :: ts) = vcost g t + vcostL g ts from by simp [vcostL]]
      push_cast
      ring

/-- Soundness invariant of both bottom-up extractors: choices and costs have
the same domain, recorded costs are finite, and every recorded choice is
witnessed by a valid tree rooted at the chosen node whose cost is exactly the
recorded cost. -/
def BUInv (g : EGraph) (st : BUState) : Prop :=
  (∀ c, (alookup st.choices c).isSome ↔ (alookup st.costs c).isSome) ∧
  (∀ p ∈ st.costs, p.2 ≠ ⊤) ∧
  (∀ c nid, alookup st.choices c = some nid →
    ∃ T, ValidT g c T ∧ rootOf T = nid ∧ (↑(vcost g T) : CostI) = costsGet st.costs c)

theorem update_preserves_inv {g : EGraph} {st : BUState} {c : ClassId}
    {nid : NodeId} {nd : ENode} (hinv : BUInv g st)
    (hl : alookup g.nodes nid = some nd) (hecl : nd.eclass = c)
    (hch : ∀ ch ∈ nd.children, (alookup g.nodes ch).isSome = true)
    (hlt : nodeSumCost g nd st.costs < costsGet st.costs c) :
    BUInv g { choices := ains st.choices c nid,
              costs := ains st.costs c (nodeSumCost g nd st.costs) } := by
  obtain ⟨hcoh, hfin, htree⟩ := hinv
  have hsumfin : nodeSumCost g nd st.costs ≠ ⊤ :=
    (lt_of_lt_of_le hlt le_top).ne
  have hlistfin : ((nd.children.map (fun ch => costsGet st.costs (cidOf g ch))).sum :
      CostI) ≠ ⊤ := by
    unfold nodeSumCost at hsumfin
    exact (WithTop.add_ne_top.mp hsumfin).2
  have hchfin : ∀ ch ∈ nd.children, costsGet st.costs (cidOf g ch) ≠ ⊤ := by
    intro ch hchm
    exact sum_elem_ne_top hlistfin _ (List.mem_map.mpr ⟨ch, hchm, rfl⟩)
  have hchtrees : ∀ ch ∈ nd.children, ∃ t, ValidT g (cidOf g ch) t ∧
      (↑(vcost g t) : CostI) = costsGet st.costs (cidOf g ch) := by
    intro ch hchm
    have hne := hchfin ch hchm
    cases hcl : alookup st.costs (cidOf g ch) with
    | none => exact absurd (by simp [costsGet, hcl]) hne
    | some v =>
      have hsome : (alookup st.choices (cidOf g ch)).isSome = true := by
        rw [hcoh]
        rw [hcl]
        rfl
      cases hch2 : alookup st.choices (cidOf g ch) with
      | none => rw [hch2] at hsome; simp at hsome
      | some nid2 =>
        rcases htree _ _ hch2 with ⟨t, ht1, _, ht3⟩
        exact ⟨t, ht1, ht3⟩
  rcases exists_zip_trees hchtrees with ⟨ts, hlen, hts⟩
  have hT : ValidT g c (VTree.mk nid ts) :=
    ValidT.mk hl hecl (by rw [hlen]) hch (fun pr hpr => (hts pr hpr).1)
  have hTcost : (↑(vcost g (VTree.mk nid ts)) : CostI) = nodeSumCost g nd st.costs := by
    have hsum := childSum_eq (g := g) (by rw [hlen] : ts.length = nd.children.length)
      (fun pr hpr => ((hts pr hpr).2).symm)
    unfold nodeSumCost
    rw [show vcost g (VTree.mk nid ts) = nodeCostOf g nid + vcostL g ts from by
      simp [vcost]]
    rw [show nodeCostOf g nid = nd.cost from by simp [nodeCostOf, hl]]
    push_cast
    rw [← hsum]
  refine ⟨?_, ?_, ?_⟩
  · intro c2
    by_cases hc2 : c2 = c
    · subst hc2
      simp [alookup_ains_self]
    · simp only [alookup_ains_ne _ _ _ _ (fun hp => hc2 hp.symm)]
      exact hcoh c2
  · intro p hp
    rcases mem_ains_elim hp with hp | hp
    · rw [hp]
      exact hsumfin
    · exact hfin p hp
  · intro c2 nid2 hc2
    by_cases hcc : c2 = c
    · subst hcc
      rw [alookup_ains_self] at hc2
      have hn2 : nid2 = nid := (Option.some.inj hc2).symm
      subst hn2
      refine ⟨VTree.mk nid2 ts, hT, rfl, ?_⟩
      rw [hTcost]
      simp [costsGet, alookup_ains_self]
    · rw [alookup_ains_ne _ _ _ _ (fun hp => hcc hp.symm)] at hc2
      rcases htree _ _ hc2 with ⟨t, ht1, ht2, ht3⟩
      refine ⟨t, ht1, ht2, ?_⟩
      rw [ht3]
      simp [costsGet, alookup_ains_ne _ _ _ _ (fun hp => hcc hp.symm)]

theorem alookup_of_mem_nodup {β : Type} {l : List (Nat × β)}
    (hnodup : (akeys l).Nodup) {a : Nat} {b : β} (hmem : (a, b) ∈ l) :
    alookup l a = some b := by
  induction l with
  | nil => simp at hmem
  | cons p t ih =>
    obtain ⟨x, y⟩ := p
    have hnx : x ∉ akeys t := by
      have : akeys ((x, y) :: t) = x :: akeys t := rfl
      rw [this] at hnodup
      exact (List.nodup_cons.mp hnodup).1
    have hnt : (akeys t).Nodup := by
      have : akeys ((x, y) :: t) = x :: akeys t := rfl
      rw [this] at hnodup
      exact (List.nodup_cons.mp hnodup).2
    rcases List.mem_cons.mp hmem with hx | hx
    · have ha : x = a := (congrArg Prod.fst hx).symm
      have hb : y = b := (congrArg Prod.snd hx).symm
      subst ha; subst hb
      simp [alookup]
    · by_cases hxa : x = a
      · subst hxa
        exact absurd (List.mem_map.mpr ⟨(x, b), hx, rfl⟩) hnx
      · simp only [alookup, if_neg hxa]
        exact ih hnt hx

/-- Preservation of the soundness invariant by one inner-loop step. -/
theorem sweepNode_preserves_inv {g : EGraph} {st : BUState} {c : ClassId}
    {nid : NodeId} (hinv : BUInv g st) (hwf : WFChildren g)
    (hmem : nid ∈ g.classNodes c) (hnodup : (akeys g.nodes).Nodup) :
    BUInv g (sweepNode g st c nid).1 := by
  cases hl : alookup g.nodes nid with
  | none => rw [sweepNode_eq_none hl]; exact hinv
  | some nd =>
    rw [sweepNode_eq_some hl]
    by_cases hlt : nodeSumCost g nd st.costs < costsGet st.costs c
    · rw [if_pos hlt]
      rcases mem_classNodes.mp hmem with ⟨nd2, hnd2, hecl2⟩
      have h1 : alookup g.nodes nid = some nd2 := alookup_of_mem_nodup hnodup hnd2
      have hnd2look : nd2 = nd := by
        rw [hl] at h1
        exact (Option.some.inj h1).symm
      subst hnd2look
      exact update_preserves_inv hinv hl hecl2
        (fun ch hch => hwf (nid, nd2) (mem_of_alookup_eq_some hl) ch hch) hlt
    · rw [if_neg hlt]
      exact hinv

theorem sweepNodesFold_preserves_inv {g : EGraph} {c : ClassId}
    (hwf : WFChildren g) (hnodup : (akeys g.nodes).Nodup) :
    ∀ {l : List NodeId} {acc : BUState × Bool},
    (∀ nid ∈ l, nid ∈ g.classNodes c) → BUInv g acc.1 →
    BUInv g (sweepNodesFold g c l acc).1 := by
  intro l
  induction l with
  | nil => intro acc _ h; exact h
  | cons nid l ih =>
    intro acc hmem hinv
    have hstep : sweepNodesFold g c (nid :: l) acc =
        sweepNodesFold g c l
          ((sweepNode g acc.1 c nid).1, acc.2 || (sweepNode g acc.1 c nid).2) := rfl
    rw [hstep]
    exact ih (fun x hx => hmem x (List.mem_cons_of_mem _ hx))
      (sweepNode_preserves_inv hinv hwf (hmem nid (List.mem_cons_self _ _)) hnodup)

theorem sweep_preserves_inv {g : EGraph} {st : BUState} (hwf : WFChildren g)
    (hnodup : (akeys g.nodes).Nodup) (hinv : BUInv g st) :
    BUInv g (sweep g st).1 := by
  unfold sweep
  suffices hgen : ∀ (cl : List ClassId) (acc : BUState × Bool), BUInv g acc.1 →
      BUInv g ((cl.foldl (fun acc c => sweepNodesFold g c (g.classNodes c) acc) acc).1) by
    exact hgen g.classIds (st, false) hinv
  intro cl
  induction cl with
  | nil => intro acc h; exact h
  | cons c cl ih =>
    intro acc h
    exact ih _ (sweepNodesFold_preserves_inv hwf hnodup (fun x hx => hx) h)

theorem buLoop_preserves_inv {g : EGraph} (hwf : WFChildren g)
    (hnodup : (akeys g.nodes).Nodup) :
    ∀ {fuel : Nat} {st0 st : BUState}, buLoop g fuel st0 = some st →
    BUInv g st0 → BUInv g st := by
  intro fuel
  induction fuel with
  | zero => intro st0 st h; simp [buLoop] at h
  | succ fuel ih =>
    intro st0 st h hinv
    unfold buLoop at h
    cases hfl : (sweep g st0).2 with
    | true =>
      rw [hfl] at h
      simp only [if_true] at h
      exact ih h (sweep_preserves_inv hwf hnodup hinv)
    | false =>
      rw [hfl] at h
      simp only [Bool.false_eq_true, if_false] at h
      have hst : st = (sweep g st0).1 := (Option.some.inj h).symm
      rw [hst]
      exact sweep_preserves_inv hwf hnodup hinv

/-- At a fixed point, the recorded cost of every class is a lower bound on
the cost of every valid tree rooted there. -/
theorem noImprove_le_tree {g : EGraph} {st : BUState} (hni : NoImprove g st) :
    ∀ c T, ValidT g c T → costsGet st.costs c ≤ ↑(vcost g T) := by
  intro c T hvt
  induction hvt with
  | mk hl hecl hlen hres hsub ih =>
    rename_i c n nd subs
    have hcm : c ∈ g.classIds :=
      mem_classIds.mpr ⟨(n, nd), mem_of_alookup_eq_some hl, hecl⟩
    have hnm : n ∈ g.classNodes c :=
      mem_classNodes.mpr ⟨nd, mem_of_alookup_eq_some hl, hecl⟩
    have hge := hni c hcm n hnm nd hl
    have h1 : costsGet st.costs c ≤ nodeSumCost g nd st.costs := le_of_not_lt hge
    refine le_trans h1 ?_
    unfold nodeSumCost
    rw [show vcost g (VTree.mk n subs) = nodeCostOf g n + vcostL g subs from by
      simp [vcost]]
    rw [show nodeCostOf g n = nd.cost from by simp [nodeCostOf, hl]]
    push_cast
    exact add_le_add (le_refl _) (childSum_le hlen ih)

/-- At a fixed point, every class rooting some valid tree has a choice. -/
theorem noImprove_chosen {g : EGraph} {st : BUState} (hni : NoImprove g st)
    (hcoh : ∀ c, (alookup st.choices c).isSome ↔ (alookup st.costs c).isSome)
    (hfin : ∀ p ∈ st.costs, p.2 ≠ ⊤) :
    ∀ c T, ValidT g c T → (alookup st.choices c).isSome = true := by
  intro c T hvt
  induction hvt with
  | mk hl hecl hlen hres hsub ih =>
    rename_i c n nd subs
    have hchcost : ∀ ch ∈ nd.children, costsGet st.costs (cidOf g ch) ≠ ⊤ := by
      intro ch hchm
      rcases mem_zip_of_mem_left (by rw [hlen]) hchm with ⟨t, hzip⟩
      have hchsome := ih (ch, t) hzip
      cases hcl : alookup st.choices (cidOf g ch) with
      | none => rw [hcl] at hchsome; simp at hchsome
      | some nid2 =>
        have : (alookup st.costs (cidOf g ch)).isSome = true := by
          rw [← hcoh]
          rw [hcl]
          rfl
        cases hcl2 : alookup st.costs (cidOf g ch) with
        | none => rw [hcl2] at this; simp at this
        | some v =>
          have hv : v ≠ ⊤ := hfin _ (mem_of_alookup_eq_some hcl2)
          simp [costsGet, hcl2, hv]
    have hsumfin : nodeSumCost g nd st.costs ≠ ⊤ := by
      unfold nodeSumCost
      refine WithTop.add_ne_top.mpr ⟨WithTop.coe_ne_top, ?_⟩
      refine sum_ne_top ?_
      intro x hx
      rcases List.mem_map.mp hx with ⟨ch, hchm, hche⟩
      exact hche ▸ hchcost ch hchm
    by_cases hcs : (alookup st.choices c).isSome = true
    · exact hcs
    · exfalso
      have hnone : alookup st.costs c = none := by
        cases hcl : alookup st.costs c with
        | none => rfl
        | some v =>
          exact absurd ((hcoh c).mpr (by rw [hcl]; rfl)) hcs
      have htop : costsGet st.costs c = ⊤ := by simp [costsGet, hnone]
      have hcm : c ∈ g.classIds :=
        mem_classIds.mpr ⟨(n, nd), mem_of_alookup_eq_some hl, hecl⟩
      have hnm : n ∈ g.classNodes c :=
        mem_classNodes.mpr ⟨nd, mem_of_alookup_eq_some hl, hecl⟩
      have := hni c hcm n hnm nd hl
      rw [htop] at this
      exact this (lt_top_iff_ne_top.mpr hsumfin)

/-- Claim C2.  When `BottomUpExtractor::extract` terminates (reaches a sweep
with no change within its fuel), (1) every class rooting at least one finite
tree of node choices receives a choice, (2) the recorded cost of a class is a
lower bound on the cost of every such tree (each node occurrence counted),
(3) the recorded cost is attained by a valid tree rooted at the chosen node —
so it equals the minimum over all trees and the chosen node attains it — and
(4) a single step only ever replaces a recorded choice on a strict cost
improvement. -/
theorem bottom_up_tree_optimal (g : EGraph) (fuel : Nat) (st : BUState)
    (hwf : WFChildren g) (hnodup : (akeys g.nodes).Nodup)
    (h : bottomUpExtract g fuel = some st) :
    (∀ c T, ValidT g c T → (alookup st.choices c).isSome = true) ∧
    (∀ c T, ValidT g c T → costsGet st.costs c ≤ ↑(vcost g T)) ∧
    (∀ c nid, alookup st.choices c = some nid →
      ∃ T, ValidT g c T ∧ rootOf T = nid ∧ costsGet st.costs c = ↑(vcost g T)) ∧
    (∀ st0 c nid, (sweepNode g st0 c nid).1 ≠ st0 →
      costsGet ((sweepNode g st0 c nid).1).costs c < costsGet st0.costs c) := by
  have hfix := buLoop_fixpoint h
  have hni := fixpoint_no_improve hfix
  have hinv : BUInv g st := by
    refine buLoop_preserves_inv hwf hnodup h ⟨?_, ?_, ?_⟩
    · intro c; simp [alookup]
    · intro p hp; simp at hp
    · intro c nid hc; simp [alookup] at hc
  obtain ⟨hcoh, hfin, htree⟩ := hinv
  refine ⟨noImprove_chosen hni hcoh hfin, noImprove_le_tree hni, ?_, ?_⟩
  · intro c nid hc
    rcases htree c nid hc with ⟨T, h1, h2, h3⟩
    exact ⟨T, h1, h2, h3.symm⟩
  · intro st0 c nid hne
    cases hl : alookup g.nodes nid with
    | none =>
      rw [sweepNode_eq_none hl] at hne
      exact absurd rfl hne
    | some nd =>
      rw [sweepNode_eq_some hl] at hne ⊢
      by_cases hlt : nodeSumCost g nd st0.costs < costsGet st0.costs c
      · rw [if_pos hlt] at hne ⊢
        simp only [costsGet, alookup_ains_self, Option.getD_some]
        exact hlt
      · rw [if_neg hlt] at hne
        exact absurd rfl hne

/-- The terminal state of the naive bottom-up extractor on the shared-subterm
example. -/
def exSharedBU : BUState :=
  { choices := [(1, 1), (0, 0)],
    costs := [(1, ((7 : ℤ) : CostI)), (0, ((15 : ℤ) : CostI))] }

theorem bottom_up_tree_optimal_witness :
    WFChildren exShared ∧ (akeys exShared.nodes).Nodup ∧
    bottomUpExtract exShared 5 = some exSharedBU ∧
    ((∀ c T, ValidT exShared c T →
        (alookup exSharedBU.choices c).isSome = true) ∧
      (∀ c T, ValidT exShared c T →
        costsGet exSharedBU.costs c ≤ ↑(vcost exShared T)) ∧
      (∀ c nid, alookup exSharedBU.choices c = some nid →
        ∃ T, ValidT exShared c T ∧ rootOf T = nid ∧
          costsGet exSharedBU.costs c = ↑(vcost exShared T)) ∧
      (∀ st0 c nid, (sweepNode exShared st0 c nid).1 ≠ st0 →
        costsGet ((sweepNode exShared st0 c nid).1).costs c <
          costsGet st0.costs c)) :=
  ⟨by unfold WFChildren; decide, by decide, by decide,
    bottom_up_tree_optimal exShared 5 exSharedBU (by unfold WFChildren; decide)
      (by decide) (by decide)⟩


theorem foldl_preserve {α β : Type} {P : β → Prop} {f : β → α → β}
    (hmono : ∀ acc x, P acc → P (f acc x)) :
    ∀ {l : List α} {acc : β}, P acc → P (l.foldl f acc) := by
  intro l
  induction l with
  | nil => intro acc h; exact h
  | cons a t ih => intro acc h; exact ih (hmono acc a h)

theorem foldl_attain {α β : Type} {P : β → Prop} {f : β → α → β}
    (hmono : ∀ acc x, P acc → P (f acc x)) {l : List α} {x : α} (hx : x ∈ l)
    (hhit : ∀ acc, P (f acc x)) : ∀ acc, P (l.foldl f acc) := by
  induction l with
  | nil => simp at hx
  | cons a t ih =>
    intro acc
    rw [List.foldl_cons]
    rcases List.mem_cons.mp hx with hx2 | hx2
    · subst hx2
      exact foldl_preserve hmono (hhit acc)
    · exact ih hx2 (f acc a)

theorem mem_uqInsert {q : List NodeId} {n x : NodeId} :
    x ∈ uqInsert q n ↔ x ∈ q ∨ x = n := by
  unfold uqInsert
  by_cases h : n ∈ q
  · rw [if_pos h]
    constructor
    · exact Or.inl
    · rintro (hx | hx)
      · exact hx
      · exact hx ▸ h
  · rw [if_neg h]
    simp

theorem mem_uqExtend_left {q l : List NodeId} {x : NodeId} (hx : x ∈ q) :
    x ∈ uqExtend q l := by
  unfold uqExtend
  exact foldl_preserve (P := fun q2 => x ∈ q2)
    (fun acc y hy => mem_uqInsert.mpr (Or.inl hy)) hx

theorem mem_uqExtend_right {q l : List NodeId} {x : NodeId} (hx : x ∈ l) :
    x ∈ uqExtend q l := by
  unfold uqExtend
  exact foldl_attain (P := fun q2 => x ∈ q2) (f := uqInsert)
    (fun acc y hy => mem_uqInsert.mpr (Or.inl hy)) hx
    (fun acc => mem_uqInsert.mpr (Or.inr rfl)) q

theorem pAdd_mono {acc : List (ClassId × List NodeId)} {c c2 : ClassId}
    {nid x : NodeId} (h : x ∈ (alookup acc c2).getD []) :
    x ∈ (alookup (pAdd acc c nid) c2).getD [] := by
  unfold pAdd
  by_cases hcc : c2 = c
  · subst hcc
    rw [alookup_ains_self]
    simp only [Option.getD_some]
    exact List.mem_append.mpr (Or.inl h)
  · rw [alookup_ains_ne _ _ _ _ (fun hp => hcc hp.symm)]
    exact h

theorem pAdd_self {acc : List (ClassId × List NodeId)} {c : ClassId}
    {nid : NodeId} : nid ∈ (alookup (pAdd acc c nid) c).getD [] := by
  unfold pAdd
  rw [alookup_ains_self]
  simp

/-- Completeness of the parents map: a member node appears among the parents
of each of its children's classes. -/
theorem buildParents_complete {g : EGraph}
    {c0 : ClassId} {m : NodeId} {mnd : ENode} {ch : NodeId}
    (hc0 : c0 ∈ g.classIds) (hm : m ∈ g.classNodes c0)
    (hml : alookup g.nodes m = some mnd) (hch : ch ∈ mnd.children) :
    m ∈ (alookup (buildParents g) (cidOf g ch)).getD [] := by
  have hnodemono : ∀ (acc : List (ClassId × List NodeId)) (nid : NodeId),
      m ∈ (alookup acc (cidOf g ch)).getD [] →
      m ∈ (alookup (match alookup g.nodes nid with
        | none => acc
        | some nd => nd.children.foldl (fun acc3 c => pAdd acc3 (cidOf g c) nid) acc)
        (cidOf g ch)).getD [] := by
    intro acc nid h
    cases hl : alookup g.nodes nid with
    | none => exact h
    | some nd =>
      exact foldl_preserve (P := fun a => m ∈ (alookup a (cidOf g ch)).getD [])
        (fun acc2 x h2 => pAdd_mono h2) h
  have hclassmono : ∀ (acc : List (ClassId × List NodeId)) (c : ClassId),
      m ∈ (alookup acc (cidOf g ch)).getD [] →
      m ∈ (alookup ((g.classNodes c).foldl (fun acc2 nid =>
        match alookup g.nodes nid with
        | none => acc2
        | some nd => nd.children.foldl (fun acc3 c => pAdd acc3 (cidOf g c) nid) acc2)
        acc) (cidOf g ch)).getD [] := by
    intro acc c h
    exact foldl_preserve (P := fun a => m ∈ (alookup a (cidOf g ch)).getD [])
      (fun acc2 nid h2 => hnodemono acc2 nid h2) h
  unfold buildParents
  refine foldl_attain (P := fun a => m ∈ (alookup a (cidOf g ch)).getD [])
    hclassmono hc0 ?_ _
  intro acc
  refine foldl_attain (P := fun a => m ∈ (alookup a (cidOf g ch)).getD [])
    (fun acc2 nid h2 => hnodemono acc2 nid h2) hm ?_ acc
  intro acc2
  simp only [hml]
  refine foldl_attain (P := fun a => m ∈ (alookup a (cidOf g ch)).getD [])
    (fun acc3 x h3 => pAdd_mono h3) hch ?_ acc2
  intro acc3
  exact pAdd_self

/-- A node is a member node when it appears in the node map. -/
def MemberNode (g : EGraph) (nid : NodeId) : Prop :=
  ∃ nd, (nid, nd) ∈ g.nodes

/-- A node that could strictly improve its own class right now. -/
def Improvable (g : EGraph) (st : BUState) (nid : NodeId) : Prop :=
  ∃ nd, alookup g.nodes nid = some nd ∧
    (∀ ch ∈ nd.children, (alookup st.choices (cidOf g ch)).isSome = true) ∧
    nodeSumCost g nd st.costs < costsGet st.costs nd.eclass

/-- Queue invariant of the worklist extractor: every improvable member node
is queued. -/
def QInv (g : EGraph) (st : BUState) (q : List NodeId) : Prop :=
  ∀ nid, MemberNode g nid → Improvable g st nid → nid ∈ q

/-- Completeness of the leaf seeding: it contains every member leaf. -/
theorem seedLeaves_complete {g : EGraph}
    {c0 : ClassId} {m : NodeId} {mnd : ENode}
    (hc0 : c0 ∈ g.classIds) (hm : m ∈ g.classNodes c0)
    (hml : alookup g.nodes m = some mnd) (hleaf : mnd.children = []) :
    m ∈ seedLeaves g := by
  have hnodemono : ∀ (q : List NodeId) (nid : NodeId), m ∈ q →
      m ∈ (match alookup g.nodes nid with
        | none => q
        | some nd => if nd.children.isEmpty then uqInsert q nid else q) := by
    intro q nid h
    cases hl : alookup g.nodes nid with
    | none => exact h
    | some nd =>
      show m ∈ (if nd.children.isEmpty then uqInsert q nid else q)
      by_cases he : nd.children.isEmpty
      · rw [if_pos he]
        exact mem_uqInsert.mpr (Or.inl h)
      · rw [if_neg he]
        exact h
  have hclassmono : ∀ (q : List NodeId) (c : ClassId), m ∈ q →
      m ∈ ((g.classNodes c).foldl (fun q2 nid =>
        match alookup g.nodes nid with
        | none => q2
        | some nd => if nd.children.isEmpty then uqInsert q2 nid else q2) q) := by
    intro q c h
    exact foldl_preserve (P := fun a => m ∈ a)
      (fun q2 nid h2 => hnodemono q2 nid h2) h
  unfold seedLeaves
  refine foldl_attain (P := fun a => m ∈ a) hclassmono hc0 ?_ _
  intro q
  refine foldl_attain (P := fun a => m ∈ a)
    (fun q2 nid h2 => hnodemono q2 nid h2) hm ?_ q
  intro q2
  simp [hml, hleaf, mem_uqInsert]

theorem costsGet_ains_self {costs : List (ClassId × CostI)} {c : ClassId}
    {v : CostI} : costsGet (ains costs c v) c = v := by
  simp [costsGet, alookup_ains_self]

theorem costsGet_ains_ne {costs : List (ClassId × CostI)} {c c2 : ClassId}
    {v : CostI} (h : c ≠ c2) :
    costsGet (ains costs c v) c2 = costsGet costs c2 := by
  simp [costsGet, alookup_ains_ne _ _ _ _ h]

theorem nodeSumCost_congr {g : EGraph} {nd : ENode}
    {costs costs2 : List (ClassId × CostI)}
    (h : ∀ ch ∈ nd.children,
      costsGet costs2 (cidOf g ch) = costsGet costs (cidOf g ch)) :
    nodeSumCost g nd costs2 = nodeSumCost g nd costs := by
  unfold nodeSumCost
  congr 1
  exact congrArg List.sum (List.map_congr_left h)

/-- The worklist loop of `BottomUpAnalysisExtractor::extract` preserves the
bottom-up soundness invariant. -/
theorem wlLoop_preserves_inv {g : EGraph} {par : List (ClassId × List NodeId)}
    (hwf : WFChildren g) :
    ∀ {fuel : Nat} {q : List NodeId} {st0 st : BUState},
    wlLoop g par fuel q st0 = some st → BUInv g st0 → BUInv g st := by
  intro fuel
  induction fuel with
  | zero => intro q st0 st h _; simp [wlLoop] at h
  | succ fuel ih =>
    intro q st0 st h hinv
    cases q with
    | nil =>
      rw [show wlLoop g par (fuel + 1) [] st0 = some st0 from rfl] at h
      exact (Option.some.inj h) ▸ hinv
    | cons nid q =>
      cases hl : alookup g.nodes nid with
      | none =>
        rw [show wlLoop g par (fuel + 1) (nid :: q) st0 = none from by
          simp only [wlLoop, hl]] at h
        exact absurd h (by simp)
      | some nd =>
        by_cases hall : nd.children.all
            (fun ch => (alookup st0.choices (cidOf g ch)).isSome) = true
        · by_cases hlt : nodeSumCost g nd st0.costs < costsGet st0.costs nd.eclass
          · rw [show wlLoop g par (fuel + 1) (nid :: q) st0 =
              wlLoop g par fuel (uqExtend q ((alookup par nd.eclass).getD []))
                { choices := ains st0.choices nd.eclass nid,
                  costs := ains st0.costs nd.eclass (nodeSumCost g nd st0.costs) }
              from by
                simp only [wlLoop, hl]
                rw [if_pos hall, if_pos hlt]] at h
            refine ih h ?_
            refine update_preserves_inv hinv hl rfl ?_ hlt
            intro ch hch
            exact hwf (nid, nd) (mem_of_alookup_eq_some hl) ch hch
          · rw [show wlLoop g par (fuel + 1) (nid :: q) st0 =
              wlLoop g par fuel q st0 from by
                simp only [wlLoop, hl]
                rw [if_pos hall, if_neg hlt]] at h
            exact ih h hinv
        · rw [show wlLoop g par (fuel + 1) (nid :: q) st0 =
            wlLoop g par fuel (uqInsert q nid) st0 from by
              simp only [wlLoop, hl]
              rw [if_neg hall]] at h
          exact ih h hinv

/-- The queue invariant survives a successful improvement step: every node
still improvable afterwards is either a parent of the updated class (enqueued
by the step) or was improvable, hence queued, before. -/
theorem qinv_update {g : EGraph} {st0 : BUState} {q : List NodeId}
    {nid : NodeId} {nd : ENode}
    (hl : alookup g.nodes nid = some nd)
    (hlt : nodeSumCost g nd st0.costs < costsGet st0.costs nd.eclass)
    (hq : QInv g st0 (nid :: q)) :
    QInv g { choices := ains st0.choices nd.eclass nid,
             costs := ains st0.costs nd.eclass (nodeSumCost g nd st0.costs) }
      (uqExtend q ((alookup (buildParents g) nd.eclass).getD [])) := by
  intro m hm himp
  unfold Improvable at himp
  obtain ⟨mnd, hml, hch2, hlt2⟩ := himp
  simp only [] at hch2 hlt2
  by_cases hhit : ∃ ch ∈ mnd.children, cidOf g ch = nd.eclass
  · obtain ⟨ch, hchm, hcheq⟩ := hhit
    have hcm : mnd.eclass ∈ g.classIds :=
      mem_classIds.mpr ⟨(m, mnd), mem_of_alookup_eq_some hml, rfl⟩
    have hmn : m ∈ g.classNodes mnd.eclass :=
      mem_classNodes.mpr ⟨mnd, mem_of_alookup_eq_some hml, rfl⟩
    have hpar := buildParents_complete hcm hmn hml hchm
    rw [hcheq] at hpar
    exact mem_uqExtend_right hpar
  · push_neg at hhit
    have hne : ∀ ch ∈ mnd.children, nd.eclass ≠ cidOf g ch :=
      fun ch hchm he => hhit ch hchm he.symm
    have hch0 : ∀ ch ∈ mnd.children,
        (alookup st0.choices (cidOf g ch)).isSome = true := by
      intro ch hchm
      have h2 := hch2 ch hchm
      rw [alookup_ains_ne _ _ _ _ (hne ch hchm)] at h2
      exact h2
    have hsum_eq : nodeSumCost g mnd
        (ains st0.costs nd.eclass (nodeSumCost g nd st0.costs)) =
        nodeSumCost g mnd st0.costs := by
      apply nodeSumCost_congr
      intro ch hchm
      exact costsGet_ains_ne (hne ch hchm)
    by_cases hme : mnd.eclass = nd.eclass
    · have hcur : costsGet (ains st0.costs nd.eclass (nodeSumCost g nd st0.costs))
          mnd.eclass = nodeSumCost g nd st0.costs := by
        rw [hme]; exact costsGet_ains_self
      rw [hsum_eq, hcur] at hlt2
      have himp0 : Improvable g st0 m :=
        ⟨mnd, hml, hch0, by rw [hme]; exact lt_trans hlt2 hlt⟩
      rcases List.mem_cons.mp (hq m hm himp0) with hmm | hmm
      · exfalso
        rw [hmm, hl] at hml
        have hnd := Option.some.inj hml
        rw [← hnd] at hlt2
        exact lt_irrefl _ hlt2
      · exact mem_uqExtend_left hmm
    · have hcur : costsGet (ains st0.costs nd.eclass (nodeSumCost g nd st0.costs))
          mnd.eclass = costsGet st0.costs mnd.eclass :=
        costsGet_ains_ne (fun he => hme he.symm)
      rw [hsum_eq, hcur] at hlt2
      have himp0 : Improvable g st0 m := ⟨mnd, hml, hch0, hlt2⟩
      rcases List.mem_cons.mp (hq m hm himp0) with hmm | hmm
      · exfalso
        rw [hmm, hl] at hml
        have hnd := Option.some.inj hml
        exact hme (by rw [← hnd])
      · exact mem_uqExtend_left hmm

/-- When the worklist loop drains its queue, no member node can still improve
its class: the queue invariant is maintained at every step and the final
queue is empty. -/
theorem wlLoop_qinv {g : EGraph} :
    ∀ {fuel : Nat} {q : List NodeId} {st0 st : BUState},
    wlLoop g (buildParents g) fuel q st0 = some st →
    QInv g st0 q →
    ∀ nid, MemberNode g nid → ¬ Improvable g st nid := by
  intro fuel
  induction fuel with
  | zero => intro q st0 st h _; simp [wlLoop] at h
  | succ fuel ih =>
    intro q st0 st h hq
    cases q with
    | nil =>
      rw [show wlLoop g (buildParents g) (fuel + 1) [] st0 = some st0 from rfl] at h
      have hst := Option.some.inj h
      intro m hm himp
      rw [← hst] at himp
      exact absurd (hq m hm himp) (List.not_mem_nil m)
    | cons nid q =>
      cases hl : alookup g.nodes nid with
      | none =>
        rw [show wlLoop g (buildParents g) (fuel + 1) (nid :: q) st0 = none from by
          simp only [wlLoop, hl]] at h
        exact absurd h (by simp)
      | some nd =>
        by_cases hall : nd.children.all
            (fun ch => (alookup st0.choices (cidOf g ch)).isSome) = true
        · by_cases hlt : nodeSumCost g nd st0.costs < costsGet st0.costs nd.eclass
          · rw [show wlLoop g (buildParents g) (fuel + 1) (nid :: q) st0 =
              wlLoop g (buildParents g) fuel
                (uqExtend q ((alookup (buildParents g) nd.eclass).getD []))
                { choices := ains st0.choices nd.eclass nid,
                  costs := ains st0.costs nd.eclass (nodeSumCost g nd st0.costs) }
              from by
                simp only [wlLoop, hl]
                rw [if_pos hall, if_pos hlt]] at h
            exact ih h (qinv_update hl hlt hq)
          · rw [show wlLoop g (buildParents g) (fuel + 1) (nid :: q) st0 =
              wlLoop g (buildParents g) fuel q st0 from by
                simp only [wlLoop, hl]
                rw [if_pos hall, if_neg hlt]] at h
            refine ih h ?_
            intro m hm himp
            rcases List.mem_cons.mp (hq m hm himp) with hmm | hmm
            · exfalso
              unfold Improvable at himp
              obtain ⟨mnd, hml, _, hlt2⟩ := himp
              rw [hmm, hl] at hml
              have hnd := Option.some.inj hml
              rw [← hnd] at hlt2
              exact hlt hlt2
            · exact hmm
        · rw [show wlLoop g (buildParents g) (fuel + 1) (nid :: q) st0 =
            wlLoop g (buildParents g) fuel (uqInsert q nid) st0 from by
              simp only [wlLoop, hl]
              rw [if_neg hall]] at h
          refine ih h ?_
          intro m hm himp
          rcases List.mem_cons.mp (hq m hm himp) with hmm | hmm
          · exact mem_uqInsert.mpr (Or.inr hmm)
          · exact mem_uqInsert.mpr (Or.inl hmm)

/-- The leaf-seeded queue satisfies the queue invariant in the empty initial
state: the only nodes improvable there are leaves. -/
theorem qinv_init {g : EGraph} :
    QInv g { choices := [], costs := [] } (seedLeaves g) := by
  intro m hm himp
  unfold Improvable at himp
  obtain ⟨mnd, hml, hch, _⟩ := himp
  have hleaf : mnd.children = [] := by
    cases hchl : mnd.children with
    | nil => rfl
    | cons ch t =>
      exfalso
      have h2 := hch ch (by rw [hchl]; exact List.mem_cons_self ch t)
      simp [alookup] at h2
  have hcm : mnd.eclass ∈ g.classIds :=
    mem_classIds.mpr ⟨(m, mnd), mem_of_alookup_eq_some hml, rfl⟩
  have hmn : m ∈ g.classNodes mnd.eclass :=
    mem_classNodes.mpr ⟨mnd, mem_of_alookup_eq_some hml, rfl⟩
  exact seedLeaves_complete hcm hmn hml hleaf

/-- If no member node can improve its class, the sweep fixpoint property
holds: a class either has all child classes costed and no strictly better
member, or one of its members mentions an uncosted class, making the member's
sum `INFINITY`, which can never be a strict improvement. -/
theorem no_improvable_noImprove {g : EGraph} {st : BUState}
    (hnodup : (akeys g.nodes).Nodup)
    (hcoh : ∀ c, (alookup st.choices c).isSome ↔ (alookup st.costs c).isSome)
    (hni : ∀ nid, MemberNode g nid → ¬ Improvable g st nid) :
    NoImprove g st := by
  intro c hc nid hnid nd hnd hlt
  have hmem : MemberNode g nid := ⟨nd, mem_of_alookup_eq_some hnd⟩
  have hecl : nd.eclass = c := by
    rcases mem_classNodes.mp hnid with ⟨nd0, hmem0, hecl0⟩
    have h0 := alookup_of_mem_nodup hnodup hmem0
    rw [hnd] at h0
    rw [Option.some.inj h0]
    exact hecl0
  by_cases hch : ∀ ch ∈ nd.children, (alookup st.choices (cidOf g ch)).isSome = true
  · exact hni nid hmem ⟨nd, hnd, hch, by rw [hecl]; exact hlt⟩
  · push_neg at hch
    obtain ⟨ch, hchm, hns⟩ := hch
    have htop : costsGet st.costs (cidOf g ch) = ⊤ := by
      cases hcl : alookup st.costs (cidOf g ch) with
      | none => simp [costsGet, hcl]
      | some v =>
        exfalso
        exact hns ((hcoh _).mpr (by rw [hcl]; rfl))
    have hsumtop : nodeSumCost g nd st.costs = ⊤ := by
      unfold nodeSumCost
      have hst : ((nd.children.map (fun x => costsGet st.costs (cidOf g x))).sum :
          CostI) = ⊤ := by
        by_contra hne
        exact (sum_elem_ne_top hne _ (List.mem_map.mpr ⟨ch, hchm, rfl⟩)) htop
      rw [hst]
      simp
    rw [hsumtop] at hlt
    exact not_top_lt hlt

/-- A successful run of the worklist extractor satisfies the soundness
invariant and the no-improvement fixpoint property. -/
theorem wl_run_facts {g : EGraph} {fuel : Nat} {st : BUState}
    (hwf : WFChildren g) (hnodup : (akeys g.nodes).Nodup)
    (h : bottomUpAnalysisExtract g fuel = some st) :
    BUInv g st ∧ NoImprove g st := by
  unfold bottomUpAnalysisExtract at h
  have hinv : BUInv g st := by
    refine wlLoop_preserves_inv hwf h ⟨?_, ?_, ?_⟩
    · intro c; simp [alookup]
    · intro p hp; simp at hp
    · intro c nid hc; simp [alookup] at hc
  exact ⟨hinv, no_improvable_noImprove hnodup hinv.1 (wlLoop_qinv h qinv_init)⟩

/-- Claim C3.  On any e-graph where both terminate, the worklist extractor
(`BottomUpAnalysisExtractor`) chooses exactly the same set of classes as the
naive sweeping extractor (`BottomUpExtractor`), and records identical costs
for every class: both final states are no-improvement fixpoints satisfying
the soundness invariant, so each recorded cost is attained by a valid tree
and bounds every valid tree of the other run. -/
theorem bottom_up_variants_agree (g : EGraph) (f1 f2 : Nat) (s1 s2 : BUState)
    (hwf : WFChildren g) (hnodup : (akeys g.nodes).Nodup)
    (h1 : bottomUpExtract g f1 = some s1)
    (h2 : bottomUpAnalysisExtract g f2 = some s2) :
    (∀ c, (alookup s1.choices c).isSome = true ↔
      (alookup s2.choices c).isSome = true) ∧
    (∀ c, costsGet s1.costs c = costsGet s2.costs c) := by
  have hni1 : NoImprove g s1 := fixpoint_no_improve (buLoop_fixpoint h1)
  have hinv1 : BUInv g s1 := by
    refine buLoop_preserves_inv hwf hnodup h1 ⟨?_, ?_, ?_⟩
    · intro c; simp [alookup]
    · intro p hp; simp at hp
    · intro c nid hc; simp [alookup] at hc
  obtain ⟨hinv2, hni2⟩ := wl_run_facts hwf hnodup h2
  constructor
  · intro c
    constructor
    · intro hc1
      obtain ⟨nid, hnid⟩ := Option.isSome_iff_exists.mp hc1
      obtain ⟨T1, hv1, _, _⟩ := hinv1.2.2 c nid hnid
      exact noImprove_chosen hni2 hinv2.1 hinv2.2.1 c T1 hv1
    · intro hc2
      obtain ⟨nid2, hnid2⟩ := Option.isSome_iff_exists.mp hc2
      obtain ⟨T2, hv2, _, _⟩ := hinv2.2.2 c nid2 hnid2
      exact noImprove_chosen hni1 hinv1.1 hinv1.2.1 c T2 hv2
  · intro c
    by_cases hc1 : (alookup s1.choices c).isSome = true
    · obtain ⟨nid, hnid⟩ := Option.isSome_iff_exists.mp hc1
      obtain ⟨T1, hv1, _, he1⟩ := hinv1.2.2 c nid hnid
      have hc2 : (alookup s2.choices c).isSome = true :=
        noImprove_chosen hni2 hinv2.1 hinv2.2.1 c T1 hv1
      obtain ⟨nid2, hnid2⟩ := Option.isSome_iff_exists.mp hc2
      obtain ⟨T2, hv2, _, he2⟩ := hinv2.2.2 c nid2 hnid2
      have hle12 : costsGet s1.costs c ≤ costsGet s2.costs c := by
        rw [← he2]
        exact noImprove_le_tree hni1 c T2 hv2
      have hle21 : costsGet s2.costs c ≤ costsGet s1.costs c := by
        rw [← he1]
        exact noImprove_le_tree hni2 c T1 hv1
      exact le_antisymm hle12 hle21
    · have hc2 : ¬ (alookup s2.choices c).isSome = true := by
        intro hc2
        obtain ⟨nid2, hnid2⟩ := Option.isSome_iff_exists.mp hc2
        obtain ⟨T2, hv2, _, _⟩ := hinv2.2.2 c nid2 hnid2
        exact hc1 (noImprove_chosen hni1 hinv1.1 hinv1.2.1 c T2 hv2)
      have ht1 : costsGet s1.costs c = ⊤ := by
        cases hcl : alookup s1.costs c with
        | none => simp [costsGet, hcl]
        | some v => exact absurd ((hinv1.1 c).mpr (by rw [hcl]; rfl)) hc1
      have ht2 : costsGet s2.costs c = ⊤ := by
        cases hcl : alookup s2.costs c with
        | none => simp [costsGet, hcl]
        | some v => exact absurd ((hinv2.1 c).mpr (by rw [hcl]; rfl)) hc2
      rw [ht1, ht2]

theorem bottom_up_variants_agree_witness :
    WFChildren exShared ∧ (akeys exShared.nodes).Nodup ∧
    bottomUpExtract exShared 5 = some exSharedBU ∧
    bottomUpAnalysisExtract exShared 5 = some exSharedBU ∧
    ((∀ c, (alookup exSharedBU.choices c).isSome = true ↔
        (alookup exSharedBU.choices c).isSome = true) ∧
      (∀ c, costsGet exSharedBU.costs c = costsGet exSharedBU.costs c)) :=
  ⟨by unfold WFChildren; decide, by decide, by decide, by decide,
    bottom_up_variants_agree exShared 5 5 exSharedBU exSharedBU
      (by unfold WFChildren; decide) (by decide) (by decide) (by decide)⟩

/-! ### C4: termination of the worklist extractor -/

/-- An e-graph with a leaf class `0`, a class `1` whose node needs classes
`0` and `2`, and a class `2` whose only node lists its own class as a child
(so class `2` can never be costed). -/
def g_ce : EGraph :=
  { nodes :=
      [(0, { op := "l", cost := 1, children := [], eclass := 0 }),
       (1, { op := "p", cost := 1, children := [0, 2], eclass := 1 }),
       (2, { op := "s", cost := 1, children := [2], eclass := 2 })],
    rootEclasses := [1] }

/-- Once node `1` is the whole queue, the worklist loop of
`BottomUpAnalysisExtractor::extract` pops it, finds child class `2` unchosen,
and re-inserts it into the emptied queue, reproducing the same configuration
forever. -/
theorem g_ce_stuck :
    ∀ f : Nat, wlLoop g_ce (buildParents g_ce) f [1]
      { choices := [(0, 0)], costs := [(0, ((1 : ℤ) : CostI))] } = none := by
  intro f
  induction f with
  | zero => rfl
  | succ f ih =>
    rw [show wlLoop g_ce (buildParents g_ce) (f + 1) [1]
        { choices := [(0, 0)], costs := [(0, ((1 : ℤ) : CostI))] } =
      wlLoop g_ce (buildParents g_ce) f [1]
        { choices := [(0, 0)], costs := [(0, ((1 : ℤ) : CostI))] } from rfl]
    exact ih

/-- Claim C4, counterexample.  The worklist extractor does not terminate on
`g_ce`: after the leaf of class `0` is processed, node `1` — whose child
class `2` can never be costed because its only node lists class `2` itself
as a child — is popped and re-inserted forever, so no iteration bound makes
the loop finish. -/
theorem worklist_divergence_counterexample :
    (∀ fuel : Nat, bottomUpAnalysisExtract g_ce fuel = none) ∧
    g_ce.classNodes 2 = [2] ∧
    (alookup g_ce.nodes 2).map ENode.children = some [2] := by
  refine ⟨?_, by decide, by decide⟩
  intro fuel
  match fuel with
  | 0 => rfl
  | 1 => rfl
  | f + 2 =>
    rw [show bottomUpAnalysisExtract g_ce (f + 2) =
      wlLoop g_ce (buildParents g_ce) (f + 1) [1]
        { choices := [(0, 0)], costs := [(0, ((1 : ℤ) : CostI))] } from rfl]
    exact g_ce_stuck (f + 1)

/-- The e-graph of the claim's cited shape alone: a leaf class `0` and a
class `2` whose only node lists its own class as a child, with no node of
another class mentioning class `2`. -/
def exLoopIso : EGraph :=
  { nodes :=
      [(0, { op := "l", cost := 1, children := [], eclass := 0 }),
       (2, { op := "s", cost := 1, children := [2], eclass := 2 })],
    rootEclasses := [0] }

/-- Claim C4, amended.  The worklist extractor's queue does not always empty:
it loops forever as soon as a node with one costable and one uncostable
child class is ever enqueued (`worklist_divergence_counterexample`).  On the
claim's cited example itself — a class whose only node lists its own class as
a child — the loop does terminate, because that node is not a leaf and no
update ever enqueues it: the run ends with the self-loop class unchosen. -/
theorem worklist_terminates_on_isolated_self_loop :
    bottomUpAnalysisExtract exLoopIso 3 =
      some { choices := [(0, 0)], costs := [(0, ((1 : ℤ) : CostI))] } ∧
    alookup
      ({ choices := [(0, 0)], costs := [(0, ((1 : ℤ) : CostI))] } : BUState).choices
      2 = none := by
  exact ⟨by decide, rfl⟩

/-! ### `FasterGreedyDagExtractor` (`faster_greedy_dag.rs`) -/

/-- The `CostSet` of `faster_greedy_dag.rs`: a per-class cost map for the
candidate's reachable set, the candidate's DAG total (possibly `INFINITY`),
and the candidate node. -/
structure CostSet where
  costs : List (ClassId × Cost)
  total : CostI
  choice : NodeId
deriving DecidableEq, Repr

/-- Remove-if-present for an association list (`HashMap::remove`). -/
def aremove {β : Type} : List (Nat × β) → Nat → List (Nat × β)
  | [], _ => []
  | (k, v) :: rest, a => if k = a then rest else (k, v) :: aremove rest a

/-- The node's child classes, sorted and with adjacent duplicates removed
(`childrens_classes.sort(); childrens_classes.dedup()`). -/
def adjDedup : List Nat → List Nat
  | [] => []
  | [a] => [a]
  | a :: b :: t => if a = b then adjDedup (b :: t) else a :: adjDedup (b :: t)

def csChildClasses (g : EGraph) (nd : ENode) : List ClassId :=
  adjDedup (List.insertionSort (· ≤ ·) (nd.children.map (fun c => cidOf g c)))

/-- `max_by_key` over the child classes on the size of the class's cost set
(Rust keeps the last maximal element); `None` models the panicking `unwrap`
on a missing cost set. -/
def csBiggest (costs : List (ClassId × CostSet)) : List ClassId → Option ClassId
  | [] => none
  | c0 :: rest =>
    rest.foldlM (fun b c =>
      match alookup costs c, alookup costs b with
      | some sc, some sb => some (if sb.costs.length ≤ sc.costs.length then c else b)
      | _, _ => none) c0

/-- "Clone the biggest set and insert the others into it": the union of the
children's cost maps, seeded from the biggest one. -/
def csUnionOf (costs : List (ClassId × CostSet)) (ccs : List ClassId) :
    Option (List (ClassId × Cost)) :=
  match csBiggest costs ccs with
  | none => none
  | some big =>
    match alookup costs big with
    | none => none
    | some bigSet =>
      ccs.foldlM (fun acc c =>
        if c = big then some acc
        else (alookup costs c).map
          (fun s => s.costs.foldl (fun a p => ains a p.1 p.2) acc))
        bigSet.costs

/-- `FasterGreedyDagExtractor::calculate_cost_set`.  `none` models a panic
(a missing node or a missing child cost set). -/
def calculateCostSet (g : EGraph) (nid : NodeId)
    (costs : List (ClassId × CostSet)) (best : CostI) : Option CostSet :=
  match alookup g.nodes nid with
  | none => none
  | some nd =>
    if nd.children.isEmpty then
      some { costs := [(cidOf g nid, nd.cost)], total := (nd.cost : CostI),
             choice := nid }
    else
      match csChildClasses g nd with
      | [] => none
      | c0 :: _ =>
        match alookup costs c0 with
        | none => none
        | some first =>
          if cidOf g nid ∈ csChildClasses g nd ∨
              ((csChildClasses g nd).length = 1 ∧
                best < (nd.cost : CostI) + first.total) then
            some { costs := [], total := ⊤, choice := nid }
          else
            match csUnionOf costs (csChildClasses g nd) with
            | none => none
            | some result =>
              some { costs := ains result (cidOf g nid) nd.cost,
                     total :=
                       if cidOf g nid ∈ akeys result then ⊤
                       else (((ains result (cidOf g nid) nd.cost).map
                         (fun p => p.2)).sum : Cost),
                     choice := nid }

/-- The `MostlyUniquePriorityQueue`: a node → cost map plus a min-heap of
`(cost, node)` pairs, modelled as a bag. -/
structure MUPQ where
  set : List (NodeId × Cost)
  queue : List (Cost × NodeId)
deriving DecidableEq, Repr

/-- `MostlyUniquePriorityQueue::insert`: skipped when the recorded cost for
the node is already at most the new one. -/
def mupqInsert (q : MUPQ) (nid : NodeId) (c : Cost) : MUPQ :=
  match alookup q.set nid with
  | some old =>
    if old ≤ c then q
    else { set := ains q.set nid c, queue := (c, nid) :: q.queue }
  | none => { set := ains q.set nid c, queue := (c, nid) :: q.queue }

/-- The minimum of the heap's bag in the `Reverse((Cost, NodeId))` order:
least cost first, least node id on ties. -/
def heapMin : List (Cost × NodeId) → Option (Cost × NodeId)
  | [] => none
  | p :: t =>
    match heapMin t with
    | none => some p
    | some m => some (if p.1 < m.1 ∨ (p.1 = m.1 ∧ p.2 ≤ m.2) then p else m)

/-- `MostlyUniquePriorityQueue::pop`. -/
def mupqPop (q : MUPQ) : Option (NodeId × MUPQ) :=
  match heapMin q.queue with
  | none => none
  | some p => some (p.2, { set := aremove q.set p.2, queue := q.queue.erase p })

/-- The parents enqueue after an installation: each parent all of whose child
classes are costed re-enters the queue keyed by its node cost. -/
def enqueueParents (g : EGraph) (costs : List (ClassId × CostSet))
    (l : List NodeId) (q : MUPQ) : MUPQ :=
  l.foldl (fun qa e =>
    match alookup g.nodes e with
    | none => qa
    | some nde =>
      if nde.children.all (fun c => (alookup costs (cidOf g c)).isSome) then
        mupqInsert qa e nde.cost
      else qa) q

/-- The leaf seeding of `FasterGreedyDagExtractor::extract`. -/
def fgdSeed (g : EGraph) : MUPQ :=
  g.classIds.foldl (fun q c =>
    (g.classNodes c).foldl (fun q2 nid =>
      match alookup g.nodes nid with
      | none => q2
      | some nd => if nd.children.isEmpty then mupqInsert q2 nid nd.cost else q2)
      q)
    { set := [], queue := [] }

/-- The main loop of `FasterGreedyDagExtractor::extract`: pop the cheapest
pending node, compute its cost set, and install it when strictly below the
class's current best, re-enqueueing the ready parents of the class. -/
def fgdLoop (g : EGraph) (par : List (ClassId × List NodeId)) :
    Nat → MUPQ → List (ClassId × CostSet) → Option (List (ClassId × CostSet))
  | 0, _, _ => none
  | fuel + 1, q, costs =>
    match mupqPop q with
    | none => some costs
    | some (nid, q2) =>
      match calculateCostSet g nid costs
          (((alookup costs (cidOf g nid)).map (fun v => v.total)).getD ⊤) with
      | none => none
      | some cs =>
        if cs.total <
            ((alookup costs (cidOf g nid)).map (fun v => v.total)).getD ⊤ then
          fgdLoop g par fuel
            (enqueueParents g (ains costs (cidOf g nid) cs)
              ((alookup par (cidOf g nid)).getD []) q2)
            (ains costs (cidOf g nid) cs)
        else fgdLoop g par fuel q2 costs

/-- `FasterGreedyDagExtractor::extract`, returning the final per-class cost
map (the extraction result chooses `cs.choice` for every entry of it). -/
def fasterGreedyDagExtract (g : EGraph) (fuel : Nat) :
    Option (List (ClassId × CostSet)) :=
  fgdLoop g (buildParents g) fuel (fgdSeed g) []

theorem calculateCostSet_eq {g : EGraph} {nid : NodeId} {nd : ENode}
    (costs : List (ClassId × CostSet)) (best : CostI)
    (hl : alookup g.nodes nid = some nd) :
    calculateCostSet g nid costs best =
      (if nd.children.isEmpty then
        some { costs := [(cidOf g nid, nd.cost)], total := (nd.cost : CostI),
               choice := nid }
      else
        match csChildClasses g nd with
        | [] => none
        | c0 :: _ =>
          match alookup costs c0 with
          | none => none
          | some first =>
            if cidOf g nid ∈ csChildClasses g nd ∨
                ((csChildClasses g nd).length = 1 ∧
                  best < (nd.cost : CostI) + first.total) then
              some { costs := [], total := ⊤, choice := nid }
            else
              match csUnionOf costs (csChildClasses g nd) with
              | none => none
              | some result =>
                some { costs := ains result (cidOf g nid) nd.cost,
                       total :=
                         if cidOf g nid ∈ akeys result then ⊤
                         else (((ains result (cidOf g nid) nd.cost).map
                           (fun p => p.2)).sum : Cost),
                       choice := nid }) := by
  unfold calculateCostSet
  rw [hl]

/-- Every cost set stored by the main loop of `FasterGreedyDagExtractor` has
a finite total: installation requires `cost_set.total < prev_cost`, and
`prev_cost` is at most `INFINITY`. -/
theorem fgdLoop_totals_ne_top {g : EGraph} {par : List (ClassId × List NodeId)} :
    ∀ {fuel : Nat} {q : MUPQ} {costs cmap : List (ClassId × CostSet)},
    fgdLoop g par fuel q costs = some cmap →
    (∀ p ∈ costs, p.2.total ≠ ⊤) → (∀ p ∈ cmap, p.2.total ≠ ⊤) := by
  intro fuel
  induction fuel with
  | zero => intro q costs cmap h _; simp [fgdLoop] at h
  | succ fuel ih =>
    intro q costs cmap h hfin
    cases hpop : mupqPop q with
    | none =>
      rw [show fgdLoop g par (fuel + 1) q costs = some costs from by
        simp only [fgdLoop, hpop]] at h
      exact (Option.some.inj h) ▸ hfin
    | some pr =>
      obtain ⟨nid, q2⟩ := pr
      cases hcalc : calculateCostSet g nid costs
          (((alookup costs (cidOf g nid)).map (fun v => v.total)).getD ⊤) with
      | none =>
        rw [show fgdLoop g par (fuel + 1) q costs = none from by
          simp only [fgdLoop, hpop, hcalc]] at h
        exact absurd h (by simp)
      | some cs =>
        by_cases hlt : cs.total <
            ((alookup costs (cidOf g nid)).map (fun v => v.total)).getD ⊤
        · rw [show fgdLoop g par (fuel + 1) q costs =
            fgdLoop g par fuel
              (enqueueParents g (ains costs (cidOf g nid) cs)
                ((alookup par (cidOf g nid)).getD []) q2)
              (ains costs (cidOf g nid) cs) from by
            simp only [fgdLoop, hpop, hcalc]
            rw [if_pos hlt]] at h
          refine ih h ?_
          intro p hp
          rcases mem_ains_elim hp with hp2 | hp2
          · rw [hp2]
            exact ne_top_of_lt hlt
          · exact hfin p hp2
        · rw [show fgdLoop g par (fuel + 1) q costs =
            fgdLoop g par fuel q2 costs from by
            simp only [fgdLoop, hpop, hcalc]
            rw [if_neg hlt]] at h
          exact ih h hfin

/-- Claim C7.  When a node's owning class is one of its deduplicated child
classes, or is a key of the union of its children's cost sets,
`calculate_cost_set` returns a cost set with total `INFINITY`; and since the
extractor installs a candidate only when its total is strictly below the
class's current best (which is at most `INFINITY`), every cost set held in
the final cost map of a successful run has a finite total — a self-reaching
candidate is never installed as a class's best term. -/
theorem fgd_self_reaching_never_installed (g : EGraph) (nid : NodeId)
    (nd : ENode) (costs : List (ClassId × CostSet)) (best : CostI)
    (cs : CostSet) (hl : alookup g.nodes nid = some nd)
    (hcs : calculateCostSet g nid costs best = some cs)
    (hself : cidOf g nid ∈ csChildClasses g nd ∨
      ∃ result, csUnionOf costs (csChildClasses g nd) = some result ∧
        cidOf g nid ∈ akeys result) :
    cs.total = ⊤ ∧
    (∀ fuel cmap, fasterGreedyDagExtract g fuel = some cmap →
      ∀ c s, alookup cmap c = some s → s.total ≠ ⊤) := by
  constructor
  · rw [calculateCostSet_eq costs best hl] at hcs
    by_cases hemp : nd.children.isEmpty
    · exfalso
      have hnil : nd.children = [] := by
        cases hc2 : nd.children with
        | nil => rfl
        | cons a t => rw [hc2] at hemp; simp [List.isEmpty] at hemp
      have hccs : csChildClasses g nd = [] := by
        unfold csChildClasses
        rw [hnil]
        rfl
      rcases hself with hs | ⟨r, hr, _⟩
      · rw [hccs] at hs
        simp at hs
      · rw [hccs] at hr
        simp [csUnionOf, csBiggest] at hr
    · rw [if_neg hemp] at hcs
      cases hccs : csChildClasses g nd with
      | nil =>
        rw [hccs] at hcs
        simp only [] at hcs
        exact absurd hcs (by simp)
      | cons c0 rest =>
        rw [hccs] at hcs hself
        simp only [] at hcs
        cases hfl : alookup costs c0 with
        | none =>
          rw [hfl] at hcs
          simp only [] at hcs
          exact absurd hcs (by simp)
        | some first =>
          rw [hfl] at hcs
          simp only [] at hcs
          by_cases hcond : cidOf g nid ∈ c0 :: rest ∨
              ((c0 :: rest).length = 1 ∧ best < (nd.cost : CostI) + first.total)
          · rw [if_pos hcond] at hcs
            rw [← Option.some.inj hcs]
          · rw [if_neg hcond] at hcs
            rcases hself with hs | ⟨r, hr, hrk⟩
            · exact absurd (Or.inl hs) hcond
            · rw [hr] at hcs
              simp only [] at hcs
              rw [← Option.some.inj hcs]
              simp only []
              rw [if_pos hrk]
  · intro fuel cmap h c s hsl
    unfold fasterGreedyDagExtract at h
    exact fgdLoop_totals_ne_top h (by intro p hp; simp at hp) (c, s)
      (mem_of_alookup_eq_some hsl)

/-- The self-loop node of `exLoopIso`. -/
def exSelfND : ENode := { op := "s", cost := 1, children := [2], eclass := 2 }

/-- A cost map in which class `2` already has a recorded cost set. -/
def exSelfCosts : List (ClassId × CostSet) :=
  [(2, { costs := [(2, 1)], total := ((1 : ℤ) : CostI), choice := 2 })]

theorem fgd_self_reaching_never_installed_witness :
    (alookup exLoopIso.nodes 2 = some exSelfND) ∧
    (calculateCostSet exLoopIso 2 exSelfCosts ⊤ =
      some { costs := [], total := ⊤, choice := 2 }) ∧
    (cidOf exLoopIso 2 ∈ csChildClasses exLoopIso exSelfND) ∧
    (({ costs := [], total := ⊤, choice := 2 } : CostSet).total = ⊤ ∧
      (∀ fuel cmap, fasterGreedyDagExtract exLoopIso fuel = some cmap →
        ∀ c s, alookup cmap c = some s → s.total ≠ ⊤)) :=
  ⟨by decide, by decide, by decide,
    fgd_self_reaching_never_installed exLoopIso 2 exSelfND exSelfCosts ⊤
      { costs := [], total := ⊤, choice := 2 } (by decide) (by decide)
      (Or.inl (by decide))⟩

/-! ### `TopK` (`beam/top_k.rs`) -/

/-- `TopK::consider` over the sorted unique backing array, for any `Ord`
type.  `binary_search` on a strictly sorted slice finds the item iff it is
present and otherwise reports the insertion point, the number of elements
below the item; inserting at that point is an ordered insertion. -/
def tkConsider {α : Type} [LinearOrder α] (K : Nat) (s : List α) (x : α) :
    List α × Bool :=
  if x ∈ s then (s, false)
  else if s.countP (fun y => decide (y < x)) < K then
    (List.orderedInsert (fun a b => a ≤ b) x
      (if s.length = K then s.dropLast else s), true)
  else (s, false)

/-- `TopK::cutoff`: `self.0.get(BEAM - 1)`. -/
def tkCutoff {α : Type} (K : Nat) (s : List α) : Option α := s.get? (K - 1)

/-- Offering a whole sequence to `consider`, starting from `TopK::new()`. -/
def tkFold {α : Type} [LinearOrder α] (K : Nat) (l : List α) : List α :=
  l.foldl (fun s x => (tkConsider K s x).1) []

theorem mem_of_getLast_opt {α : Type} :
    ∀ {l : List α} {w : α}, l.getLast? = some w → w ∈ l := by
  intro l
  induction l with
  | nil => intro w h; simp at h
  | cons a t ih =>
    intro w h
    cases t with
    | nil =>
      simp at h
      exact h ▸ List.mem_cons_self a []
    | cons b t2 =>
      rw [List.getLast?_cons_cons] at h
      exact List.mem_cons_of_mem _ (ih h)

theorem sorted_le_getLast_opt {α : Type} [LinearOrder α] :
    ∀ {s : List α}, List.Sorted (· < ·) s →
    ∀ {w : α}, s.getLast? = some w → ∀ y ∈ s, y ≤ w := by
  intro s
  induction s with
  | nil => intro _ w hw; simp at hw
  | cons a t ih =>
    intro hs w hw y hy
    rw [List.sorted_cons] at hs
    obtain ⟨ha, ht⟩ := hs
    cases t with
    | nil =>
      simp at hw
      rw [List.mem_singleton.mp hy, hw]
    | cons b t2 =>
      rw [List.getLast?_cons_cons] at hw
      rcases List.mem_cons.mp hy with hy | hy
      · exact hy ▸ le_of_lt (ha w (mem_of_getLast_opt hw))
      · exact ih ht hw y hy

theorem sorted_lt_orderedInsert {α : Type} [LinearOrder α] {x : α} :
    ∀ {s : List α}, List.Sorted (· < ·) s → x ∉ s →
    List.Sorted (· < ·) (List.orderedInsert (fun a b => a ≤ b) x s) := by
  intro s
  induction s with
  | nil => intro _ _; simp
  | cons y t ih =>
    intro hs hx
    rw [List.sorted_cons] at hs
    obtain ⟨hy, ht⟩ := hs
    by_cases hxy : x ≤ y
    · rw [show List.orderedInsert (fun a b => a ≤ b) x (y :: t) = x :: y :: t from by
        simp [List.orderedInsert, hxy]]
      have hxlty : x < y :=
        lt_of_le_of_ne hxy (fun he => hx (he ▸ List.mem_cons_self y t))
      rw [List.sorted_cons]
      constructor
      · intro b hb
        rcases List.mem_cons.mp hb with hb | hb
        · exact hb ▸ hxlty
        · exact lt_trans hxlty (hy b hb)
      · rw [List.sorted_cons]
        exact ⟨hy, ht⟩
    · rw [show List.orderedInsert (fun a b => a ≤ b) x (y :: t) =
        y :: List.orderedInsert (fun a b => a ≤ b) x t from by
        simp [List.orderedInsert, hxy]]
      rw [List.sorted_cons]
      refine ⟨?_, ih ht (fun hxt => hx (List.mem_cons_of_mem _ hxt))⟩
      intro b hb
      rcases (List.mem_orderedInsert _).mp hb with hb | hb
      · exact hb ▸ lt_of_not_le hxy
      · exact hy b hb

/-- Invariant of the `TopK` backing array after offering the elements of
`off`: strictly sorted, of length `min BEAM #distinct`, holding exactly the
elements with fewer than `BEAM` distinct offered elements below them. -/
def TKInv {α : Type} [LinearOrder α] (K : Nat) (off s : List α) : Prop :=
  List.Sorted (· < ·) s ∧
  s.length = min K off.toFinset.card ∧
  (∀ y, y ∈ s ↔ y ∈ off ∧ (off.toFinset.filter (fun z => z < y)).card < K)

theorem tk_B_mono {α : Type} [LinearOrder α] {F : Finset α} {x y : α}
    (h : x ≤ y) :
    (F.filter (fun z => z < x)).card ≤ (F.filter (fun z => z < y)).card := by
  apply Finset.card_le_card
  intro z hz
  rw [Finset.mem_filter] at hz ⊢
  exact ⟨hz.1, lt_of_lt_of_le hz.2 h⟩

theorem tk_B_lt_card {α : Type} [LinearOrder α] {F : Finset α} {y : α}
    (hy : y ∈ F) : (F.filter (fun z => z < y)).card < F.card := by
  apply Finset.card_lt_card
  rw [Finset.ssubset_iff_of_subset (Finset.filter_subset _ _)]
  exact ⟨y, hy, by simp⟩

theorem tk_B_lt_B {α : Type} [LinearOrder α] {F : Finset α} {y w : α}
    (hy : y ∈ F) (hyw : y < w) :
    (F.filter (fun z => z < y)).card < (F.filter (fun z => z < w)).card := by
  apply Finset.card_lt_card
  rw [Finset.ssubset_iff_of_subset]
  · exact ⟨y, Finset.mem_filter.mpr ⟨hy, hyw⟩, by simp⟩
  · intro z hz
    rw [Finset.mem_filter] at hz ⊢
    exact ⟨hz.1, lt_trans hz.2 hyw⟩

theorem tk_toFinset_append {α : Type} [DecidableEq α] (off : List α) (x : α) :
    (off ++ [x]).toFinset = insert x off.toFinset := by
  rw [List.toFinset_append]
  rw [show ([x] : List α).toFinset = {x} from rfl]
  rw [Finset.union_comm]
  exact (Finset.insert_eq x _).symm

theorem tk_Bp_of_not_lt {α : Type} [LinearOrder α] {off : List α} {x y : α}
    (h : ¬ x < y) :
    (((off ++ [x]).toFinset.filter (fun z => z < y)).card) =
    ((off.toFinset.filter (fun z => z < y)).card) := by
  rw [tk_toFinset_append, Finset.filter_insert, if_neg h]

theorem tk_Bp_of_mem {α : Type} [LinearOrder α] {off : List α} {x : α}
    (h : x ∈ off) (y : α) :
    (((off ++ [x]).toFinset.filter (fun z => z < y)).card) =
    ((off.toFinset.filter (fun z => z < y)).card) := by
  rw [tk_toFinset_append, Finset.insert_eq_self.mpr (List.mem_toFinset.mpr h)]

theorem tk_Bp_of_new {α : Type} [LinearOrder α] {off : List α} {x y : α}
    (hlt : x < y) (hx : x ∉ off) :
    (((off ++ [x]).toFinset.filter (fun z => z < y)).card) =
    ((off.toFinset.filter (fun z => z < y)).card) + 1 := by
  rw [tk_toFinset_append, Finset.filter_insert, if_pos hlt,
    Finset.card_insert_of_not_mem
      (fun hc => hx (List.mem_toFinset.mp (Finset.mem_filter.mp hc).1))]

/-- When `consider` reaches the insertion branch, fewer than `BEAM` distinct
offered elements lie below the item, and the item is fresh. -/
theorem tk_key {α : Type} [LinearOrder α] {K : Nat} {off s : List α} {x : α}
    (h : TKInv K off s) (hxs : x ∉ s)
    (hidx : s.countP (fun y => decide (y < x)) < K) :
    (off.toFinset.filter (fun z => z < x)).card < K ∧ x ∉ off := by
  obtain ⟨hsort, hlen, hmem⟩ := h
  have hBx : (off.toFinset.filter (fun z => z < x)).card < K := by
    by_contra hge
    push_neg at hge
    have hF : K ≤ off.toFinset.card :=
      le_trans hge (Finset.card_le_card (Finset.filter_subset _ _))
    have hlenK : s.length = K := by rw [hlen, min_eq_left hF]
    have hall : ∀ y ∈ s, y < x := by
      intro y hy
      by_contra hnlt
      push_neg at hnlt
      have h1 := (hmem y).mp hy
      have h2 := tk_B_mono (F := off.toFinset) hnlt
      omega
    have hcnt : s.countP (fun y => decide (y < x)) = s.length := by
      rw [List.countP_eq_length]
      intro a ha
      exact decide_eq_true (hall a ha)
    omega
  exact ⟨hBx, fun hxoff => hxs ((hmem x).mpr ⟨hxoff, hBx⟩)⟩

/-- One `consider` step preserves the `TopK` invariant. -/
theorem tk_step {α : Type} [LinearOrder α] {K : Nat} {off s : List α} {x : α}
    (h : TKInv K off s) : TKInv K (off ++ [x]) (tkConsider K s x).1 := by
  obtain ⟨hsort, hlen, hmem⟩ := h
  have hnd : s.Nodup := List.Pairwise.imp (fun hab => ne_of_lt hab) hsort
  have hsub : ∀ y ∈ s, y ∈ off := fun y hy => ((hmem y).mp hy).1
  by_cases hxs : x ∈ s
  · have hres : (tkConsider K s x).1 = s := by
      unfold tkConsider; rw [if_pos hxs]
    rw [hres]
    have hxoff : x ∈ off := hsub x hxs
    refine ⟨hsort, ?_, ?_⟩
    · rw [hlen, tk_toFinset_append,
        Finset.insert_eq_self.mpr (List.mem_toFinset.mpr hxoff)]
    · intro y
      rw [tk_Bp_of_mem hxoff y, hmem y]
      constructor
      · rintro ⟨h1, h2⟩
        exact ⟨List.mem_append.mpr (Or.inl h1), h2⟩
      · rintro ⟨h1, h2⟩
        rcases List.mem_append.mp h1 with h1 | h1
        · exact ⟨h1, h2⟩
        · obtain he := List.mem_singleton.mp h1
          subst he
          exact ⟨hxoff, h2⟩
  · by_cases hidx : s.countP (fun y => decide (y < x)) < K
    · obtain ⟨hBx, hxoff⟩ := tk_key ⟨hsort, hlen, hmem⟩ hxs hidx
      have hxF : x ∉ off.toFinset := fun hc => hxoff (List.mem_toFinset.mp hc)
      by_cases hfull : s.length = K
      · -- full: drop the worst, insert
        have hres : (tkConsider K s x).1 =
            List.orderedInsert (fun a b => a ≤ b) x s.dropLast := by
          unfold tkConsider; rw [if_neg hxs, if_pos hidx, if_pos hfull]
        rw [hres]
        have hKpos : 0 < K := lt_of_le_of_lt (Nat.zero_le _) hidx
        have hsne : s ≠ [] := by
          intro he
          rw [he] at hfull
          simp at hfull
          omega
        set w := s.getLast hsne with hw
        have hsplit : s.dropLast ++ [w] = s := by
          rw [hw]; exact List.dropLast_append_getLast hsne
        have hgl : s.getLast? = some w := by
          rw [hw]; exact List.getLast?_eq_getLast s hsne
        have hwmem : w ∈ s := by
          rw [← hsplit]; exact List.mem_append.mpr (Or.inr (List.mem_singleton_self w))
        have hwoff : w ∈ off := hsub w hwmem
        have hwnd : w ∉ s.dropLast := by
          have hnd2 := hnd
          rw [← hsplit, List.nodup_append] at hnd2
          exact fun hc => hnd2.2.2 hc (List.mem_singleton_self w)
        have hdl_sorted : List.Sorted (· < ·) s.dropLast :=
          List.Pairwise.sublist (List.dropLast_sublist s) hsort
        have hxdl : x ∉ s.dropLast := fun hc => hxs (by
          rw [← hsplit]; exact List.mem_append.mpr (Or.inl hc))
        have hFK : K ≤ off.toFinset.card := by
          have h2 : min K off.toFinset.card ≤ off.toFinset.card := min_le_right _ _
          rw [← hlen, hfull] at h2
          exact h2
        have hxw : x < w := by
          by_contra hnxw
          push_neg at hnxw
          have hall : ∀ y ∈ s, y < x := by
            intro y hy
            have hyw := sorted_le_getLast_opt hsort hgl y hy
            exact lt_of_le_of_ne (le_trans hyw hnxw) (fun he => hxs (he ▸ hy))
          have hcnt : s.countP (fun y => decide (y < x)) = s.length := by
            rw [List.countP_eq_length]
            intro a ha
            exact decide_eq_true (hall a ha)
          omega
        have hBw_ge : K - 1 ≤ (off.toFinset.filter (fun z => z < w)).card := by
          have hsubF : s.dropLast.toFinset ⊆
              off.toFinset.filter (fun z => z < w) := by
            intro z hz
            rw [List.mem_toFinset] at hz
            have hzs : z ∈ s := by
              rw [← hsplit]; exact List.mem_append.mpr (Or.inl hz)
            rw [Finset.mem_filter]
            refine ⟨List.mem_toFinset.mpr (hsub z hzs), ?_⟩
            have hle := sorted_le_getLast_opt hsort hgl z hzs
            exact lt_of_le_of_ne hle (fun he2 => hwnd (he2 ▸ hz))
          have hcard := Finset.card_le_card hsubF
          have hdlnd : s.dropLast.Nodup :=
            List.Nodup.sublist (List.dropLast_sublist s) hnd
          rw [List.toFinset_card_of_nodup hdlnd, List.length_dropLast, hfull] at hcard
          exact hcard
        refine ⟨sorted_lt_orderedInsert hdl_sorted hxdl, ?_, ?_⟩
        · rw [List.orderedInsert_length, List.length_dropLast, hfull,
            tk_toFinset_append, Finset.card_insert_of_not_mem hxF,
            min_eq_left (by omega : K ≤ off.toFinset.card + 1)]
          omega
        · intro y
          constructor
          · intro hy
            rcases (List.mem_orderedInsert _).mp hy with hy | hy
            · subst hy
              refine ⟨List.mem_append.mpr (Or.inr (List.mem_singleton_self y)), ?_⟩
              rw [tk_Bp_of_not_lt (lt_irrefl y)]
              exact hBx
            · have hys : y ∈ s := by
                rw [← hsplit]; exact List.mem_append.mpr (Or.inl hy)
              have hyoff := hsub y hys
              have hyB := ((hmem y).mp hys).2
              have hyw : y < w := by
                have hle := sorted_le_getLast_opt hsort hgl y hys
                exact lt_of_le_of_ne hle (fun he => hwnd (he ▸ hy))
              refine ⟨List.mem_append.mpr (Or.inl hyoff), ?_⟩
              by_cases hxy : x < y
              · rw [tk_Bp_of_new hxy hxoff]
                have h3 := tk_B_lt_B (List.mem_toFinset.mpr hyoff) hyw
                have h4 := ((hmem w).mp hwmem).2
                omega
              · rw [tk_Bp_of_not_lt hxy]
                exact hyB
          · rintro ⟨hyoff', hyB'⟩
            rcases List.mem_append.mp hyoff' with hyoff | hyx
            · by_cases hyeqx : y = x
              · subst hyeqx
                exact absurd hyoff hxoff
              · have hyB : (off.toFinset.filter (fun z => z < y)).card < K := by
                  by_cases hxy : x < y
                  · rw [tk_Bp_of_new hxy hxoff] at hyB'
                    omega
                  · rw [tk_Bp_of_not_lt hxy] at hyB'
                    exact hyB'
                have hys : y ∈ s := (hmem y).mpr ⟨hyoff, hyB⟩
                have hynw : y ≠ w := by
                  intro he
                  rw [he] at hyB'
                  rw [tk_Bp_of_new hxw hxoff] at hyB'
                  omega
                have hydl : y ∈ s.dropLast := by
                  have h5 := hys
                  rw [← hsplit] at h5
                  rcases List.mem_append.mp h5 with h5 | h5
                  · exact h5
                  · exact absurd (List.mem_singleton.mp h5) hynw
                exact (List.mem_orderedInsert _).mpr (Or.inr hydl)
            · obtain he := List.mem_singleton.mp hyx
              subst he
              exact (List.mem_orderedInsert _).mpr (Or.inl rfl)
      · -- not full: plain ordered insert
        have hres : (tkConsider K s x).1 =
            List.orderedInsert (fun a b => a ≤ b) x s := by
          unfold tkConsider; rw [if_neg hxs, if_pos hidx, if_neg hfull]
        rw [hres]
        have hlenle : s.length ≤ K := by rw [hlen]; exact min_le_left _ _
        have hFlt : off.toFinset.card < K := by
          by_contra hge
          push_neg at hge
          rw [hlen, min_eq_left hge] at hfull
          exact hfull rfl
        have hlenF : s.length = off.toFinset.card := by
          rw [hlen, min_eq_right (le_of_lt hFlt)]
        refine ⟨sorted_lt_orderedInsert hsort hxs, ?_, ?_⟩
        · rw [List.orderedInsert_length, hlen, tk_toFinset_append,
            Finset.card_insert_of_not_mem hxF,
            min_eq_right (le_of_lt hFlt),
            min_eq_right (by omega : off.toFinset.card + 1 ≤ K)]
        · intro y
          constructor
          · intro hy
            rcases (List.mem_orderedInsert _).mp hy with hy | hy
            · subst hy
              refine ⟨List.mem_append.mpr (Or.inr (List.mem_singleton_self y)), ?_⟩
              rw [tk_Bp_of_not_lt (lt_irrefl y)]
              exact hBx
            · have hyoff := hsub y hy
              have hyB := ((hmem y).mp hy).2
              refine ⟨List.mem_append.mpr (Or.inl hyoff), ?_⟩
              by_cases hxy : x < y
              · rw [tk_Bp_of_new hxy hxoff]
                have h3 := tk_B_lt_card (List.mem_toFinset.mpr hyoff)
                omega
              · rw [tk_Bp_of_not_lt hxy]
                exact hyB
          · rintro ⟨hyoff', hyB'⟩
            rcases List.mem_append.mp hyoff' with hyoff | hyx
            · by_cases hyeqx : y = x
              · subst hyeqx
                exact absurd hyoff hxoff
              · have hyB : (off.toFinset.filter (fun z => z < y)).card < K := by
                  by_cases hxy : x < y
                  · rw [tk_Bp_of_new hxy hxoff] at hyB'
                    omega
                  · rw [tk_Bp_of_not_lt hxy] at hyB'
                    exact hyB'
                exact (List.mem_orderedInsert _).mpr
                  (Or.inr ((hmem y).mpr ⟨hyoff, hyB⟩))
            · obtain he := List.mem_singleton.mp hyx
              subst he
              exact (List.mem_orderedInsert _).mpr (Or.inl rfl)
    · -- rejected: too large
      have hres : (tkConsider K s x).1 = s := by
        unfold tkConsider; rw [if_neg hxs, if_neg hidx]
      rw [hres]
      push_neg at hidx
      have hcle : s.countP (fun y => decide (y < x)) ≤ s.length :=
        List.countP_le_length _
      have hlenK : s.length = K :=
        le_antisymm (by rw [hlen]; exact min_le_left _ _) (le_trans hidx hcle)
      have hcnt : s.countP (fun y => decide (y < x)) = s.length :=
        le_antisymm hcle (hlenK ▸ hidx)
      have hall : ∀ y ∈ s, y < x := by
        intro y hy
        exact of_decide_eq_true ((List.countP_eq_length.mp hcnt) y hy)
      have hFK : K ≤ off.toFinset.card := by
        have h2 : min K off.toFinset.card ≤ off.toFinset.card := min_le_right _ _
        rw [← hlen, hlenK] at h2
        exact h2
      refine ⟨hsort, ?_, ?_⟩
      · by_cases hxoff : x ∈ off
        · rw [hlenK, tk_toFinset_append,
            Finset.insert_eq_self.mpr (List.mem_toFinset.mpr hxoff),
            min_eq_left hFK]
        · rw [hlenK, tk_toFinset_append,
            Finset.card_insert_of_not_mem
              (fun hc => hxoff (List.mem_toFinset.mp hc)),
            min_eq_left (by omega : K ≤ off.toFinset.card + 1)]
      · intro y
        by_cases hxoff : x ∈ off
        · rw [tk_Bp_of_mem hxoff y, hmem y]
          constructor
          · rintro ⟨h1, h2⟩
            exact ⟨List.mem_append.mpr (Or.inl h1), h2⟩
          · rintro ⟨h1, h2⟩
            rcases List.mem_append.mp h1 with h1 | h1
            · exact ⟨h1, h2⟩
            · obtain he := List.mem_singleton.mp h1
              subst he
              exact ⟨hxoff, h2⟩
        · constructor
          · intro hy
            have h1 := (hmem y).mp hy
            refine ⟨List.mem_append.mpr (Or.inl h1.1), ?_⟩
            by_cases hxy : x < y
            · exact absurd (lt_trans hxy (hall y hy)) (lt_irrefl x)
            · rw [tk_Bp_of_not_lt hxy]
              exact h1.2
          · rintro ⟨h1, h2⟩
            rcases List.mem_append.mp h1 with h1 | h1
            · by_cases hxy : x < y
              · rw [tk_Bp_of_new hxy hxoff] at h2
                have hyB : (off.toFinset.filter (fun z => z < y)).card < K := by
                  omega
                have hys := (hmem y).mpr ⟨h1, hyB⟩
                exact absurd (lt_trans hxy (hall y hys)) (lt_irrefl x)
              · rw [tk_Bp_of_not_lt hxy] at h2
                exact (hmem y).mpr ⟨h1, h2⟩
            · obtain he := List.mem_singleton.mp h1
              subst he
              exfalso
              rw [tk_Bp_of_not_lt (lt_irrefl y)] at h2
              have hsubF : s.toFinset ⊆ off.toFinset.filter (fun z => z < y) := by
                intro z hz
                rw [List.mem_toFinset] at hz
                exact Finset.mem_filter.mpr
                  ⟨List.mem_toFinset.mpr (hsub z hz), hall z hz⟩
              have hcard := Finset.card_le_card hsubF
              rw [List.toFinset_card_of_nodup hnd, hlenK] at hcard
              omega

theorem tk_fold_aux {α : Type} [LinearOrder α] (K : Nat) :
    ∀ (l off s : List α), TKInv K off s →
    TKInv K (off ++ l) (l.foldl (fun s2 x => (tkConsider K s2 x).1) s) := by
  intro l
  induction l with
  | nil => intro off s h; simpa using h
  | cons a t ih =>
    intro off s h
    rw [List.foldl_cons]
    have h3 := ih (off ++ [a]) _ (tk_step (x := a) h)
    rw [List.append_assoc] at h3
    simpa using h3

theorem tk_fold_inv {α : Type} [LinearOrder α] (K : Nat) (l : List α) :
    TKInv K l (tkFold K l) := by
  have h0 : TKInv K [] ([] : List α) := by
    refine ⟨List.sorted_nil, by simp, ?_⟩
    intro y
    simp
  have h1 := tk_fold_aux K l [] [] h0
  rw [List.nil_append] at h1
  exact h1

/-- `consider` keeps an element iff it is new and either the structure is not
full or the element beats the current worst. -/
theorem tk_consider_true_iff {α : Type} [LinearOrder α] {K : Nat} {s : List α}
    {x : α} (hsort : List.Sorted (· < ·) s) (hle : s.length ≤ K) :
    ((tkConsider K s x).2 = true ↔
      x ∉ s ∧ (s.length < K ∨ ∃ w, s.getLast? = some w ∧ x < w)) := by
  unfold tkConsider
  by_cases hxs : x ∈ s
  · rw [if_pos hxs]
    simp [hxs]
  · rw [if_neg hxs]
    by_cases hidx : s.countP (fun y => decide (y < x)) < K
    · rw [if_pos hidx]
      refine iff_of_true rfl ⟨hxs, ?_⟩
      rcases Nat.lt_or_ge s.length K with hlt | hge
      · exact Or.inl hlt
      · have hlenK : s.length = K := le_antisymm hle hge
        right
        have hsne : s ≠ [] := by
          intro he
          rw [he] at hlenK
          simp at hlenK
          omega
        refine ⟨s.getLast hsne, List.getLast?_eq_getLast s hsne, ?_⟩
        by_contra hnlt
        push_neg at hnlt
        have hall : ∀ y ∈ s, y < x := by
          intro y hy
          have hyle := sorted_le_getLast_opt hsort
            (List.getLast?_eq_getLast s hsne) y hy
          exact lt_of_le_of_ne (le_trans hyle hnlt) (fun he => hxs (he ▸ hy))
        have hcnt : s.countP (fun y => decide (y < x)) = s.length := by
          rw [List.countP_eq_length]
          intro a ha
          exact decide_eq_true (hall a ha)
        omega
    · rw [if_neg hidx]
      push_neg at hidx
      refine iff_of_false (by simp) ?_
      rintro ⟨_, hor⟩
      have hcle : s.countP (fun y => decide (y < x)) ≤ s.length :=
        List.countP_le_length _
      have hlenK : s.length = K := le_antisymm hle (le_trans hidx hcle)
      rcases hor with hlt | ⟨w, hgl, hxw⟩
      · omega
      · have hsne : s ≠ [] := by
          intro he
          rw [he] at hgl
          simp at hgl
        have hpos : 0 < s.length := List.length_pos.mpr hsne
        have hwe : s.getLast hsne = w := by
          have h2 := (List.getLast?_eq_getLast s hsne).symm.trans hgl
          exact Option.some.inj h2
        have hsplit : s.dropLast ++ [s.getLast hsne] = s :=
          List.dropLast_append_getLast hsne
        have hcnt2 : s.countP (fun y => decide (y < x)) =
            s.dropLast.countP (fun y => decide (y < x)) +
            ([s.getLast hsne].countP (fun y => decide (y < x))) := by
          rw [← List.countP_append, hsplit]
        have hw0 : ([s.getLast hsne].countP (fun y => decide (y < x))) = 0 := by
          have hn : ¬ (s.getLast hsne < x) := by
            rw [hwe]
            exact not_lt_of_gt hxw
          simp [List.countP_cons, hn]
        have hdl : s.dropLast.countP (fun y => decide (y < x)) ≤
            s.dropLast.length := List.countP_le_length _
        rw [List.length_dropLast] at hdl
        omega

/-- Claim C8.  Folding any sequence of offers through `TopK::consider` leaves
the structure holding exactly the `min(BEAM, #distinct)` smallest distinct
elements offered, in strictly ascending order; `consider` returns `true`
exactly when the offered element is new and either the structure is not full
or the element is below the current worst; and `cutoff()` is the `BEAM`-th
best element, `None` when fewer than `BEAM` distinct elements were offered. -/
theorem topk_consider_spec {α : Type} [LinearOrder α] (K : Nat) (l : List α)
    (hK : 0 < K) :
    List.Sorted (· < ·) (tkFold K l) ∧
    (∀ y, y ∈ tkFold K l ↔
      y ∈ l ∧ (l.toFinset.filter (fun z => z < y)).card < K) ∧
    (tkFold K l).length = min K l.toFinset.card ∧
    (∀ (s : List α) (x : α), List.Sorted (· < ·) s → s.length ≤ K →
      ((tkConsider K s x).2 = true ↔ x ∉ s ∧
        (s.length < K ∨ ∃ w, s.getLast? = some w ∧ x < w))) ∧
    (tkCutoff K (tkFold K l) = none ↔ l.toFinset.card < K) ∧
    (∀ w, tkCutoff K (tkFold K l) = some w →
      w ∈ l ∧ (l.toFinset.filter (fun z => z < w)).card = K - 1) := by
  obtain ⟨hsort, hlen, hmem⟩ := tk_fold_inv K l
  refine ⟨hsort, hmem, hlen,
    fun s x hs hle => tk_consider_true_iff hs hle, ?_, ?_⟩
  · unfold tkCutoff
    rw [List.get?_eq_none, hlen]
    omega
  · intro w hw
    unfold tkCutoff at hw
    obtain ⟨hlt2, hget⟩ := List.get?_eq_some.mp hw
    have hwm : w ∈ tkFold K l := hget ▸ List.get_mem _ _ _
    have h1 := (hmem w).mp hwm
    refine ⟨h1.1, ?_⟩
    have hmono := List.Sorted.get_strictMono hsort
    have hineq : K - 1 ≤ (l.toFinset.filter (fun z => z < w)).card := by
      have hcard := Finset.card_le_card_of_injOn
        (s := Finset.range (K - 1))
        (t := l.toFinset.filter (fun z => z < w))
        (fun i => (tkFold K l).getD i w)
        (fun i hi => ?_) (fun i hi j hj hij => ?_)
      · rw [Finset.card_range] at hcard
        exact hcard
      · rw [Finset.mem_range] at hi
        have hilt : i < (tkFold K l).length := by omega
        show (tkFold K l).getD i w ∈ Finset.filter (fun z => z < w) l.toFinset
        rw [List.getD_eq_get?, List.get?_eq_get hilt]
        simp only [Option.getD_some]
        rw [Finset.mem_filter]
        refine ⟨List.mem_toFinset.mpr
          ((hmem _).mp (List.get_mem _ _ _)).1, ?_⟩
        rw [← hget]
        exact hmono (Fin.mk_lt_mk.mpr hi)
      · rw [Finset.mem_coe, Finset.mem_range] at hi hj
        simp only [] at hij
        have hilt : i < (tkFold K l).length := by omega
        have hjlt : j < (tkFold K l).length := by omega
        rw [List.getD_eq_get?, List.get?_eq_get hilt,
          List.getD_eq_get?, List.get?_eq_get hjlt] at hij
        simp only [Option.getD_some] at hij
        exact congrArg Fin.val (hmono.injective hij)
    have hBlt := h1.2
    omega

theorem topk_consider_spec_witness :
    0 < 2 ∧
    (List.Sorted (· < ·) (tkFold 2 ([3, 1, 3, 0, 5] : List ℤ)) ∧
    (∀ y, y ∈ tkFold 2 ([3, 1, 3, 0, 5] : List ℤ) ↔
      y ∈ ([3, 1, 3, 0, 5] : List ℤ) ∧
        (([3, 1, 3, 0, 5] : List ℤ).toFinset.filter (fun z => z < y)).card < 2) ∧
    (tkFold 2 ([3, 1, 3, 0, 5] : List ℤ)).length =
      min 2 ([3, 1, 3, 0, 5] : List ℤ).toFinset.card ∧
    (∀ (s : List ℤ) (x : ℤ), List.Sorted (· < ·) s → s.length ≤ 2 →
      ((tkConsider 2 s x).2 = true ↔ x ∉ s ∧
        (s.length < 2 ∨ ∃ w, s.getLast? = some w ∧ x < w))) ∧
    (tkCutoff 2 (tkFold 2 ([3, 1, 3, 0, 5] : List ℤ)) = none ↔
      ([3, 1, 3, 0, 5] : List ℤ).toFinset.card < 2) ∧
    (∀ w, tkCutoff 2 (tkFold 2 ([3, 1, 3, 0, 5] : List ℤ)) = some w →
      w ∈ ([3, 1, 3, 0, 5] : List ℤ) ∧
        (([3, 1, 3, 0, 5] : List ℤ).toFinset.filter (fun z => z < w)).card = 2 - 1)) :=
  ⟨by decide, topk_consider_spec 2 [3, 1, 3, 0, 5] (by decide)⟩

/-! ### `SimpleEGraph::from_str` (`egraph.rs`)

Strings are handled through structural character-list functions (split,
trim, prefix test) so that every definition evaluates inside the kernel;
whitespace is the ASCII whitespace the input format uses. -/

/-- A `Node` of the textual e-graph format. -/
structure SNode where
  op : String
  cost : Cost
  children : List Nat
deriving DecidableEq, Repr

/-- A `Class` of the textual e-graph format. -/
structure SClass where
  id : Nat
  nodes : List SNode
deriving DecidableEq, Repr

/-- The parsed `SimpleEGraph`: root indices and name-keyed classes in
insertion order. -/
structure SimpleEGraph where
  roots : List Nat
  classes : List (String × SClass)
deriving DecidableEq, Repr

def splitOnCharGo (c : Char) : List Char → List Char → List (List Char)
  | [], acc => [acc.reverse]
  | a :: rest, acc =>
    if a = c then acc.reverse :: splitOnCharGo c rest []
    else splitOnCharGo c rest (a :: acc)

/-- `str::split(c)`: always at least one (possibly empty) segment. -/
def splitOnChar (c : Char) (l : List Char) : List (List Char) :=
  splitOnCharGo c l []

def isWS (c : Char) : Bool :=
  c == ' ' || c == Char.ofNat 9 || c == Char.ofNat 10 || c == Char.ofNat 13

/-- `str::trim`. -/
def trimChars (l : List Char) : List Char :=
  ((l.dropWhile isWS).reverse.dropWhile isWS).reverse

def strTrim (s : String) : String := String.mk (trimChars s.data)

def strSplitOn (c : Char) (s : String) : List String :=
  (splitOnChar c s.data).map String.mk

def isPrefixL : List Char → List Char → Bool
  | [], _ => true
  | _ :: _, [] => false
  | a :: p, b :: q => a == b && isPrefixL p q

/-- `str::starts_with`. -/
def strStartsWith (s p : String) : Bool := isPrefixL p.data s.data

def strDrop (s : String) (n : Nat) : String := String.mk (s.data.drop n)

/-- `s.lines()`: split at newlines, drop the optional final line ending, and
strip a carriage return left at the end of a line by a CRLF ending (a lone
trailing CR without a newline is also stripped here; the parser trims each
line immediately, so the difference is unobservable). -/
def rustLines (s : String) : List String :=
  let parts := splitOnChar (Char.ofNat 10) s.data
  let parts := if parts.getLast? = some [] then parts.dropLast else parts
  parts.map (fun l =>
    String.mk (if l.getLast? = some (Char.ofNat 13) then l.dropLast else l))

/-- Position of a key among the map's keys, in insertion order
(`IndexMap` index). -/
def keyIdx : List (String × SClass) → String → Option Nat
  | [], _ => none
  | p :: rest, nm =>
    if p.1 = nm then some 0
    else (keyIdx rest nm).map (fun i => i + 1)

/-- The `get_index` closure of `from_str`: `entry(s).index()` followed by
`entry.or_default()` — the existing index, or a fresh empty class appended at
the end. -/
def getIndex (classes : List (String × SClass)) (nm : String) :
    Nat × List (String × SClass) :=
  match keyIdx classes nm with
  | some i => (i, classes)
  | none => (classes.length, classes ++ [(nm, { id := 0, nodes := [] })])

/-- Append a node to the class at position `i` (`get_index_mut(class_i)`). -/
def pushNodeAt : List (String × SClass) → Nat → SNode → List (String × SClass)
  | [], _, _ => []
  | p :: rest, 0, nd => (p.1, { id := p.2.id, nodes := p.2.nodes ++ [nd] }) :: rest
  | p :: rest, i + 1, nd => p :: pushNodeAt rest i nd

/-- The running parse state: the class map and the raw (undeduplicated) root
index list. -/
structure PState where
  classes : List (String × SClass)
  roots : List Nat
deriving DecidableEq, Repr

/-- `line.strip_prefix("## root:").or_else(|| line.strip_prefix("## roots:"))`. -/
def stripRootPrefix (line : String) : Option String :=
  if strStartsWith line "## root:" then some (strDrop line 8)
  else if strStartsWith line "## roots:" then some (strDrop line 9)
  else none

/-- Handling of a root declaration: each comma-separated name is trimmed and
resolved through `get_index`, and its index pushed onto the raw root list. -/
def procRoots (st : PState) (rest : String) : PState :=
  (strSplitOn ',' rest).foldl (fun st2 rn =>
    { classes := (getIndex st2.classes (strTrim rn)).2,
      roots := st2.roots ++ [(getIndex st2.classes (strTrim rn)).1] }) st

/-- One line of `from_str`'s main loop (`i` is the 1-based line number,
`pc` the cost parser: `str::parse::<Cost>`, external to this crate). -/
def procLine (i : Nat) (pc : String → Option Cost) (st : PState)
    (line0 : String) : Except String PState :=
  let line := strTrim line0
  if strStartsWith line "#" || line = "" then
    match stripRootPrefix line with
    | some rest => .ok (procRoots st rest)
    | none => .ok st
  else
    match strSplitOn ',' line with
    | [] => .error ("missing class on line " ++ toString i)
    | class_name :: parts1 =>
      match parts1 with
      | [] => .error ("missing cost on line " ++ toString i)
      | cost_str :: parts2 =>
        match pc cost_str with
        | none => .error ("invalid cost on line " ++ toString i ++ " " ++ cost_str)
        | some cost =>
          match parts2 with
          | [] => .error ("missing op on line " ++ toString i)
          | op :: parts3 =>
            let gi := getIndex st.classes class_name
            let r := parts3.foldl
              (fun (acc : List (String × SClass) × List Nat) cn =>
                ((getIndex acc.1 cn).2, acc.2 ++ [(getIndex acc.1 cn).1]))
              (gi.2, [])
            .ok { classes :=
                    pushNodeAt r.1 gi.1 { op := op, cost := cost, children := r.2 },
                  roots := st.roots }

/-- The enumerated line loop of `from_str`. -/
def procLines (pc : String → Option Cost) :
    Nat → PState → List String → Except String PState
  | _, st, [] => .ok st
  | i, st, l :: rest =>
    match procLine i pc st l with
    | .error e => .error e
    | .ok st2 => procLines pc (i + 1) st2 rest

/-- The epilogue of `from_str`: set each class's `id` to its position and
reject the first class without nodes. -/
def setIdsCheck : Nat → List (String × SClass) →
    Except String (List (String × SClass))
  | _, [] => .ok []
  | i, p :: rest =>
    if p.2.nodes.isEmpty then .error ("class " ++ p.1 ++ " is empty")
    else
      match setIdsCheck (i + 1) rest with
      | .error e => .error e
      | .ok rest2 => .ok ((p.1, { id := i, nodes := p.2.nodes }) :: rest2)

/-- `SimpleEGraph::from_str`: parse all lines, set ids and check for empty
classes, and deduplicate the roots keeping first-seen order (the `IndexSet`
round-trip). -/
def fromStr (pc : String → Option Cost) (s : String) :
    Except String SimpleEGraph :=
  match procLines pc 1 { classes := [], roots := [] } (rustLines s) with
  | .error e => .error e
  | .ok st =>
    match setIdsCheck 0 st.classes with
    | .error e => .error e
    | .ok cls => .ok { roots := dedupF st.roots, classes := cls }

theorem nodup_dedupGo : ∀ (l seen : List Nat), (dedupGo seen l).Nodup := by
  intro l
  induction l with
  | nil => intro seen; simp [dedupGo]
  | cons a t ih =>
    intro seen
    by_cases ha : a ∈ seen
    · rw [show dedupGo seen (a :: t) = dedupGo seen t from by simp [dedupGo, ha]]
      exact ih seen
    · rw [show dedupGo seen (a :: t) = a :: dedupGo (a :: seen) t from by
        simp [dedupGo, ha]]
      rw [List.nodup_cons]
      refine ⟨?_, ih (a :: seen)⟩
      intro hmem
      exact ((mem_dedupGo (a :: seen) t a).mp hmem).2 (List.mem_cons_self a seen)

theorem nodup_dedupF (l : List Nat) : (dedupF l).Nodup := nodup_dedupGo l []

theorem keyIdx_eq_none_of_not_mem {cls : List (String × SClass)} {nm : String}
    (h : nm ∉ cls.map Prod.fst) : keyIdx cls nm = none := by
  induction cls with
  | nil => rfl
  | cons a rest ih =>
    have h1 : ¬ a.1 = nm := fun he => h (by
      rw [List.map_cons]
      exact List.mem_cons.mpr (Or.inl he.symm))
    have h2 : nm ∉ rest.map Prod.fst := fun hm => h (by
      rw [List.map_cons]
      exact List.mem_cons.mpr (Or.inr hm))
    rw [show keyIdx (a :: rest) nm =
      (if a.1 = nm then some 0 else (keyIdx rest nm).map (fun i => i + 1)) from rfl,
      if_neg h1, ih h2]
    rfl

/-- The epilogue accepts only classes with nodes. -/
theorem setIdsCheck_ok_nodes :
    ∀ {cls : List (String × SClass)} {i : Nat} {cls2},
    setIdsCheck i cls = Except.ok cls2 → ∀ p ∈ cls2, p.2.nodes ≠ [] := by
  intro cls
  induction cls with
  | nil =>
    intro i cls2 h p hp
    rw [show setIdsCheck i [] = Except.ok [] from rfl] at h
    injection h with h2
    rw [← h2] at hp
    simp at hp
  | cons a rest ih =>
    intro i cls2 h p hp
    by_cases ha : a.2.nodes.isEmpty
    · rw [show setIdsCheck i (a :: rest) =
        Except.error ("class " ++ a.1 ++ " is empty") from by
        unfold setIdsCheck; rw [if_pos ha]] at h
      exact absurd h (by simp)
    · cases hrec : setIdsCheck (i + 1) rest with
      | error e =>
        rw [show setIdsCheck i (a :: rest) = Except.error e from by
          unfold setIdsCheck; rw [if_neg ha, hrec]] at h
        exact absurd h (by simp)
      | ok rest2 =>
        rw [show setIdsCheck i (a :: rest) =
          Except.ok ((a.1, { id := i, nodes := a.2.nodes }) :: rest2) from by
          unfold setIdsCheck; rw [if_neg ha, hrec]] at h
        injection h with h2
        rw [← h2] at hp
        rcases List.mem_cons.mp hp with hpa | hpr
        · rw [hpa]
          intro hc
          have hc2 : a.2.nodes = [] := hc
          exact ha (by rw [hc2]; rfl)
        · exact ih hrec p hpr

/-- The epilogue rejects a class map holding an empty class, naming an empty
class in its error message. -/
theorem setIdsCheck_error_of_empty :
    ∀ {cls : List (String × SClass)}, (∃ p ∈ cls, p.2.nodes = []) →
    ∃ nm c, (nm, c) ∈ cls ∧ c.nodes = [] ∧
      ∀ i, setIdsCheck i cls = Except.error ("class " ++ nm ++ " is empty") := by
  intro cls
  induction cls with
  | nil =>
    rintro ⟨p, hp, _⟩
    simp at hp
  | cons a rest ih =>
    rintro ⟨p, hp, hpe⟩
    by_cases ha : a.2.nodes.isEmpty
    · have hae : a.2.nodes = [] := by
        cases h2 : a.2.nodes with
        | nil => rfl
        | cons x t => rw [h2] at ha; simp at ha
      refine ⟨a.1, a.2, ?_, hae, ?_⟩
      · rw [show ((a.1, a.2) : String × SClass) = a from rfl]
        exact List.mem_cons_self a rest
      · intro i
        unfold setIdsCheck
        rw [if_pos ha]
    · rcases List.mem_cons.mp hp with hpa | hpr
      · exfalso
        rw [hpa] at hpe
        exact ha (by rw [hpe]; rfl)
      · obtain ⟨nm, c, hmem, hce, herr⟩ := ih ⟨p, hpr, hpe⟩
        refine ⟨nm, c, List.mem_cons_of_mem _ hmem, hce, ?_⟩
        intro i
        unfold setIdsCheck
        rw [if_neg ha, herr (i + 1)]

/-- Claim C9.  Whenever `from_str` returns `Ok`, every class of the parsed
e-graph has at least one node, and the root list is the raw declared-root
sequence deduplicated in first-seen order (each declared root appears exactly
once); conversely, if the line loop succeeds but leaves a class whose entry
was created only by a child or root mention — an entry with no nodes —
`from_str` returns the `class ... is empty` error, and a mention of an
undeclared name does create exactly such an empty entry (`get_index`). -/
theorem from_str_spec (pc : String → Option Cost) (s : String) :
    (∀ g, fromStr pc s = Except.ok g →
      (∀ p ∈ g.classes, p.2.nodes ≠ []) ∧
      (∃ st, procLines pc 1 { classes := [], roots := [] } (rustLines s) =
          Except.ok st ∧
        g.roots = dedupF st.roots ∧ g.roots.Nodup ∧
        (∀ r, r ∈ g.roots ↔ r ∈ st.roots))) ∧
    (∀ st, procLines pc 1 { classes := [], roots := [] } (rustLines s) =
        Except.ok st →
      (∃ p ∈ st.classes, p.2.nodes = []) →
      ∃ nm c, (nm, c) ∈ st.classes ∧ c.nodes = [] ∧
        fromStr pc s = Except.error ("class " ++ nm ++ " is empty")) ∧
    (∀ cls nm, nm ∉ cls.map Prod.fst →
      (getIndex cls nm).2 = cls ++ [(nm, { id := 0, nodes := [] })]) := by
  refine ⟨?_, ?_, ?_⟩
  · intro g hg
    unfold fromStr at hg
    cases hpl : procLines pc 1 { classes := [], roots := [] } (rustLines s) with
    | error e =>
      rw [hpl] at hg
      simp at hg
    | ok st =>
      rw [hpl] at hg
      simp only [] at hg
      cases hsc : setIdsCheck 0 st.classes with
      | error e =>
        rw [hsc] at hg
        simp at hg
      | ok cls =>
        rw [hsc] at hg
        simp only [] at hg
        injection hg with hg2
        cases hg2
        refine ⟨?_, st, rfl, rfl, nodup_dedupF st.roots, ?_⟩
        · intro p hp
          exact setIdsCheck_ok_nodes hsc p hp
        · intro r
          exact mem_dedupF st.roots r
  · intro st hpl hemp
    obtain ⟨nm, c, hmem, hce, herr⟩ := setIdsCheck_error_of_empty hemp
    refine ⟨nm, c, hmem, hce, ?_⟩
    unfold fromStr
    rw [hpl]
    simp only []
    rw [herr 0]
  · intro cls nm hnm
    unfold getIndex
    rw [keyIdx_eq_none_of_not_mem hnm]
